import Mathlib

/-!
# HashMap-implementation-in-C: a shallow embedding of `Vector.c` and `HashMap.c`

The C sources implement a separate-chaining hash table (`HashMap.c`) whose
buckets are dynamically resizing arrays (`Vector.c`).  This file translates both
into Lean functions over explicit state and proves (or refutes, at concrete
inputs) properties of them.

Modelling conventions
* A pointer to a heap object is modelled by the object itself; a pointer that
  may be `NULL` is an `Option`.
* `size_t` values are natural numbers.  `map->size--` at `size == 0` is modelled
  by `size_dec` (wrap to `SIZE_MAX`, 64-bit `size_t`); `capacity - 1` inside
  `Hash` wraps in the same way.  `map->size++` and `capacity *= 2` are not
  reduced modulo `2 ^ 64`: the model agrees with the C code as long as the
  capacity stays below `2 ^ 64` and no `map->size++` is executed at
  `size == SIZE_MAX`, a value that `size` takes only after a wrapped
  `map->size--`.  On the runs evaluated in this file `size` is at most 14.
* `Vector.c` converts an index to `int` in two places: `VectorFind` returns
  `(int) i`, and `VectorErase` passes `ind` to the parameter `int hole_idx` of
  `ArrangeVector`.  `VectorFind`, `ArrangeVector` and `VectorErase` keep the
  index as it is; this is the C behaviour while the index is at most
  `INT_MAX = 2 ^ 31 - 1`, and it is what the hash-map part uses (its buckets
  hold at most `INT_MAX + 1` pairs).  `VectorFindInt`, `ArrangeVectorInt` and
  `VectorEraseInt` include the conversions (32-bit two's complement `int`);
  the statements on `VectorFind` and `VectorErase` are about them.
* The load factor `(double) size / capacity` is kept as the exact fraction
  `size / capacity` and compared with `0.75 = 3/4` and `0.25 = 1/4` by cross
  multiplication.  The capacities are far below `2 ^ 50`, where the double
  division cannot change the outcome of the two comparisons.
* `malloc`/`realloc` succeed.  The element copy function is a field of the
  container and may fail (return `none`).
* A result `none` of an operation means that the run left the model: the fuel
  of the recursion or of a `while` loop ran out, or the C code would read
  memory it may not read (a `NULL` element, a slot outside the live part of a
  vector, a bucket outside the bucket array).
* `ReInsertBucket` keeps the pointer to the vector it scans, the model reads the
  vector from its slot of the bucket array.  The two agree unless a growth
  nested in the rehash of a shrink lets `VectorsAllocator` overwrite that slot;
  the C code then goes on with the old vector and ends with a bucket array
  shorter than the capacity (so at a shrink from capacity 2 to 1 with a pair in
  bucket 1).  Tables past such a shrink are outside the model, and no run
  evaluated in this file contains one.
-/

namespace HashMapC

/-! ## Constants (headers `Vector.h`, `HashMap.h`) -/

/-- Largest value of `size_t` (64 bit). -/
def SIZE_MAX : Nat := 2 ^ 64 - 1

/-- Modelled from the spec: `Vector.h` is not part of the sources; the initial
capacity of a vector is the upstream value 16. -/
def VECTOR_INITIAL_CAP : Nat := 16

/-- Modelled from the spec: growth multiplier `G` of a vector, upstream value 2. -/
def VECTOR_GROWTH_FACTOR : Nat := 2

/-- Modelled from the spec: `HashMap.h` is not part of the sources; the initial
capacity of a table is 16. -/
def HASH_MAP_INITIAL_CAP : Nat := 16

/-- Modelled from the spec: growth multiplier of the table, 2. -/
def HASH_MAP_GROWTH_FACTOR : Nat := 2

/-- `#define ADD 1`. -/
def ADD : Int := 1

/-- `#define REMOVE -1`. -/
def REMOVE : Int := -1

/-- `#define SUCCESS 1`. -/
def SUCCESS : Int := 1

/-- `#define FAILURE 0` (`NO_SUCCESS`, `NOT_FOUND`). -/
def FAILURE : Int := 0

/-- `#define FAIL (-1)`. -/
def FAIL : Int := -1

/-- A load factor: `some (size, capacity)` is the quotient `size / capacity`,
`none` is the failure value `-1`. -/
abbrev LoadFactor := Option (Nat × Nat)

/-- Modelled from the spec: `load_factor > MAX_LOAD_FACTOR` with the upper
threshold `0.75`; `-1 > 0.75` is false. -/
def gtMaxLoadFactor : LoadFactor → Bool
  | some (size, capacity) => decide (3 * capacity < 4 * size)
  | none => false

/-- Modelled from the spec: `load_factor < MIN_LOAD_FACTOR` with the lower
threshold `0.25`; `-1 < 0.25` is true. -/
def ltMinLoadFactor : LoadFactor → Bool
  | some (size, capacity) => decide (4 * size < capacity)
  | none => true

/-- The statement `size--` on a `size_t`. -/
def size_dec (size : Nat) : Nat := if size = 0 then SIZE_MAX else size - 1

/-! ## `Vector.c` -/

/-- The `Vector` struct.  `data` lists the live slots `data[0 .. size-1]`, so the
field `size` of the C struct is `data.length`; a slot is `none` when it holds
`NULL`.  `β` is the type of the second argument of the comparison function
(a `void *` in C).  `elem_free_func` only releases memory and is not modelled. -/
structure Vector (α β : Type) where
  capacity : Nat
  data : List (Option α)
  elem_copy_func : α → Option α
  elem_cmp_func : α → β → Bool

variable {α β : Type}

/-- The field `size`. -/
def Vector.size (vector : Vector α β) : Nat := vector.data.length

/-- `VectorGetLoadFactor`. -/
def VectorGetLoadFactor (vector : Vector α β) : LoadFactor :=
  if vector.capacity ≠ 0 then some (vector.size, vector.capacity) else none

/-- `ResizeVector`: the capacity is doubled or halved; the live slots keep their
indices. -/
def ResizeVector (vector : Vector α β) (change : Int) : Vector α β :=
  let load_factor := VectorGetLoadFactor vector
  if gtMaxLoadFactor load_factor && change == ADD then
    { vector with capacity := vector.capacity * VECTOR_GROWTH_FACTOR }
  else if ltMinLoadFactor load_factor && change == REMOVE then
    { vector with capacity := vector.capacity / VECTOR_GROWTH_FACTOR }
  else vector

/-- `VectorAlloc` (the three function arguments are non-null). -/
def VectorAlloc (elem_copy_func : α → Option α) (elem_cmp_func : α → β → Bool) :
    Vector α β :=
  { capacity := VECTOR_INITIAL_CAP, data := [],
    elem_copy_func := elem_copy_func, elem_cmp_func := elem_cmp_func }

/-- `VectorAt`: `NULL` when `ind >= size`, otherwise the slot. -/
def VectorAt (vector : Vector α β) (ind : Nat) : Option α :=
  if ind ≥ vector.size then none else (vector.data[ind]?).join

/-- The loop of `VectorFind` over the slots from index `i` on. -/
def VectorFindLoop (cmp : α → β → Bool) (value : β) : List (Option α) → Nat → Int
  | [], _ => FAIL
  | none :: rest, i => VectorFindLoop cmp value rest (i + 1)
  | some e :: rest, i =>
    if cmp e value then (i : Int) else VectorFindLoop cmp value rest (i + 1)

/-- `VectorFind` (for a non-null `value`), the returned index not converted to `int`: the
result of the C function on a vector of at most `INT_MAX + 1` slots (`VectorFindInt_eq`). -/
def VectorFind (vector : Vector α β) (value : β) : Int :=
  VectorFindLoop vector.elem_cmp_func value vector.data 0

/-- `VectorPushBack` (for a non-null `value`): the copy is stored in
`data[size]`; when the copy is `NULL` the size is taken back. -/
def VectorPushBack (vector : Vector α β) (value : α) : Int × Vector α β :=
  match vector.elem_copy_func value with
  | some copy => (SUCCESS, ResizeVector { vector with data := vector.data ++ [some copy] } ADD)
  | none => (FAILURE, vector)

/-- The loop of `ArrangeVector`, `data[i] = data[i + 1]`, on the slots `data[0 .. size]`;
`count` is the number of iterations left. -/
def ArrangeVectorLoop : Nat → Nat → List (Option α) → List (Option α)
  | 0, _, slots => slots
  | count + 1, i, slots =>
    ArrangeVectorLoop count (i + 1) (slots.set i (slots[i + 1]?).join)

/-- `ArrangeVector`: the slots `data[0 .. size]` after the loop
`for (i = hole_idx; i < size; i++) data[i] = data[i + 1]`.  The last iteration reads the slot
`data[size]`, which is not live; its content is taken to be `NULL`.  The hole index is not
converted to `int`: the result of the C function for `hole_idx <= INT_MAX`
(`ArrangeVectorInt_eq`). -/
def ArrangeVector (vector : Vector α β) (hole_idx : Nat) : List (Option α) :=
  ArrangeVectorLoop (vector.size - hole_idx) hole_idx (vector.data ++ [none])

/-- `VectorErase`: after `ArrangeVector` the statement `vector->size--` leaves the first
`size - 1` slots live. -/
def VectorErase (vector : Vector α β) (ind : Nat) : Int × Vector α β :=
  if ind ≥ vector.size then (FAILURE, vector)
  else
    (SUCCESS,
      ResizeVector
        { vector with data := (ArrangeVector vector ind).take (vector.size - 1) } REMOVE)

/-- The loop of `VectorClear`, `i` counting down. -/
def VectorClearLoop : Nat → Vector α β → Vector α β
  | 0, vector => vector
  | i + 1, vector => VectorClearLoop i (VectorErase vector i).2

/-- `VectorClear`. -/
def VectorClear (vector : Vector α β) : Vector α β :=
  VectorClearLoop vector.size vector

/-! ## `HashMap.c` -/

/-- Modelled from the spec: the `Pair` struct is declared in a header that is
not part of the sources.  A pair has a key, a value and comparison handles for
keys and for values. -/
structure Pair (K V : Type) where
  key : K
  value : V
  key_cmp : K → K → Bool
  value_cmp : V → V → Bool

/-- What the second (`void *`) argument of a bucket's comparison function points
to: a bare key, a bare value or a pair. -/
inductive Obj (K V : Type) where
  | key (k : K)
  | value (v : V)
  | pair (p : Pair K V)

/-- A bucket: a vector of pairs. -/
abbrev Bucket (K V : Type) := Vector (Pair K V) (Obj K V)

/-- The `HashMap` struct.  `buckets` is the allocated bucket array (its length is
the number of allocated slots).  `pair_free` only releases memory and is not
modelled. -/
structure HashMap (K V : Type) where
  buckets : List (Bucket K V)
  size : Nat
  capacity : Nat
  pair_cpy : Pair K V → Option (Pair K V)
  pair_cmp : Pair K V → Obj K V → Bool
  hash_func : K → Nat

variable {K V : Type}

/-- The two static variables of `ElemCmpWrapper` after an installation call. -/
inductive WrapperStatic (K V : Type) where
  | KEY (elem_cmp_func : K → K → Bool)
  | VALUE (elem_cmp_func : V → V → Bool)

/-- `ElemCmpWrapper` in using mode (both arguments non-null).  Every use in
`HashMap.c` directly follows the installation call of `INSTALL_WRAPPER`, so the
static variables are passed as the first argument. -/
def ElemCmpWrapper (static : WrapperStatic K V) (elem_1 : Pair K V) (elem_2 : Obj K V) :
    Bool :=
  match static, elem_2 with
  | .KEY elem_cmp_func, .key k => elem_cmp_func elem_1.key k
  | .VALUE elem_cmp_func, .value v => elem_cmp_func elem_1.value v
  | _, _ => false

/-- `Hash`: the bucket index `hash_func(key) & (capacity - 1)`. -/
def Hash (map : HashMap K V) (capacity : Nat) (key : K) : Nat :=
  Nat.land (map.hash_func key) (if capacity = 0 then SIZE_MAX else capacity - 1)

/-- `HashMapGetLoadFactor`. -/
def HashMapGetLoadFactor (hash_map : HashMap K V) : LoadFactor :=
  if hash_map.capacity ≠ 0 then some (hash_map.size, hash_map.capacity) else none

/-- `VectorsAllocator` with succeeding allocations: the slots
`[map->capacity, new_capacity)` of the bucket array receive new vectors. -/
def VectorsAllocator (map : HashMap K V) (new_capacity : Nat) : Int × HashMap K V :=
  (SUCCESS,
    { map with
      buckets := map.buckets.take map.capacity ++
        List.replicate (new_capacity - map.capacity) (VectorAlloc map.pair_cpy map.pair_cmp),
      capacity := new_capacity })

/-- `GetPairLocationByKey`: returns the result, `*bucket_idx`, `*in_vector_idx`
and the table (the comparison function of the bucket is replaced by the wrapper
for the search and then set to `pair_cmp`). -/
def GetPairLocationByKey (key : K) (hash_map : HashMap K V) :
    Option (Bool × Nat × Nat × HashMap K V) :=
  let bucket_idx := Hash hash_map hash_map.capacity key
  match hash_map.buckets[bucket_idx]? with
  | none => none
  | some vector =>
    if vector.size = 0 then some (false, bucket_idx, 0, hash_map)
    else
      match vector.data[0]? with
      | some (some first) =>
        let wrapped : Bucket K V :=
          { vector with elem_cmp_func := ElemCmpWrapper (.KEY first.key_cmp) }
        let return_val := VectorFind wrapped (.key key)
        let restored : Bucket K V := { wrapped with elem_cmp_func := hash_map.pair_cmp }
        some (return_val != FAIL, bucket_idx, return_val.toNat,
          { hash_map with buckets := hash_map.buckets.set bucket_idx restored })
      | _ => none

/-- The loop of `ReInsertBucket`; `j + 1` is the loop variable.  `ins` is
`HashMapInsert`.  The vector of the loop is the one in slot `bucket_idx`. -/
def ReInsertBucketLoop (ins : HashMap K V → Pair K V → Option (Int × HashMap K V))
    (bucket_idx old_capacity new_capacity : Nat) : Nat → HashMap K V → Option (HashMap K V)
  | 0, map => some map
  | j + 1, map =>
    match map.buckets[bucket_idx]? with
    | none => none
    | some vector =>
      match vector.data[j]? with
      | some (some pair) =>
        if old_capacity < new_capacity ∧
            Hash map new_capacity pair.key = Hash map old_capacity pair.key then some map
        else
          match ins map pair with
          | none => none
          | some (_, map1) =>
            match map1.buckets[bucket_idx]? with
            | none => none
            | some vector1 =>
              let map2 : HashMap K V :=
                { map1 with buckets := map1.buckets.set bucket_idx (VectorErase vector1 j).2 }
              ReInsertBucketLoop ins bucket_idx old_capacity new_capacity j
                { map2 with size := size_dec map2.size }
      | _ => none

/-- `ReInsertBucket`. -/
def ReInsertBucket (ins : HashMap K V → Pair K V → Option (Int × HashMap K V))
    (map : HashMap K V) (bucket_idx old_capacity new_capacity : Nat) : Option (HashMap K V) :=
  match map.buckets[bucket_idx]? with
  | none => none
  | some vector =>
    if vector.size = 0 then some map
    else ReInsertBucketLoop ins bucket_idx old_capacity new_capacity vector.size map

/-- A loop `for (i = start; i < start + count; i++) ReInsertBucket(map, i, ...)`. -/
def ReInsertRange (ins : HashMap K V → Pair K V → Option (Int × HashMap K V))
    (old_capacity new_capacity : Nat) : Nat → Nat → HashMap K V → Option (HashMap K V)
  | 0, _, map => some map
  | count + 1, i, map =>
    match ReInsertBucket ins map i old_capacity new_capacity with
    | none => none
    | some map1 => ReInsertRange ins old_capacity new_capacity count (i + 1) map1

/-- `ReInsertElems`. -/
def ReInsertElems (ins : HashMap K V → Pair K V → Option (Int × HashMap K V))
    (map : HashMap K V) (old_capacity new_capacity : Nat) : Option (HashMap K V) :=
  if old_capacity > new_capacity then
    ReInsertRange ins old_capacity new_capacity (old_capacity - new_capacity) new_capacity map
  else if old_capacity < new_capacity then
    ReInsertRange ins old_capacity new_capacity old_capacity 0 map
  else some map

/-- `ResizeMap`. -/
def ResizeMap (ins : HashMap K V → Pair K V → Option (Int × HashMap K V))
    (map : HashMap K V) (change : Int) : Option (HashMap K V) :=
  let load_factor := HashMapGetLoadFactor map
  let old_cap := map.capacity
  if gtMaxLoadFactor load_factor && change == ADD then
    let new_cap := old_cap * HASH_MAP_GROWTH_FACTOR
    ReInsertElems ins (VectorsAllocator map new_cap).2 old_cap new_cap
  else if ltMinLoadFactor load_factor && change == REMOVE then
    let new_cap := old_cap / HASH_MAP_GROWTH_FACTOR
    match ReInsertElems ins { map with capacity := new_cap } old_cap new_cap with
    | none => none
    | some map1 => some { map1 with buckets := map1.buckets.take new_cap }
  else some map

/-- `HashMapInsert` (for non-null arguments).  `fuel` bounds the depth of the
recursion `HashMapInsert -> ResizeMap -> ReInsertElems -> ReInsertBucket ->
HashMapInsert`. -/
def HashMapInsert : Nat → HashMap K V → Pair K V → Option (Int × HashMap K V)
  | 0, _, _ => none
  | fuel + 1, hash_map, pair =>
    match GetPairLocationByKey pair.key hash_map with
    | none => none
    | some (found, bucket_idx, in_vector_idx, map1) =>
      match map1.buckets[bucket_idx]? with
      | none => none
      | some vector =>
        if found then
          let vector1 : Bucket K V :=
            { vector with data := vector.data.set in_vector_idx (vector.elem_copy_func pair) }
          some (SUCCESS, { map1 with buckets := map1.buckets.set bucket_idx vector1 })
        else
          let pushed := VectorPushBack vector pair
          if pushed.1 = 0 then some (FAILURE, map1)
          else
            let map2 : HashMap K V :=
              { map1 with buckets := map1.buckets.set bucket_idx pushed.2,
                          size := map1.size + 1 }
            match ResizeMap (HashMapInsert fuel) map2 ADD with
            | none => none
            | some map3 => some (SUCCESS, map3)

/-- `HashMapAlloc` (for non-null function arguments). -/
def HashMapAlloc (hash_func : K → Nat) (pair_cpy : Pair K V → Option (Pair K V))
    (pair_cmp : Pair K V → Obj K V → Bool) : HashMap K V :=
  (VectorsAllocator
    { buckets := [], size := 0, capacity := 0, pair_cpy := pair_cpy,
      pair_cmp := pair_cmp, hash_func := hash_func } HASH_MAP_INITIAL_CAP).2

/-- The loop of `HashMapContainsValue` over the buckets `i, i + 1, ...`; `count`
is the number of buckets left. -/
def ContainsValueLoop (value : V) : Nat → Nat → HashMap K V → Option (Int × HashMap K V)
  | 0, _, hash_map => some (FAILURE, hash_map)
  | count + 1, i, hash_map =>
    match hash_map.buckets[i]? with
    | none => none
    | some vector =>
      if vector.size = 0 then ContainsValueLoop value count (i + 1) hash_map
      else
        match vector.data[0]? with
        | some (some first) =>
          let wrapped : Bucket K V :=
            { vector with elem_cmp_func := ElemCmpWrapper (.VALUE first.value_cmp) }
          let return_val := VectorFind wrapped (.value value)
          let restored : Bucket K V := { wrapped with elem_cmp_func := hash_map.pair_cmp }
          let map1 : HashMap K V :=
            { hash_map with buckets := hash_map.buckets.set i restored }
          if return_val != FAIL then some (1, map1)
          else ContainsValueLoop value count (i + 1) map1
        | _ => none

/-- `HashMapContainsValue` (for a non-null value). -/
def HashMapContainsValue (hash_map : HashMap K V) (value : V) :
    Option (Int × HashMap K V) :=
  if hash_map.size = 0 then some (FAILURE, hash_map)
  else ContainsValueLoop value hash_map.capacity 0 hash_map

/-- `HashMapAt` (for a non-null key): the value found, or `NULL`. -/
def HashMapAt (hash_map : HashMap K V) (key : K) : Option (Option V × HashMap K V) :=
  if hash_map.size = 0 then some (none, hash_map)
  else
    match GetPairLocationByKey key hash_map with
    | none => none
    | some (found, bucket_idx, in_vector_idx, map1) =>
      if found then
        match map1.buckets[bucket_idx]? with
        | none => none
        | some vector =>
          match vector.data[in_vector_idx]? with
          | some (some pair) => some (some pair.value, map1)
          | _ => none
      else some (none, map1)

/-- `HashMapContainsKey`. -/
def HashMapContainsKey (hash_map : HashMap K V) (key : K) : Option (Int × HashMap K V) :=
  match HashMapAt hash_map key with
  | none => none
  | some (value, map1) => some (if value.isSome then 1 else 0, map1)

/-- `HashMapErase` (for a non-null key); `fuel` is the fuel of the calls of
`HashMapInsert` made by the rehash. -/
def HashMapErase (fuel : Nat) (hash_map : HashMap K V) (key : K) :
    Option (Int × HashMap K V) :=
  if hash_map.size = 0 then some (FAILURE, hash_map)
  else
    match GetPairLocationByKey key hash_map with
    | none => none
    | some (found, bucket_idx, in_vector_idx, map1) =>
      if found then
        match map1.buckets[bucket_idx]? with
        | none => none
        | some vector =>
          let erased := VectorErase vector in_vector_idx
          if erased.1 = 0 then some (FAILURE, map1)
          else
            let map2 : HashMap K V :=
              { map1 with buckets := map1.buckets.set bucket_idx erased.2,
                          size := size_dec map1.size }
            match ResizeMap (HashMapInsert fuel) map2 REMOVE with
            | none => none
            | some map3 => some (SUCCESS, map3)
      else some (FAILURE, map1)

/-- The inner loop of `HashMapClear` over the bucket in slot `i`; `j + 1` is the
loop variable. -/
def ClearBucketLoop (fuel prev_capacity i : Nat) : Nat → HashMap K V → Option (HashMap K V)
  | 0, hash_map => some hash_map
  | j + 1, hash_map =>
    if prev_capacity ≠ hash_map.capacity then some hash_map
    else
      match hash_map.buckets[i]? with
      | none => none
      | some vector =>
        match VectorAt vector j with
        | none => none
        | some elem_ =>
          match HashMapErase fuel hash_map elem_.key with
          | none => none
          | some (_, map1) => ClearBucketLoop fuel prev_capacity i j map1

/-- The loop of `HashMapClear` over the buckets `i, i + 1, ...`; `count` bounds the
number of iterations (the loop ends when `i` reaches the capacity, and breaks
when the capacity has changed). -/
def ClearBucketsLoop (fuel prev_capacity : Nat) : Nat → Nat → HashMap K V →
    Option (HashMap K V)
  | 0, _, hash_map => some hash_map
  | count + 1, i, hash_map =>
    if ¬ (i < hash_map.capacity) then some hash_map
    else if prev_capacity ≠ hash_map.capacity then some hash_map
    else
      match hash_map.buckets[i]? with
      | none => none
      | some vector =>
        match ClearBucketLoop fuel prev_capacity i vector.size hash_map with
        | none => none
        | some map1 => ClearBucketsLoop fuel prev_capacity count (i + 1) map1

/-- `HashMapClear`; `steps` bounds the number of iterations of the `while` loop,
`fuel` is the fuel of the calls of `HashMapInsert`. -/
def HashMapClear (fuel : Nat) : Nat → HashMap K V → Option (HashMap K V)
  | 0, hash_map => if hash_map.size > 0 then none else some hash_map
  | steps + 1, hash_map =>
    if hash_map.size > 0 then
      match ClearBucketsLoop fuel hash_map.capacity hash_map.capacity 0 hash_map with
      | none => none
      | some map1 => HashMapClear fuel steps map1
    else some hash_map

/-! ## Definitions used in the statements: invariants, search functions, runs -/

/-- A bucket whose copy function succeeds, whose comparison function is `cmp`, and whose
slots all hold pairs satisfying `P`. -/
def BucketOK (P : Pair K V → Prop) (cmp : Pair K V → Obj K V → Bool) (v : Bucket K V) : Prop :=
  v.elem_copy_func = some ∧ v.elem_cmp_func = cmp ∧ ∀ s ∈ v.data, ∃ p, s = some p ∧ P p

/-- The frame invariant of a table. -/
def Basic (P : Pair K V → Prop) (hash : K → Nat) (cmp : Pair K V → Obj K V → Bool)
    (m : HashMap K V) : Prop :=
  m.hash_func = hash ∧ m.pair_cmp = cmp ∧ m.pair_cpy = some ∧ ∀ v ∈ m.buckets, BucketOK P cmp v

/-- The insert function passed to the rehash keeps the frame invariant. -/
def InsOK (P : Pair K V → Prop) (hash : K → Nat) (cmp : Pair K V → Obj K V → Bool)
    (ins : HashMap K V → Pair K V → Option (Int × HashMap K V)) : Prop :=
  ∀ m p r m', Basic P hash cmp m → P p → ins m p = some (r, m') → Basic P hash cmp m'

/-- The key comparison function of a pair decides equality of keys. -/
def LawfulKey (p : Pair K V) : Prop := ∀ a b, p.key_cmp a b = true ↔ a = b

/-- The bucket index of a key under a capacity, as computed by `Hash`. -/
def bidx (hash : K → Nat) (capacity : Nat) (key : K) : Nat :=
  Nat.land (hash key) (if capacity = 0 then SIZE_MAX else capacity - 1)

/-- The slots of the bucket in slot `i` of the bucket array (empty when there is none). -/
def bdata (m : HashMap K V) (i : Nat) : List (Option (Pair K V)) :=
  match m.buckets[i]? with
  | some v => v.data
  | none => []

/-- The number of slots of all buckets. -/
def total (m : HashMap K V) : Nat := (m.buckets.map (fun v => v.data.length)).sum

section searchdefs
variable [DecidableEq K]

/-- Index of the first slot that holds a pair with key `k`. -/
def keyIndex (k : K) : List (Option (Pair K V)) → Option Nat
  | [] => none
  | none :: rest => (keyIndex k rest).map (· + 1)
  | some p :: rest => if p.key = k then some 0 else (keyIndex k rest).map (· + 1)

/-- Value of the first slot that holds a pair with key `k`. -/
def lookup (k : K) : List (Option (Pair K V)) → Option V
  | [] => none
  | none :: rest => lookup k rest
  | some p :: rest => if p.key = k then some p.value else lookup k rest

/-- The slots of a bucket after `HashMapInsert` has stored a copy of `p` in it. -/
def bucketInsert (p : Pair K V) (data : List (Option (Pair K V))) : List (Option (Pair K V)) :=
  match keyIndex p.key data with
  | some t => data.set t (some p)
  | none => data ++ [some p]

/-- The table after the key of `p` was found in slot `t` of bucket `b`, or after `p` was
appended to bucket `b` (before `ResizeMap`). -/
def stored (m : HashMap K V) (p : Pair K V) (b : Nat) (v : Bucket K V) : HashMap K V :=
  match keyIndex p.key v.data with
  | some t => { m with buckets := m.buckets.set b { v with data := v.data.set t (some p) } }
  | none =>
    { m with buckets := m.buckets.set b (ResizeVector { v with data := v.data ++ [some p] } ADD),
             size := m.size + 1 }

end searchdefs

/-- The state of a table while `ReInsertElems` runs after the capacity was doubled from `c`
to `2 * c`. -/
structure Grow (hash : K → Nat) (cmp : Pair K V → Obj K V → Bool) (c : Nat)
    (m : HashMap K V) : Prop where
  basic : Basic LawfulKey hash cmp m
  cap : m.capacity = 2 * c
  len : m.buckets.length = 2 * c
  size_eq : m.size = total m
  load : 4 * (m.size + 1) ≤ 3 * (2 * c)
  old : ∀ i, i < c → ∀ p, some p ∈ bdata m i → i ≤ bidx hash c p.key
  placed : ∀ i p, some p ∈ bdata m i → i ≤ bidx hash (2 * c) p.key

/-- The invariant of the tables built from a new table by inserts. -/
structure Inv (hash : K → Nat) (cmp : Pair K V → Obj K V → Bool) (m : HashMap K V) :
    Prop where
  basic : Basic LawfulKey hash cmp m
  pow : ∃ n, m.capacity = 2 ^ n
  big : 16 ≤ m.capacity
  len : m.buckets.length = m.capacity
  size_eq : m.size = total m
  load : 4 * m.size ≤ 3 * m.capacity
  placed : ∀ i p, some p ∈ bdata m i → i ≤ bidx hash m.capacity p.key

/-- Every result of `ins` is a result of `ins'`. -/
def InsLe (ins ins' : HashMap K V → Pair K V → Option (Int × HashMap K V)) : Prop :=
  ∀ m p r, ins m p = some r → ins' m p = some r

/-- `InsertBuilt hash cmp ps m`: the table `m` results from a new table (hash function `hash`,
pair comparison `cmp`, pair copies succeeding) by inserting the pairs `ps`, the last inserted
pair first. -/
inductive InsertBuilt (hash : K → Nat) (cmp : Pair K V → Obj K V → Bool) :
    List (Pair K V) → HashMap K V → Prop
  | alloc : InsertBuilt hash cmp [] (HashMapAlloc hash some cmp)
  | insert {ps : List (Pair K V)} {m : HashMap K V} (p : Pair K V) (fuel : Nat) (r : Int)
      (m' : HashMap K V) : InsertBuilt hash cmp ps m → HashMapInsert fuel m p = some (r, m') →
      InsertBuilt hash cmp (p :: ps) m'

/-- A pair of natural numbers whose comparison handles are the equality tests. -/
def natPair (k v : Nat) : Pair Nat Nat :=
  { key := k, value := v, key_cmp := fun a b => decide (a = b),
    value_cmp := fun a b => decide (a = b) }

/-- The full-pair comparison of pairs of natural numbers. -/
def natPairCmp (p : Pair Nat Nat) (o : Obj Nat Nat) : Bool :=
  match o with
  | .pair q => decide (p.key = q.key ∧ p.value = q.value)
  | _ => false

/-- `HashMapInsert` for each pair of a list in turn (fuel 2 for every call). -/
def insertAll : List (Pair K V) → HashMap K V → Option (HashMap K V)
  | [], m => some m
  | p :: ps, m =>
    match HashMapInsert 2 m p with
    | none => none
    | some (_, m1) => insertAll ps m1

/-- The pairs `(k, k + 100)` for the keys of a list. -/
def keyPairs (keys : List Nat) : List (Pair Nat Nat) := keys.map (fun k => natPair k (k + 100))

/-- The keys and values stored in the buckets of a table, bucket by bucket; `none` for a
slot that holds `NULL`. -/
def contents (m : HashMap Nat Nat) : List (List (Option (Nat × Nat))) :=
  m.buckets.map (fun v => v.data.map (fun s => s.map (fun p => (p.key, p.value))))

/-- The value returned by `HashMapAt`. -/
def atValue (m : HashMap K V) (k : K) : Option (Option V) := (HashMapAt m k).map (·.1)

/-- `Reachable hash cmp m`: the table `m` results from a new table (hash function `hash`,
pair comparison `cmp`, pair copies succeeding) by calls of `HashMapInsert`, with pairs whose
key comparison decides equality of keys, and of `HashMapErase`. -/
inductive Reachable (hash : K → Nat) (cmp : Pair K V → Obj K V → Bool) : HashMap K V → Prop
  | alloc : Reachable hash cmp (HashMapAlloc hash some cmp)
  | insert {m : HashMap K V} (p : Pair K V) (fuel : Nat) (r : Int) (m' : HashMap K V) :
      Reachable hash cmp m → LawfulKey p → HashMapInsert fuel m p = some (r, m') →
      Reachable hash cmp m'
  | erase {m : HashMap K V} (k : K) (fuel : Nat) (r : Int) (m' : HashMap K V) :
      Reachable hash cmp m → HashMapErase fuel m k = some (r, m') → Reachable hash cmp m'

/-- A pair with a natural number as key and a string as value; the comparison handles are
the equality tests. -/
def strPair (k : Nat) (v : String) : Pair Nat String :=
  { key := k, value := v, key_cmp := fun a b => decide (a = b),
    value_cmp := fun a b => decide (a = b) }

/-- The full-pair comparison of the pairs `strPair`. -/
def strPairCmp (p : Pair Nat String) (o : Obj Nat String) : Bool :=
  match o with
  | .pair q => decide (p.key = q.key ∧ p.value = q.value)
  | _ => false

/-- The table after inserting `{1, "a"}` and `{2, "b"}` into a new table with the identity
hash. -/
def tableAB : HashMap Nat String :=
  match insertAll [strPair 1 "a", strPair 2 "b"] (HashMapAlloc id some strPairCmp) with
  | some m => m
  | none => HashMapAlloc id some strPairCmp

/-- The table after inserting `{1, "a"}` into a new table with the identity hash. -/
def tableA : HashMap Nat String :=
  match HashMapInsert 2 (HashMapAlloc id some strPairCmp) (strPair 1 "a") with
  | some (_, m) => m
  | none => HashMapAlloc id some strPairCmp

/-- A call of `HashMapInsert` or of `HashMapErase`. -/
inductive Op (K V : Type) where
  | insert (p : Pair K V)
  | erase (k : K)

/-- Runs the calls of a list in turn (fuel 2 for every call) and collects the returned
values. -/
def runOps : List (Op K V) → HashMap K V → Option (List Int × HashMap K V)
  | [], m => some ([], m)
  | Op.insert p :: ops, m =>
    match HashMapInsert 2 m p with
    | none => none
    | some (r, m1) =>
      match runOps ops m1 with
      | none => none
      | some (rs, m2) => some (r :: rs, m2)
  | Op.erase k :: ops, m =>
    match HashMapErase 2 m k with
    | none => none
    | some (r, m1) =>
      match runOps ops m1 with
      | none => none
      | some (rs, m2) => some (r :: rs, m2)

/-- The inserts of the pairs `(k, k + 100)` for the keys of a list. -/
def insertOps (keys : List Nat) : List (Op Nat Nat) :=
  keys.map (fun k => Op.insert (natPair k (k + 100)))

/-- The erases of the keys of a list. -/
def eraseOps (keys : List Nat) : List (Op Nat Nat) := keys.map Op.erase

/-- The table at the end of a run from a new table with the identity hash (the new table
itself when the run leaves the model). -/
def tableOf (ops : List (Op Nat Nat)) : HashMap Nat Nat :=
  match runOps ops (HashMapAlloc id some natPairCmp) with
  | some (_, m) => m
  | none => HashMapAlloc id some natPairCmp

/-- The values returned by the calls of a run from a new table with the identity hash. -/
def returnsOf (ops : List (Op Nat Nat)) : Option (List Int) :=
  (runOps ops (HashMapAlloc id some natPairCmp)).map (·.1)

/-- Thirteen distinct keys; under the identity hash and capacity 16 the keys 16 and 32 share
bucket 0, and the thirteenth insert doubles the capacity. -/
def keys13 : List Nat := [16, 32, 1, 2, 3, 4, 5, 6, 7, 8, 9, 10, 11]

/-- The run for C5: the thirteen keys of `keys13`, a second insert of key 16 (which lands in
bucket 16 of capacity 32, the first pair with key 16 being left in bucket 0), and the erases
of the keys 1, ..., 6. -/
def opsTwice : List (Op Nat Nat) :=
  insertOps keys13 ++ [Op.insert (natPair 16 216)] ++ eraseOps [1, 2, 3, 4, 5, 6]

/-- A pair copy function that fails (returns `NULL`) on the pairs with value 0. -/
def failingCpy (p : Pair Nat Nat) : Option (Pair Nat Nat) :=
  if p.value = 0 then none else some p

/-- The table after inserting `(1, 101)` and `(17, 117)` into a new table with the identity
hash and the copy function `failingCpy`; both pairs are in bucket 1. -/
def tableCpy : HashMap Nat Nat :=
  match insertAll [natPair 1 101, natPair 17 117] (HashMapAlloc id failingCpy natPairCmp) with
  | some m => m
  | none => HashMapAlloc id failingCpy natPairCmp

/-- The table `tableCpy` after `HashMapInsert(map, (17, 0))`. -/
def tableCpyAfter : HashMap Nat Nat :=
  match HashMapInsert 2 tableCpy (natPair 17 0) with
  | some (_, m) => m
  | none => tableCpy

/-- Every slot of every bucket holds a pair whose key `GetPairLocationByKey` does not
find. -/
def allStranded (m : HashMap K V) : Bool :=
  m.buckets.all (fun v => v.data.all (fun s =>
    match s with
    | some p =>
      (match GetPairLocationByKey p.key m with
       | some (false, _, _, _) => true
       | _ => false)
    | none => false))

/-- Thirteen distinct keys; under the identity hash and capacity 16 the first nine share
bucket 0, and under capacity 32 the first eight belong to bucket 16. -/
def keysStuck : List Nat := [16, 48, 80, 112, 144, 176, 208, 240, 32, 1, 2, 3, 4]

/-- The table after the inserts of the keys of `keysStuck` into a new table with the identity
hash. -/
def tableStuck : HashMap Nat Nat := tableOf (insertOps keysStuck ++ eraseOps [])

/-- The table `tableStuck` after the erases of the keys 32, 1, 2, 3, 4. -/
def tableStuck8 : HashMap Nat Nat := tableOf (insertOps keysStuck ++ eraseOps [32, 1, 2, 3, 4])

/-- The table after the inserts of the keys 1, ..., 12 into a new table with the identity
hash. -/
def table12 : HashMap Nat Nat :=
  match insertAll (keyPairs [1, 2, 3, 4, 5, 6, 7, 8, 9, 10, 11, 12])
      (HashMapAlloc id some natPairCmp) with
  | some m => m
  | none => HashMapAlloc id some natPairCmp

/-! ## Definitions for the statements on `Vector.c` -/

/-- `VectorReachable copy cmp v`: the vector `v` results from `VectorAlloc(copy, cmp, free)` by
calls of `VectorPushBack`, `VectorErase` and `VectorClear` (reallocations succeeding). -/
inductive VectorReachable (copy : α → Option α) (cmp : α → β → Bool) : Vector α β → Prop
  | alloc : VectorReachable copy cmp (VectorAlloc copy cmp)
  | push {v : Vector α β} (x : α) :
      VectorReachable copy cmp v → VectorReachable copy cmp (VectorPushBack v x).2
  | erase {v : Vector α β} (ind : Nat) :
      VectorReachable copy cmp v → VectorReachable copy cmp (VectorErase v ind).2
  | clear {v : Vector α β} :
      VectorReachable copy cmp v → VectorReachable copy cmp (VectorClear v)

/-- `VectorPushBack` for each element of a list in turn. -/
def pushAll : List α → Vector α β → Vector α β
  | [], v => v
  | x :: xs, v => pushAll xs (VectorPushBack v x).2

/-- The comparison function of vectors of natural numbers: the equality test. -/
def natCmp (a b : Nat) : Bool := decide (a = b)

/-- The run for C15: the thirteen keys of `keys13` and a second insert of key 16. -/
def opsDup : List (Op Nat Nat) := insertOps keys13 ++ [Op.insert (natPair 16 216)]

/-- The number of stored pairs with key `k`, over all buckets. -/
def keyCount (m : HashMap Nat Nat) (k : Nat) : Nat :=
  ((contents m).map (fun b => (b.filter (fun s => s.map Prod.fst == some k)).length)).sum

/-- The run for C16: four inserts and four erases take the capacity from 16 to 2; the insert
and the erase of key 5 take it to 1. -/
def opsShrink : List (Op Nat Nat) :=
  insertOps [1, 2, 3, 4] ++ eraseOps [1, 2, 3, 4] ++ insertOps [5] ++ eraseOps [5]

/-- The return value, `map->size`, the capacity and the number of stored pairs of the result
of an operation. -/
def summary (r : Option (Int × HashMap Nat Nat)) : Option (Int × Nat × Nat × Nat) :=
  r.map (fun x => (x.1, x.2.size, x.2.capacity, total x.2))

/-- `ReachableWith hash cpy cmp e m`: the table `m` results from a new table (hash function
`hash`, pair copy `cpy`, pair comparison `cmp`) by calls of `HashMapInsert` and of
`HashMapErase`; `e` is the number of the `HashMapErase` calls that returned 1. -/
inductive ReachableWith (hash : K → Nat) (cpy : Pair K V → Option (Pair K V))
    (cmp : Pair K V → Obj K V → Bool) : Nat → HashMap K V → Prop
  | alloc : ReachableWith hash cpy cmp 0 (HashMapAlloc hash cpy cmp)
  | insert {e : Nat} {m : HashMap K V} (p : Pair K V) (fuel : Nat) (r : Int) (m' : HashMap K V) :
      ReachableWith hash cpy cmp e m → HashMapInsert fuel m p = some (r, m') →
      ReachableWith hash cpy cmp e m'
  | erased {e : Nat} {m : HashMap K V} (k : K) (fuel : Nat) (m' : HashMap K V) :
      ReachableWith hash cpy cmp e m → HashMapErase fuel m k = some (1, m') →
      ReachableWith hash cpy cmp (e + 1) m'
  | missed {e : Nat} {m : HashMap K V} (k : K) (fuel : Nat) (m' : HashMap K V) :
      ReachableWith hash cpy cmp e m → HashMapErase fuel m k = some (0, m') →
      ReachableWith hash cpy cmp e m'

/-- Four rounds of `HashMapInsert(map, (1, 101))` and `HashMapErase(map, 1)`. -/
def opsRounds : List (Op Nat Nat) :=
  [Op.insert (natPair 1 101), Op.erase 1, Op.insert (natPair 1 101), Op.erase 1,
    Op.insert (natPair 1 101), Op.erase 1, Op.insert (natPair 1 101), Op.erase 1]

/-! ## `Vector.c`: the conversions between `size_t` and `int`

`VectorFind` returns `(int) i`, and `VectorErase` passes its `size_t ind` to the parameter
`int hole_idx` of `ArrangeVector`.  The definitions `VectorFind`, `ArrangeVector` and
`VectorErase` above keep the index as it is, which is what the C code does while the index is
at most `INT_MAX`; the definitions below include the conversions, and they are the subject of
the statements on `VectorFind` and `VectorErase`. -/

/-- Largest value of `int` (32 bit). -/
def INT_MAX : Nat := 2 ^ 31 - 1

/-- The conversion of a `size_t` value to `int`: the value itself when it is at most
`INT_MAX`, otherwise (left to the implementation by the C standard) the value reduced modulo
`2 ^ 32` into the range of `int`, as gcc and clang do. -/
def int_of_size_t (i : Nat) : Int := (((i + 2 ^ 31) % 2 ^ 32 : Nat) : Int) - 2 ^ 31

/-- The conversion of an `int` to `size_t`: reduction modulo `2 ^ 64`. -/
def size_t_of_int (z : Int) : Nat := (z % 2 ^ 64).toNat

/-- The loop of `VectorFind` over the slots from index `i` on, with `return (int) i`. -/
def VectorFindIntLoop (cmp : α → β → Bool) (value : β) : List (Option α) → Nat → Int
  | [], _ => FAIL
  | none :: rest, i => VectorFindIntLoop cmp value rest (i + 1)
  | some e :: rest, i =>
    if cmp e value then int_of_size_t i else VectorFindIntLoop cmp value rest (i + 1)

/-- `VectorFind` (for a non-null `value`) with the conversion of the returned index to
`int`. -/
def VectorFindInt (vector : Vector α β) (value : β) : Int :=
  VectorFindIntLoop vector.elem_cmp_func value vector.data 0

/-- `ArrangeVector` with its parameter `int hole_idx`: the loop
`for (size_t i = hole_idx; i < size; i++) data[i] = data[i + 1]` starts at the value of
`hole_idx` converted to `size_t`. -/
def ArrangeVectorInt (vector : Vector α β) (hole_idx : Int) : List (Option α) :=
  ArrangeVectorLoop (vector.size - size_t_of_int hole_idx) (size_t_of_int hole_idx)
    (vector.data ++ [none])

/-- `VectorErase` with the conversion of `ind` to `int` at the call
`ArrangeVector(vector, ind)`. -/
def VectorEraseInt (vector : Vector α β) (ind : Nat) : Int × Vector α β :=
  if ind ≥ vector.size then (FAILURE, vector)
  else
    (SUCCESS,
      ResizeVector
        { vector with
          data := (ArrangeVectorInt vector (int_of_size_t ind)).take (vector.size - 1) }
        REMOVE)

/-- The vector after the pushes of `2 ^ 31` elements 0 and of the elements 1 and 2: the
element 1 has index `2 ^ 31 = INT_MAX + 1`. -/
def bigVector : Vector Nat Nat :=
  pushAll (List.replicate (2 ^ 31) 0 ++ [1, 2]) (VectorAlloc some natCmp)

/-- A comparison function that never reports equality. -/
def neverCmp (_ _ : Nat) : Bool := false

/-- The vector after the pushes of 5, 7 and 9. -/
def smallVector : Vector Nat Nat := pushAll [5, 7, 9] (VectorAlloc some natCmp)

/-- The numbers 1, ..., 13; the thirteenth push doubles the capacity of a new vector. -/
def elems13 : List Nat := [1, 2, 3, 4, 5, 6, 7, 8, 9, 10, 11, 12, 13]

/-! ## Lemmas on `Vector.c` -/

theorem list_set_self {γ : Type} : ∀ (l : List γ) (i : Nat) (a : γ), l[i]? = some a → l.set i a = l
  | [], _, _, h => by simp at h
  | x :: xs, 0, a, h => by simp at h; simp [h]
  | x :: xs, i + 1, a, h => by
    simp at h
    simp [list_set_self xs i a h]

@[simp] theorem ResizeVector_data (v : Vector α β) (ch : Int) : (ResizeVector v ch).data = v.data := by
  unfold ResizeVector; dsimp only; split_ifs <;> rfl

@[simp] theorem ResizeVector_copy (v : Vector α β) (ch : Int) :
    (ResizeVector v ch).elem_copy_func = v.elem_copy_func := by
  unfold ResizeVector; dsimp only; split_ifs <;> rfl

@[simp] theorem ResizeVector_cmp (v : Vector α β) (ch : Int) :
    (ResizeVector v ch).elem_cmp_func = v.elem_cmp_func := by
  unfold ResizeVector; dsimp only; split_ifs <;> rfl

theorem VectorPushBack_some (v : Vector α β) (x : α) (h : v.elem_copy_func = some) :
    VectorPushBack v x = (1, ResizeVector { v with data := v.data ++ [some x] } ADD) := by
  simp [VectorPushBack, h, SUCCESS]

theorem getElem?_ArrangeVectorLoop : ∀ (count i : Nat) (slots : List (Option α)) (k : Nat),
    (ArrangeVectorLoop count i slots)[k]? =
      if k < slots.length then
        (if i ≤ k ∧ k < i + count then some (slots[k + 1]?).join else slots[k]?)
      else none
  | 0, i, slots, k => by
    simp only [ArrangeVectorLoop]
    split_ifs with h1 h2
    · omega
    · rfl
    · exact List.getElem?_eq_none (by omega)
  | count + 1, i, slots, k => by
    rw [ArrangeVectorLoop, getElem?_ArrangeVectorLoop count (i + 1), List.length_set]
    by_cases hk : k < slots.length
    · simp only [hk, if_true]
      by_cases h1 : i + 1 ≤ k ∧ k < i + 1 + count
      · have h2 : i ≤ k ∧ k < i + (count + 1) := by omega
        rw [if_pos h1, if_pos h2, List.getElem?_set_ne (by omega)]
      · rw [if_neg h1]
        by_cases h3 : k = i
        · subst h3
          have h2 : k ≤ k ∧ k < k + (count + 1) := by omega
          rw [if_pos h2, List.getElem?_set_self hk]
        · have h2 : ¬ (i ≤ k ∧ k < i + (count + 1)) := by omega
          rw [if_neg h2, List.getElem?_set_ne (fun e => h3 e.symm)]
    · simp only [hk, if_false]

/-- `ArrangeVector` followed by `size--` removes the slot `hole_idx` and keeps the order of the
other slots. -/
theorem ArrangeVector_take (v : Vector α β) (j : Nat) (h : j < v.data.length) :
    (ArrangeVector v j).take (v.size - 1) = v.data.eraseIdx j := by
  apply List.ext_getElem?
  intro k
  unfold ArrangeVector Vector.size
  rw [List.getElem?_take, getElem?_ArrangeVectorLoop, List.getElem?_eraseIdx]
  simp only [List.length_append, List.length_singleton]
  by_cases hk : k < v.data.length - 1
  · have hk2 : k < v.data.length + 1 := by omega
    rw [if_pos hk, if_pos hk2]
    by_cases hkj : k < j
    · have h2 : ¬ (j ≤ k ∧ k < j + (v.data.length - j)) := by omega
      rw [if_neg h2, if_pos hkj, List.getElem?_append_left (by omega)]
    · have h2 : j ≤ k ∧ k < j + (v.data.length - j) := by omega
      rw [if_pos h2, if_neg hkj, List.getElem?_append_left (by omega),
        List.getElem?_eq_getElem (by omega)]
      rfl
  · rw [if_neg hk]
    have hkj : ¬ k < j := by omega
    rw [if_neg hkj, List.getElem?_eq_none (by omega)]

theorem VectorErase_lt (v : Vector α β) (j : Nat) (h : j < v.data.length) :
    VectorErase v j =
      (1, ResizeVector { v with data := (ArrangeVector v j).take (v.size - 1) } REMOVE) := by
  simp [VectorErase, Vector.size, h, SUCCESS]

theorem VectorErase_ge (v : Vector α β) (j : Nat) (h : v.data.length ≤ j) :
    VectorErase v j = (0, v) := by
  simp [VectorErase, Vector.size, h, FAILURE]

theorem VectorErase_data (v : Vector α β) (j : Nat) : (VectorErase v j).2.data = v.data.eraseIdx j := by
  by_cases h : j < v.data.length
  · rw [VectorErase_lt v j h]
    simp only [ResizeVector_data]
    exact ArrangeVector_take v j h
  · simp at h
    simp [VectorErase_ge v j h, List.eraseIdx_of_length_le h]

@[simp] theorem VectorErase_copy (v : Vector α β) (j : Nat) :
    (VectorErase v j).2.elem_copy_func = v.elem_copy_func := by
  unfold VectorErase; split_ifs <;> simp

@[simp] theorem VectorErase_cmp (v : Vector α β) (j : Nat) :
    (VectorErase v j).2.elem_cmp_func = v.elem_cmp_func := by
  unfold VectorErase; split_ifs <;> simp

/-! ## The frame invariant -/

section frame
variable {P : Pair K V → Prop} {hash : K → Nat} {cmp : Pair K V → Obj K V → Bool}

theorem Basic.of {m m' : HashMap K V} (h : Basic P hash cmp m)
    (h1 : m'.hash_func = m.hash_func) (h2 : m'.pair_cmp = m.pair_cmp)
    (h3 : m'.pair_cpy = m.pair_cpy)
    (h4 : ∀ v ∈ m'.buckets, v ∈ m.buckets ∨ BucketOK P cmp v) : Basic P hash cmp m' := by
  obtain ⟨a, b, c, d⟩ := h
  refine ⟨h1.trans a, h2.trans b, h3.trans c, fun v hv => ?_⟩
  rcases h4 v hv with h | h
  · exact d v h
  · exact h

theorem Basic.bucket {m : HashMap K V} (h : Basic P hash cmp m) {i : Nat} {v : Bucket K V}
    (hv : m.buckets[i]? = some v) : BucketOK P cmp v :=
  h.2.2.2 v (List.mem_iff_getElem?.2 ⟨i, hv⟩)

theorem mem_set_or {γ : Type} {l : List γ} {i : Nat} {a x : γ} (h : x ∈ l.set i a) :
    x ∈ l ∨ x = a := by
  rcases List.mem_or_eq_of_mem_set h with h | h
  · exact Or.inl h
  · exact Or.inr h

theorem BucketOK.erase {v : Bucket K V} (h : BucketOK P cmp v) (j : Nat) :
    BucketOK P cmp (VectorErase v j).2 := by
  refine ⟨by simpa using h.1, by simpa using h.2.1, fun s hs => ?_⟩
  rw [VectorErase_data] at hs
  exact h.2.2 s (List.mem_of_mem_eraseIdx hs)

theorem BucketOK.push {v : Bucket K V} (h : BucketOK P cmp v) {p : Pair K V} (hp : P p) :
    BucketOK P cmp (VectorPushBack v p).2 := by
  rw [VectorPushBack_some v p h.1]
  refine ⟨by simpa using h.1, by simpa using h.2.1, fun s hs => ?_⟩
  simp at hs
  rcases hs with hs | hs
  · exact h.2.2 s hs
  · exact ⟨p, hs, hp⟩

theorem BucketOK.replace {v : Bucket K V} (h : BucketOK P cmp v) {p : Pair K V} (hp : P p)
    (i : Nat) :
    BucketOK P cmp { v with data := v.data.set i (v.elem_copy_func p) } := by
  refine ⟨h.1, h.2.1, fun s hs => ?_⟩
  rcases mem_set_or hs with hs | hs
  · exact h.2.2 s hs
  · exact ⟨p, by rw [hs, h.1], hp⟩

theorem BucketOK.alloc : BucketOK P cmp (VectorAlloc some cmp) :=
  ⟨rfl, rfl, fun s hs => by simp [VectorAlloc] at hs⟩

/-- Under the frame invariant `GetPairLocationByKey` returns the table as it was. -/
theorem GetPairLocationByKey_state {m m' : HashMap K V} {k : K} {f : Bool} {b i : Nat}
    (h : Basic P hash cmp m) (hg : GetPairLocationByKey k m = some (f, b, i, m')) :
    m' = m ∧ b = Hash m m.capacity k := by
  unfold GetPairLocationByKey at hg
  dsimp only at hg
  split at hg
  · simp at hg
  · rename_i vector hv
    split_ifs at hg with hs
    · simp at hg; exact ⟨hg.2.2.2.symm, hg.2.1.symm⟩
    · split at hg
      · simp only [Option.some.injEq, Prod.mk.injEq] at hg
        refine ⟨?_, hg.2.1.symm⟩
        rw [← hg.2.2.2]
        have hb := h.bucket hv
        have : ({ vector with elem_cmp_func := m.pair_cmp } : Bucket K V) = vector := by
          cases vector; simp at hb ⊢; rw [h.2.1]; exact hb.2.1.symm
        simp only [this]
        rw [list_set_self _ _ _ hv]
      · simp at hg

end frame

section frame
variable {P : Pair K V → Prop} {hash : K → Nat} {cmp : Pair K V → Obj K V → Bool}
variable {ins : HashMap K V → Pair K V → Option (Int × HashMap K V)}

theorem ReInsertBucketLoop_basic (hins : InsOK P hash cmp ins) (b oc nc : Nat) :
    ∀ (j : Nat) (m m' : HashMap K V), Basic P hash cmp m →
      ReInsertBucketLoop ins b oc nc j m = some m' → Basic P hash cmp m'
  | 0, m, m', h, hr => by
    simp [ReInsertBucketLoop] at hr
    exact hr ▸ h
  | j + 1, m, m', h, hr => by
    unfold ReInsertBucketLoop at hr
    split at hr
    · simp at hr
    · rename_i vector hv
      split at hr
      · rename_i pair hp
        split_ifs at hr with hc
        · simp at hr; exact hr ▸ h
        · split at hr
          · simp at hr
          · rename_i r map1 hi
            split at hr
            · simp at hr
            · rename_i vector1 hv1
              have hP : P pair := by
                obtain ⟨q, hq, hPq⟩ := (h.bucket hv).2.2 (some pair)
                  (List.mem_iff_getElem?.2 ⟨j, hp⟩)
                cases hq; exact hPq
              have h1 : Basic P hash cmp map1 := hins m pair r map1 h hP hi
              refine ReInsertBucketLoop_basic hins b oc nc j _ m' ?_ hr
              refine h1.of rfl rfl rfl (fun v hv => ?_)
              rcases mem_set_or hv with hv | hv
              · exact Or.inl hv
              · exact Or.inr (hv ▸ (h1.bucket hv1).erase j)
      · simp at hr

theorem ReInsertBucket_basic (hins : InsOK P hash cmp ins) {b oc nc : Nat}
    {m m' : HashMap K V} (h : Basic P hash cmp m)
    (hr : ReInsertBucket ins m b oc nc = some m') : Basic P hash cmp m' := by
  unfold ReInsertBucket at hr
  split at hr
  · simp at hr
  · split_ifs at hr
    · simp at hr; exact hr ▸ h
    · exact ReInsertBucketLoop_basic hins b oc nc _ m m' h hr

theorem ReInsertRange_basic (hins : InsOK P hash cmp ins) (oc nc : Nat) :
    ∀ (count i : Nat) (m m' : HashMap K V), Basic P hash cmp m →
      ReInsertRange ins oc nc count i m = some m' → Basic P hash cmp m'
  | 0, i, m, m', h, hr => by
    simp [ReInsertRange] at hr
    exact hr ▸ h
  | count + 1, i, m, m', h, hr => by
    unfold ReInsertRange at hr
    split at hr
    · simp at hr
    · rename_i map1 h1
      exact ReInsertRange_basic hins oc nc count (i + 1) map1 m'
        (ReInsertBucket_basic hins h h1) hr

theorem ReInsertElems_basic (hins : InsOK P hash cmp ins) {oc nc : Nat}
    {m m' : HashMap K V} (h : Basic P hash cmp m)
    (hr : ReInsertElems ins m oc nc = some m') : Basic P hash cmp m' := by
  unfold ReInsertElems at hr
  split_ifs at hr
  · exact ReInsertRange_basic hins oc nc _ _ m m' h hr
  · exact ReInsertRange_basic hins oc nc _ _ m m' h hr
  · simp at hr; exact hr ▸ h

theorem VectorsAllocator_basic {m : HashMap K V} (h : Basic P hash cmp m) (nc : Nat) :
    Basic P hash cmp (VectorsAllocator m nc).2 := by
  refine h.of rfl rfl rfl (fun v hv => ?_)
  simp only [VectorsAllocator, List.mem_append, List.mem_replicate] at hv
  rcases hv with hv | hv
  · exact Or.inl (List.mem_of_mem_take hv)
  · refine Or.inr ?_
    rw [hv.2, h.2.2.1, h.2.1]
    exact BucketOK.alloc

theorem ResizeMap_basic (hins : InsOK P hash cmp ins) {ch : Int}
    {m m' : HashMap K V} (h : Basic P hash cmp m)
    (hr : ResizeMap ins m ch = some m') : Basic P hash cmp m' := by
  unfold ResizeMap at hr
  dsimp only at hr
  split_ifs at hr
  · exact ReInsertElems_basic hins (VectorsAllocator_basic h _) hr
  · split at hr
    · simp at hr
    · rename_i map1 h1
      simp at hr
      have hb0 : Basic P hash cmp
          ({ m with capacity := m.capacity / HASH_MAP_GROWTH_FACTOR } : HashMap K V) :=
        h.of rfl rfl rfl (fun v hv => Or.inl hv)
      have hb : Basic P hash cmp map1 := ReInsertElems_basic hins hb0 h1
      rw [← hr]
      exact hb.of rfl rfl rfl (fun v hv => Or.inl (List.mem_of_mem_take hv))
  · simp at hr; exact hr ▸ h

/-- `HashMapInsert` keeps the frame invariant. -/
theorem HashMapInsert_basic : ∀ (fuel : Nat), InsOK P hash cmp (HashMapInsert fuel)
  | 0 => by
    intro m p r m' _ _ hr
    simp [HashMapInsert] at hr
  | fuel + 1 => by
    intro m p r m' h hp hr
    unfold HashMapInsert at hr
    split at hr
    · simp at hr
    · rename_i found b i map1 hg
      obtain ⟨rfl, -⟩ := GetPairLocationByKey_state h hg
      split at hr
      · simp at hr
      · rename_i vector hv
        have hb := h.bucket hv
        dsimp only at hr
        split_ifs at hr with hf
        · simp at hr
          rw [← hr.2]
          refine h.of rfl rfl rfl (fun v hv => ?_)
          rcases mem_set_or hv with hv | hv
          · exact Or.inl hv
          · exact Or.inr (hv ▸ hb.replace hp i)
        · simp at hr
          exact hr.2 ▸ h
        · split at hr
          · simp at hr
          · rename_i map3 h3
            simp at hr
            rw [← hr.2]
            refine ResizeMap_basic (HashMapInsert_basic fuel) ?_ h3
            refine h.of rfl rfl rfl (fun v hv => ?_)
            rcases mem_set_or hv with hv | hv
            · exact Or.inl hv
            · exact Or.inr (hv ▸ hb.push hp)

/-- `HashMapErase` keeps the frame invariant. -/
theorem HashMapErase_basic {fuel : Nat} {m m' : HashMap K V} {k : K} {r : Int}
    (h : Basic P hash cmp m) (hr : HashMapErase fuel m k = some (r, m')) :
    Basic P hash cmp m' := by
  unfold HashMapErase at hr
  split_ifs at hr
  · simp at hr; exact hr.2 ▸ h
  · split at hr
    · simp at hr
    · rename_i found b i map1 hg
      obtain ⟨rfl, -⟩ := GetPairLocationByKey_state h hg
      split_ifs at hr
      · split at hr
        · simp at hr
        · rename_i vector hv
          have hb := h.bucket hv
          dsimp only at hr
          split_ifs at hr
          · simp at hr; exact hr.2 ▸ h
          · split at hr
            · simp at hr
            · rename_i map3 h3
              simp at hr
              rw [← hr.2]
              refine ResizeMap_basic (HashMapInsert_basic fuel) ?_ h3
              refine h.of rfl rfl rfl (fun v hv => ?_)
              rcases mem_set_or hv with hv | hv
              · exact Or.inl hv
              · exact Or.inr (hv ▸ hb.erase i)
      · simp at hr; exact hr.2 ▸ h

theorem HashMapAlloc_basic (hash : K → Nat) (cmp : Pair K V → Obj K V → Bool) :
    Basic P hash cmp (HashMapAlloc hash some cmp) := by
  refine ⟨rfl, rfl, rfl, fun v hv => ?_⟩
  simp only [HashMapAlloc, VectorsAllocator, List.mem_append, List.mem_replicate] at hv
  rcases hv with hv | hv
  · simp at hv
  · rw [hv.2]; exact BucketOK.alloc

end frame

/-! ## Searching a bucket by key -/

theorem Hash_eq_bidx (m : HashMap K V) (c : Nat) (k : K) : Hash m c k = bidx m.hash_func c k :=
  rfl

section search
variable [DecidableEq K]

theorem VectorFindLoop_key (c : K → K → Bool) (hc : ∀ a b, c a b = true ↔ a = b) (k : K) :
    ∀ (data : List (Option (Pair K V))) (i : Nat),
      VectorFindLoop (ElemCmpWrapper (.KEY c)) (Obj.key k) data i =
        match keyIndex k data with
        | some t => ((i + t : Nat) : Int)
        | none => -1
  | [], i => by simp [VectorFindLoop, keyIndex, FAIL]
  | none :: rest, i => by
    rw [VectorFindLoop, keyIndex, VectorFindLoop_key c hc k rest (i + 1)]
    cases keyIndex k rest <;> simp
    ring
  | some p :: rest, i => by
    rw [VectorFindLoop, keyIndex, VectorFindLoop_key c hc k rest (i + 1)]
    by_cases h : p.key = k
    · simp [ElemCmpWrapper, h, (hc k k).2 rfl]
    · have : c p.key k = false := by
        cases hcc : c p.key k
        · rfl
        · exact absurd ((hc _ _).1 hcc) h
      simp only [ElemCmpWrapper, this, h, if_false]
      cases keyIndex k rest <;> simp
      ring

theorem keyIndex_some {k : K} : ∀ {data : List (Option (Pair K V))} {t : Nat},
    keyIndex k data = some t →
      ∃ p, data[t]? = some (some p) ∧ p.key = k ∧ lookup k data = some p.value
  | [], t, h => by simp [keyIndex] at h
  | none :: rest, t, h => by
    simp only [keyIndex, Option.map_eq_some'] at h
    obtain ⟨u, hu, rfl⟩ := h
    obtain ⟨p, h1, h2, h3⟩ := keyIndex_some hu
    exact ⟨p, by simpa using h1, h2, by simpa [lookup] using h3⟩
  | some q :: rest, t, h => by
    by_cases hq : q.key = k
    · simp only [keyIndex, hq, if_true, Option.some.injEq] at h
      subst h
      exact ⟨q, by simp, hq, by simp [lookup, hq]⟩
    · simp only [keyIndex, hq, if_false, Option.map_eq_some'] at h
      obtain ⟨u, hu, rfl⟩ := h
      obtain ⟨p, h1, h2, h3⟩ := keyIndex_some hu
      exact ⟨p, by simpa using h1, h2, by simpa [lookup, hq] using h3⟩

theorem keyIndex_none {k : K} : ∀ {data : List (Option (Pair K V))},
    keyIndex k data = none → lookup k data = none ∧ ∀ p, some p ∈ data → p.key ≠ k
  | [], _ => by simp [lookup]
  | none :: rest, h => by
    simp only [keyIndex, Option.map_eq_none'] at h
    obtain ⟨h1, h2⟩ := keyIndex_none h
    refine ⟨by simpa [lookup] using h1, fun p hp => ?_⟩
    simp at hp
    exact h2 p hp
  | some q :: rest, h => by
    by_cases hq : q.key = k
    · simp [keyIndex, hq] at h
    · simp only [keyIndex, hq, if_false, Option.map_eq_none'] at h
      obtain ⟨h1, h2⟩ := keyIndex_none h
      refine ⟨by simpa [lookup, hq] using h1, fun p hp => ?_⟩
      simp at hp
      rcases hp with rfl | hp
      · exact hq
      · exact h2 p hp

theorem keyIndex_of_not_mem {k : K} : ∀ (data : List (Option (Pair K V))),
    (∀ p, some p ∈ data → p.key ≠ k) → keyIndex k data = none
  | [], _ => rfl
  | none :: rest, h => by
    have := keyIndex_of_not_mem rest (fun p hp => h p (by simp [hp]))
    simp [keyIndex, this]
  | some q :: rest, h => by
    have := keyIndex_of_not_mem rest (fun p hp => h p (by simp [hp]))
    have hq : q.key ≠ k := h q (by simp)
    simp [keyIndex, this, hq]

theorem lookup_set {k : K} {p q : Pair K V} (hp : p.key = q.key) :
    ∀ {data : List (Option (Pair K V))} {t : Nat}, data[t]? = some (some q) →
      lookup k (data.set t (some p)) = if q.key = k then
        (if keyIndex k data = some t then some p.value else lookup k data) else lookup k data
  | [], t, h => by simp at h
  | s :: rest, 0, h => by
    simp at h
    subst h
    by_cases hk : q.key = k
    · simp [lookup, keyIndex, hk, hp]
    · simp [lookup, hk, hp]
  | none :: rest, t + 1, h => by
    simp at h
    simp only [List.set_cons_succ, lookup, keyIndex, lookup_set hp h]
    cases keyIndex k rest <;> simp
  | some r :: rest, t + 1, h => by
    simp at h
    simp only [List.set_cons_succ, lookup, keyIndex, lookup_set hp h]
    by_cases hr : r.key = k
    · simp [hr]
    · simp only [hr, if_false]
      cases keyIndex k rest <;> simp

theorem lookup_append {k : K} (p : Pair K V) : ∀ (data : List (Option (Pair K V))),
    lookup k (data ++ [some p]) =
      match lookup k data with
      | some v => some v
      | none => if p.key = k then some p.value else none
  | [] => by simp [lookup]
  | none :: rest => by simp [lookup, lookup_append p rest]
  | some r :: rest => by
    by_cases hr : r.key = k
    · simp [lookup, hr]
    · simp [lookup, hr, lookup_append p rest]

theorem lookup_bucketInsert_self (p : Pair K V) (data : List (Option (Pair K V))) :
    lookup p.key (bucketInsert p data) = some p.value := by
  unfold bucketInsert
  cases h : keyIndex p.key data with
  | none =>
    simp [lookup_append, (keyIndex_none h).1]
  | some t =>
    obtain ⟨q, h1, h2, -⟩ := keyIndex_some h
    simp [lookup_set h2.symm h1, h2, h]

theorem lookup_bucketInsert_other {k : K} (p : Pair K V) (hk : p.key ≠ k)
    (data : List (Option (Pair K V))) :
    lookup k (bucketInsert p data) = lookup k data := by
  unfold bucketInsert
  cases h : keyIndex p.key data with
  | none =>
    simp only [lookup_append, hk, if_false]
    cases lookup k data <;> rfl
  | some t =>
    obtain ⟨q, h1, h2, -⟩ := keyIndex_some h
    simp [lookup_set h2.symm h1, h2, hk]

theorem lookup_eraseIdx {k : K} : ∀ {data : List (Option (Pair K V))} {j : Nat} {q : Pair K V},
    data[j]? = some (some q) → q.key ≠ k → lookup k (data.eraseIdx j) = lookup k data
  | [], j, q, h, _ => by simp at h
  | s :: rest, 0, q, h, hq => by
    simp at h
    subst h
    simp [lookup, hq]
  | none :: rest, j + 1, q, h, hq => by
    simp at h
    simp [lookup, lookup_eraseIdx h hq]
  | some r :: rest, j + 1, q, h, hq => by
    simp at h
    simp [lookup, lookup_eraseIdx h hq]

theorem mem_bucketInsert {p q : Pair K V} {data : List (Option (Pair K V))}
    (h : some q ∈ bucketInsert p data) : some q ∈ data ∨ q = p := by
  unfold bucketInsert at h
  split at h
  · rcases mem_set_or h with h | h
    · exact Or.inl h
    · exact Or.inr (Option.some.inj h)
  · simp at h
    rcases h with h | h
    · exact Or.inl h
    · exact Or.inr h

end search

theorem bdata_of_get {m : HashMap K V} {i : Nat} {v : Bucket K V}
    (h : m.buckets[i]? = some v) : bdata m i = v.data := by
  simp [bdata, h]

theorem get_of_lt {m : HashMap K V} {i : Nat} (h : i < m.buckets.length) :
    ∃ v, m.buckets[i]? = some v := ⟨_, List.getElem?_eq_getElem h⟩

theorem restore_eq {P : Pair K V → Prop} {hash : K → Nat} {cmp : Pair K V → Obj K V → Bool}
    {m : HashMap K V} (h : Basic P hash cmp m) {b : Nat} {v : Bucket K V}
    (hv : m.buckets[b]? = some v) :
    ({ m with buckets := m.buckets.set b { v with elem_cmp_func := m.pair_cmp } } :
      HashMap K V) = m := by
  have hb := h.bucket hv
  have : ({ v with elem_cmp_func := m.pair_cmp } : Bucket K V) = v := by
    cases v; simp at hb ⊢; rw [h.2.1]; exact hb.2.1.symm
  rw [this, list_set_self _ _ _ hv]

/-- `ResizeMap` after an insert that does not cross the upper threshold. -/
theorem ResizeMap_add_stay (ins : HashMap K V → Pair K V → Option (Int × HashMap K V))
    (m : HashMap K V) (h : 4 * m.size ≤ 3 * m.capacity) : ResizeMap ins m ADD = some m := by
  unfold ResizeMap HashMapGetLoadFactor
  by_cases hc : m.capacity = 0
  · simp [hc, gtMaxLoadFactor, ltMinLoadFactor, ADD, REMOVE]
  · have : ¬ 3 * m.capacity < 4 * m.size := by omega
    simp [hc, gtMaxLoadFactor, this, ADD, REMOVE]

/-- `ResizeMap` after an insert that crosses the upper threshold. -/
theorem ResizeMap_add_grow (ins : HashMap K V → Pair K V → Option (Int × HashMap K V))
    (m : HashMap K V) (h : 3 * m.capacity < 4 * m.size) (hc : m.capacity ≠ 0) :
    ResizeMap ins m ADD =
      ReInsertRange ins m.capacity (m.capacity * 2) m.capacity 0
        (VectorsAllocator m (m.capacity * 2)).2 := by
  unfold ResizeMap HashMapGetLoadFactor ReInsertElems
  have h1 : ¬ m.capacity > m.capacity * 2 := by omega
  have h2 : m.capacity < m.capacity * 2 := by omega
  simp [hc, gtMaxLoadFactor, h, ADD, HASH_MAP_GROWTH_FACTOR, h1, h2]

section step
variable [DecidableEq K] {hash : K → Nat} {cmp : Pair K V → Obj K V → Bool}

/-- What `GetPairLocationByKey` returns on a table that satisfies the frame invariant. -/
theorem GetPairLocationByKey_spec {m : HashMap K V} (h : Basic LawfulKey hash cmp m) (k : K)
    {v : Bucket K V} (hv : m.buckets[bidx hash m.capacity k]? = some v) :
    GetPairLocationByKey k m =
      some ((keyIndex k v.data).isSome, bidx hash m.capacity k,
        (keyIndex k v.data).getD 0, m) := by
  have hH : Hash m m.capacity k = bidx hash m.capacity k := by rw [Hash_eq_bidx, h.1]
  have hb := h.bucket hv
  unfold GetPairLocationByKey
  simp only [hH, hv]
  split_ifs with hs
  · have : v.data = [] := List.length_eq_zero.1 hs
    simp [this, keyIndex]
  · rcases hd : v.data with _ | ⟨s, rest⟩
    · simp [Vector.size, hd] at hs
    · obtain ⟨p, hp, hl⟩ := hb.2.2 s (by simp [hd])
      subst hp
      simp only [List.getElem?_cons_zero, VectorFind]
      rw [VectorFindLoop_key p.key_cmp hl k, ← hd, restore_eq h hv]
      cases keyIndex k v.data <;> simp [FAIL]

/-- On a table with the frame invariant and `size > 0`, `HashMapAt` returns the value of the
first pair with the key in the bucket of the key. -/
theorem HashMapAt_spec {m : HashMap K V} (h : Basic LawfulKey hash cmp m) (k : K)
    (hlen : bidx hash m.capacity k < m.buckets.length) (hs : m.size ≠ 0) :
    HashMapAt m k = some (lookup k (bdata m (bidx hash m.capacity k)), m) := by
  obtain ⟨v, hv⟩ := get_of_lt hlen
  unfold HashMapAt
  rw [GetPairLocationByKey_spec h k hv, bdata_of_get hv]
  simp only [hs, if_false]
  cases hk : keyIndex k v.data with
  | none => simp [(keyIndex_none hk).1]
  | some t =>
    obtain ⟨p, h1, -, h3⟩ := keyIndex_some hk
    simp [hv, h1, h3]

/-- `HashMapInsert` on a table that satisfies the frame invariant. -/
theorem HashMapInsert_spec {m : HashMap K V} (h : Basic LawfulKey hash cmp m) (p : Pair K V)
    {v : Bucket K V} (hv : m.buckets[bidx hash m.capacity p.key]? = some v) (fuel : Nat) :
    HashMapInsert (fuel + 1) m p =
      if (keyIndex p.key v.data).isSome then
        some ((1 : Int), stored m p (bidx hash m.capacity p.key) v)
      else
        (ResizeMap (HashMapInsert fuel) (stored m p (bidx hash m.capacity p.key) v) ADD).map
          (fun m3 => ((1 : Int), m3)) := by
  have hb := h.bucket hv
  unfold HashMapInsert
  rw [GetPairLocationByKey_spec h p.key hv]
  simp only [hv]
  cases hk : keyIndex p.key v.data with
  | none =>
    simp only [stored, hk, VectorPushBack_some v p hb.1, SUCCESS]
    simp only [Bool.false_eq_true, if_false, one_ne_zero, Option.isSome_none]
    cases ResizeMap (HashMapInsert fuel) _ ADD <;> rfl
  | some t =>
    simp [stored, hk, hb.1, SUCCESS]

end step

/-! ## Bucket indices under a power-of-two capacity -/

theorem bidx_lt (hash : K → Nat) {c : Nat} (hc : 0 < c) (k : K) : bidx hash c k < c := by
  unfold bidx
  have h0 : c ≠ 0 := by omega
  simp only [h0, if_false]
  have : hash k &&& (c - 1) ≤ c - 1 := Nat.and_le_right
  have h2 : Nat.land (hash k) (c - 1) = hash k &&& (c - 1) := rfl
  omega

theorem bidx_pow (hash : K → Nat) (n : Nat) (k : K) : bidx hash (2 ^ n) k = hash k % 2 ^ n := by
  unfold bidx
  have h0 : (2 : Nat) ^ n ≠ 0 := by positivity
  simp only [h0, if_false]
  exact Nat.and_pow_two_sub_one_eq_mod (hash k) n

/-- Doubling a power-of-two capacity keeps the bucket index or adds the old capacity. -/
theorem bidx_double (hash : K → Nat) {c n : Nat} (hc : c = 2 ^ n) (k : K) :
    bidx hash (2 * c) k = bidx hash c k ∨ bidx hash (2 * c) k = bidx hash c k + c := by
  have h2 : 2 * c = 2 ^ (n + 1) := by rw [hc, pow_succ]; ring
  rw [h2, hc, bidx_pow, bidx_pow, Nat.mod_pow_succ]
  rcases Nat.mod_two_eq_zero_or_one (hash k / 2 ^ n) with h | h
  · left; rw [h]; simp
  · right; rw [h]; simp

/-! ## Bookkeeping of the buckets -/

theorem bdata_set {m m' : HashMap K V} {b : Nat} {v : Bucket K V}
    (h : m'.buckets = m.buckets.set b v) (hb : b < m.buckets.length) (t : Nat) :
    bdata m' t = if t = b then v.data else bdata m t := by
  unfold bdata
  rw [h, List.getElem?_set]
  by_cases htb : t = b
  · subst htb; simp [hb]
  · have : ¬ b = t := fun e => htb e.symm
    simp [htb, this]

theorem sum_set_length : ∀ (l : List (Bucket K V)) (b : Nat) (v v' : Bucket K V),
    l[b]? = some v →
      ((l.set b v').map (fun x => x.data.length)).sum + v.data.length =
        (l.map (fun x => x.data.length)).sum + v'.data.length
  | [], _, _, _, h => by simp at h
  | x :: xs, 0, v, v', h => by
    simp at h
    subst h
    simp
    omega
  | x :: xs, b + 1, v, v', h => by
    simp at h
    have := sum_set_length xs b v v' h
    simp only [List.set_cons_succ, List.map_cons, List.sum_cons]
    omega

theorem total_set {m m' : HashMap K V} {b : Nat} {v v' : Bucket K V}
    (h : m'.buckets = m.buckets.set b v') (hv : m.buckets[b]? = some v) :
    total m' + v.data.length = total m + v'.data.length := by
  unfold total
  rw [h]
  exact sum_set_length _ _ _ _ hv

theorem length_le_total {m : HashMap K V} {b : Nat} {v : Bucket K V}
    (hv : m.buckets[b]? = some v) : v.data.length ≤ total m := by
  unfold total
  have : v.data.length ∈ m.buckets.map (fun x => x.data.length) :=
    List.mem_map.2 ⟨v, List.mem_iff_getElem?.2 ⟨b, hv⟩, rfl⟩
  exact List.single_le_sum (fun _ _ => Nat.zero_le _) _ this

section stored
variable [DecidableEq K]

theorem length_bucketInsert (p : Pair K V) (data : List (Option (Pair K V))) :
    (bucketInsert p data).length =
      if (keyIndex p.key data).isSome then data.length else data.length + 1 := by
  unfold bucketInsert
  cases keyIndex p.key data <;> simp

/-- The effect of `stored` on the buckets and on the size. -/
theorem stored_facts (m : HashMap K V) (p : Pair K V) (b : Nat) (v : Bucket K V) :
    ∃ v', (stored m p b v).buckets = m.buckets.set b v' ∧ v'.data = bucketInsert p v.data ∧
      v'.elem_copy_func = v.elem_copy_func ∧ v'.elem_cmp_func = v.elem_cmp_func ∧
      (stored m p b v).size + v.data.length = m.size + v'.data.length ∧
      (stored m p b v).size ≤ m.size + 1 ∧
      (stored m p b v).capacity = m.capacity ∧
      (stored m p b v).hash_func = m.hash_func ∧
      (stored m p b v).pair_cmp = m.pair_cmp ∧
      (stored m p b v).pair_cpy = m.pair_cpy := by
  unfold stored bucketInsert
  cases keyIndex p.key v.data with
  | none =>
    exact ⟨_, rfl, by simp, by simp, by simp, by simp; omega, by simp, rfl, rfl, rfl, rfl⟩
  | some t =>
    exact ⟨_, rfl, by simp, by simp, by simp, by simp, by simp, rfl, rfl, rfl, rfl⟩

end stored

/-! ## The rehash after a growth -/

section grow
variable [DecidableEq K] {hash : K → Nat} {cmp : Pair K V → Obj K V → Bool}

/-- An insert into a table with room for one more pair does not resize. -/
theorem HashMapInsert_room {m : HashMap K V} (h : Basic LawfulKey hash cmp m)
    (hload : 4 * (m.size + 1) ≤ 3 * m.capacity) (p : Pair K V) {v : Bucket K V}
    (hv : m.buckets[bidx hash m.capacity p.key]? = some v) (fuel : Nat) :
    HashMapInsert (fuel + 1) m p = some (1, stored m p (bidx hash m.capacity p.key) v) := by
  rw [HashMapInsert_spec h p hv]
  split_ifs
  · rfl
  · obtain ⟨v', -, -, -, -, -, h6, h7, -⟩ := stored_facts m p (bidx hash m.capacity p.key) v
    rw [ResizeMap_add_stay]
    · rfl
    · rw [h7]; omega

/-- One iteration of the loop of `ReInsertBucket` that moves the pair in slot `j` of bucket
`i` to the bucket `t` of its key under the new capacity. -/
theorem Grow.move {c n : Nat} (hc : c = 2 ^ n) {m : HashMap K V} (hm : Grow hash cmp c m)
    {i j : Nat} (hi : i < c) {v : Bucket K V} (hv : m.buckets[i]? = some v)
    {pair : Pair K V} (hp : v.data[j]? = some (some pair))
    (hmove : bidx hash (2 * c) pair.key ≠ bidx hash c pair.key) (fuel : Nat) :
    ∃ vt m1 m2, m.buckets[bidx hash (2 * c) pair.key]? = some vt ∧
      HashMapInsert (fuel + 1) m pair = some (1, m1) ∧ m1.buckets[i]? = some v ∧
      m2 = { m1 with buckets := m1.buckets.set i (VectorErase v j).2,
                     size := size_dec m1.size } ∧
      Grow hash cmp c m2 ∧
      ∀ t, bdata m2 t = if t = i then v.data.eraseIdx j
        else if t = bidx hash (2 * c) pair.key then bucketInsert pair vt.data else bdata m t := by
  have hcpos : 0 < c := by rw [hc]; positivity
  have ht : bidx hash (2 * c) pair.key = bidx hash c pair.key + c := by
    rcases bidx_double hash hc pair.key with h | h
    · exact absurd h hmove
    · exact h
  have htlt : bidx hash (2 * c) pair.key < 2 * c := bidx_lt hash (by omega) _
  have hti : bidx hash (2 * c) pair.key ≠ i := by omega
  obtain ⟨vt, hvt⟩ := get_of_lt (m := m) (i := bidx hash (2 * c) pair.key) (by rw [hm.len]; exact htlt)
  have hjlt : j < v.data.length := (List.getElem?_eq_some.1 hp).1
  have hins : HashMapInsert (fuel + 1) m pair =
      some (1, stored m pair (bidx hash (2 * c) pair.key) vt) := by
    have := HashMapInsert_room hm.basic (by rw [hm.cap]; exact hm.load) pair
      (by rw [hm.cap]; exact hvt) fuel
    rw [hm.cap] at this
    exact this
  obtain ⟨vt', s1, s2, s3, s4, s5, s6, s7, s8, s9, s10⟩ :=
    stored_facts m pair (bidx hash (2 * c) pair.key) vt
  have hlaw : LawfulKey pair := by
    obtain ⟨q, hq, hl⟩ := (hm.basic.bucket hv).2.2 (some pair) (List.mem_iff_getElem?.2 ⟨j, hp⟩)
    cases hq; exact hl
  have hb1 : Basic LawfulKey hash cmp (stored m pair (bidx hash (2 * c) pair.key) vt) :=
    HashMapInsert_basic (fuel + 1) m pair 1 _ hm.basic hlaw hins
  generalize stored m pair (bidx hash (2 * c) pair.key) vt = m1 at *
  have hv1 : m1.buckets[i]? = some v := by
    rw [s1, List.getElem?_set_ne hti, hv]
  have hlen1 : m1.buckets.length = 2 * c := by
    rw [s1, List.length_set, hm.len]
  have htot1 : total m1 + vt.data.length = total m + vt'.data.length := total_set s1 hvt
  have hsz1 : m1.size = total m1 := by
    have := hm.size_eq
    omega
  have hpos1 : v.data.length ≤ total m1 := length_le_total hv1
  have hsd : size_dec m1.size = m1.size - 1 := by
    unfold size_dec
    have : m1.size ≠ 0 := by omega
    rw [if_neg this]
  refine ⟨vt, m1, _, hvt, hins, hv1, rfl, ?_⟩
  suffices hsuff : ∀ m2 : HashMap K V, m2.buckets = m1.buckets.set i (VectorErase v j).2 →
      m2.size = size_dec m1.size → m2.capacity = m1.capacity →
      m2.hash_func = m1.hash_func → m2.pair_cmp = m1.pair_cmp → m2.pair_cpy = m1.pair_cpy →
      Grow hash cmp c m2 ∧
      ∀ t, bdata m2 t = if t = i then v.data.eraseIdx j
        else if t = bidx hash (2 * c) pair.key then bucketInsert pair vt.data else bdata m t from
    hsuff _ rfl rfl rfl rfl rfl rfl
  intro m2 e1 e2 e3 e4 e5 e6
  have hbd : ∀ t, bdata m2 t = if t = i then v.data.eraseIdx j
      else if t = bidx hash (2 * c) pair.key then bucketInsert pair vt.data
      else bdata m t := by
    intro t
    rw [bdata_set e1 (by rw [hlen1]; omega) t, VectorErase_data]
    split_ifs with h1 h2
    · rfl
    · rw [bdata_set s1 (by rw [hm.len]; exact htlt) t, if_pos h2, s2]
    · rw [bdata_set s1 (by rw [hm.len]; exact htlt) t, if_neg h2]
  refine ⟨⟨?_, ?_, ?_, ?_, ?_, ?_, ?_⟩, hbd⟩
  · refine hb1.of e4 e5 e6 (fun x hx => ?_)
    rw [e1] at hx
    rcases mem_set_or hx with hx | hx
    · exact Or.inl hx
    · exact Or.inr (hx ▸ (hb1.bucket hv1).erase j)
  · rw [e3, s7, hm.cap]
  · rw [e1, List.length_set, hlen1]
  · have h2 := total_set e1 hv1
    rw [VectorErase_data, List.length_eraseIdx, if_pos hjlt] at h2
    rw [e2, hsd]
    omega
  · rw [e2, hsd]
    have := hm.load
    have h5 : vt'.data.length ≤ vt.data.length + 1 := by
      rw [s2, length_bucketInsert]; split_ifs <;> omega
    omega
  · intro t htc p hp
    rw [hbd] at hp
    have hn : t ≠ bidx hash (2 * c) pair.key := by omega
    rw [if_neg hn] at hp
    split_ifs at hp with h1
    · subst h1
      exact hm.old _ htc p (by rw [bdata_of_get hv]; exact List.mem_of_mem_eraseIdx hp)
    · exact hm.old _ htc p hp
  · intro t p hp
    rw [hbd] at hp
    split_ifs at hp with h1 h2
    · subst h1
      exact hm.placed _ p (by rw [bdata_of_get hv]; exact List.mem_of_mem_eraseIdx hp)
    · rcases mem_bucketInsert hp with h | h
      · exact hm.placed _ p (by rw [h2, bdata_of_get hvt]; exact h)
      · rw [h, h2]
    · exact hm.placed _ p hp

end grow

section growloop
variable [DecidableEq K] {hash : K → Nat} {cmp : Pair K V → Obj K V → Bool}

/-- The loop of `ReInsertBucket` during a growth: it returns, keeps the invariant, changes no
other bucket of the old range, and keeps the value found for a key `k` as long as no scanned
pair with key `k` changes its bucket. -/
theorem ReInsertBucketLoop_grow {c n : Nat} (hc : c = 2 ^ n) (fuel : Nat) {i : Nat}
    (hi : i < c) :
    ∀ (j : Nat) (m : HashMap K V), Grow hash cmp c m → j ≤ (bdata m i).length →
      ∃ m', ReInsertBucketLoop (HashMapInsert (fuel + 1)) i c (2 * c) j m = some m' ∧
        Grow hash cmp c m' ∧
        (∀ t, t < c → t ≠ i → bdata m' t = bdata m t) ∧
        (∀ k v, (∀ u q, u < j → (bdata m i)[u]? = some (some q) → q.key = k →
              bidx hash (2 * c) k = bidx hash c k) →
            lookup k (bdata m (bidx hash (2 * c) k)) = some v →
            lookup k (bdata m' (bidx hash (2 * c) k)) = some v)
  | 0, m, hm, _ => ⟨m, rfl, hm, fun _ _ _ => rfl, fun _ _ _ h => h⟩
  | j + 1, m, hm, hj => by
    have hcpos : 0 < c := by rw [hc]; positivity
    obtain ⟨v, hv⟩ := get_of_lt (m := m) (i := i) (by rw [hm.len]; omega)
    rw [bdata_of_get hv] at hj
    obtain ⟨s, hs⟩ : ∃ s, v.data[j]? = some s := ⟨_, List.getElem?_eq_getElem (by omega)⟩
    obtain ⟨pair, hp, -⟩ := (hm.basic.bucket hv).2.2 s (List.mem_iff_getElem?.2 ⟨j, hs⟩)
    subst hp
    by_cases hmove : bidx hash (2 * c) pair.key = bidx hash c pair.key
    · refine ⟨m, ?_, hm, fun _ _ _ => rfl, fun _ _ _ h => h⟩
      unfold ReInsertBucketLoop
      simp only [hv, hs, Hash_eq_bidx, hm.basic.1, hmove]
      simp [hcpos]
    · obtain ⟨vt, m1, m2, hvt, hins, hv1, hm2, hg2, hbd⟩ :=
        Grow.move hc hm hi hv hs hmove fuel
      have hge : c ≤ bidx hash (2 * c) pair.key := by
        rcases bidx_double hash hc pair.key with h | h
        · exact absurd h hmove
        · omega
      have hj2 : j ≤ (bdata m2 i).length := by
        rw [hbd, if_pos rfl, List.length_eraseIdx]
        split_ifs <;> omega
      obtain ⟨m', hr, hg', hun, hlk⟩ := ReInsertBucketLoop_grow hc fuel hi j m2 hg2 hj2
      refine ⟨m', ?_, hg', ?_, ?_⟩
      · unfold ReInsertBucketLoop
        simp only [hv, hs, Hash_eq_bidx, hm.basic.1, hmove, and_false, if_false, hins, hv1]
        rw [← hm2]
        exact hr
      · intro t ht hti
        rw [hun t ht hti, hbd, if_neg hti, if_neg (by omega)]
      · intro k val hH hlook
        have hk : pair.key ≠ k := by
          intro e
          apply hmove
          have := hH j pair (by omega) (by rw [bdata_of_get hv]; exact hs) e
          rw [e]; exact this
        apply hlk k val
        · intro u q hu hq e
          apply hH u q (by omega) _ e
          rw [hbd, if_pos rfl, List.getElem?_eraseIdx, if_pos hu] at hq
          rw [bdata_of_get hv]; exact hq
        · rw [hbd]
          split_ifs with h1 h2
          · rw [lookup_eraseIdx hs hk, ← bdata_of_get hv, ← h1]; exact hlook
          · rw [lookup_bucketInsert_other pair hk, ← bdata_of_get hvt, ← h2]; exact hlook
          · exact hlook

/-- `ReInsertBucket` during a growth. -/
theorem ReInsertBucket_grow {c n : Nat} (hc : c = 2 ^ n) (fuel : Nat) {i : Nat}
    (hi : i < c) {m : HashMap K V} (hm : Grow hash cmp c m) :
    ∃ m', ReInsertBucket (HashMapInsert (fuel + 1)) m i c (2 * c) = some m' ∧
      Grow hash cmp c m' ∧
      (∀ t, t < c → t ≠ i → bdata m' t = bdata m t) ∧
      (∀ k v, (∀ q, some q ∈ bdata m i → q.key = k → bidx hash (2 * c) k = bidx hash c k) →
          lookup k (bdata m (bidx hash (2 * c) k)) = some v →
          lookup k (bdata m' (bidx hash (2 * c) k)) = some v) := by
  obtain ⟨v, hv⟩ := get_of_lt (m := m) (i := i) (by rw [hm.len]; omega)
  unfold ReInsertBucket
  simp only [hv]
  split_ifs with hs
  · exact ⟨m, rfl, hm, fun _ _ _ => rfl, fun _ _ _ h => h⟩
  · obtain ⟨m', hr, hg', hun, hlk⟩ :=
      ReInsertBucketLoop_grow hc fuel hi v.size m hm (by rw [bdata_of_get hv]; exact le_refl _)
    refine ⟨m', hr, hg', hun, fun k val hH hlook => hlk k val (fun u q _ hq e => ?_) hlook⟩
    exact hH q (List.mem_iff_getElem?.2 ⟨u, hq⟩) e

/-- The loop of `ReInsertElems` over the buckets `i, ..., i + count - 1` during a growth. -/
theorem ReInsertRange_grow {c n : Nat} (hc : c = 2 ^ n) (fuel : Nat) :
    ∀ (count i : Nat) (m : HashMap K V), i + count ≤ c → Grow hash cmp c m →
      ∃ m', ReInsertRange (HashMapInsert (fuel + 1)) c (2 * c) count i m = some m' ∧
        Grow hash cmp c m' ∧
        (∀ t, t < c → (t < i ∨ i + count ≤ t) → bdata m' t = bdata m t) ∧
        (∀ k v, (∀ t q, i ≤ t → t < i + count → some q ∈ bdata m t → q.key = k →
              bidx hash (2 * c) k = bidx hash c k) →
            lookup k (bdata m (bidx hash (2 * c) k)) = some v →
            lookup k (bdata m' (bidx hash (2 * c) k)) = some v)
  | 0, i, m, _, hm => ⟨m, rfl, hm, fun _ _ _ => rfl, fun _ _ _ h => h⟩
  | count + 1, i, m, hic, hm => by
    obtain ⟨m1, hr1, hg1, hun1, hlk1⟩ :=
      ReInsertBucket_grow hc fuel (i := i) (by omega) hm
    obtain ⟨m', hr, hg', hun, hlk⟩ :=
      ReInsertRange_grow hc fuel count (i + 1) m1 (by omega) hg1
    refine ⟨m', ?_, hg', ?_, ?_⟩
    · unfold ReInsertRange
      simp only [hr1]
      exact hr
    · intro t ht hti
      rw [hun t ht (by omega), hun1 t ht (by omega)]
    · intro k val hH hlook
      apply hlk k val
      · intro t q h1 h2 hq e
        rw [hun1 t (by omega) (by omega)] at hq
        exact hH t q (by omega) (by omega) hq e
      · exact hlk1 k val (fun q hq e => hH i q (le_refl _) (by omega) hq e) hlook

end growloop

theorem ReInsertRange_succ (ins : HashMap K V → Pair K V → Option (Int × HashMap K V))
    (oc nc count i : Nat) (m : HashMap K V) :
    ReInsertRange ins oc nc (count + 1) i m =
      (ReInsertBucket ins m i oc nc).bind (ReInsertRange ins oc nc count (i + 1)) := by
  conv_lhs => unfold ReInsertRange
  cases ReInsertBucket ins m i oc nc <;> rfl

theorem ReInsertRange_add (ins : HashMap K V → Pair K V → Option (Int × HashMap K V))
    (oc nc : Nat) : ∀ (a b i : Nat) (m : HashMap K V),
      ReInsertRange ins oc nc (a + b) i m =
        (ReInsertRange ins oc nc a i m).bind (ReInsertRange ins oc nc b (i + a))
  | 0, b, i, m => by simp [ReInsertRange]
  | a + 1, b, i, m => by
    have e : a + 1 + b = (a + b) + 1 := by omega
    rw [e, ReInsertRange_succ, ReInsertRange_succ]
    cases h : ReInsertBucket ins m i oc nc with
    | none => simp
    | some m1 =>
      simp only [Option.some_bind]
      rw [ReInsertRange_add ins oc nc a b (i + 1) m1]
      have e2 : i + 1 + a = i + (a + 1) := by omega
      rw [e2]

theorem bdata_VectorsAllocator (m : HashMap K V) (hlen : m.buckets.length = m.capacity)
    (nc : Nat) (t : Nat) :
    bdata (VectorsAllocator m nc).2 t = if t < m.capacity then bdata m t else [] := by
  unfold bdata VectorsAllocator
  simp only
  rw [← hlen, List.take_length]
  by_cases h : t < m.buckets.length
  · rw [List.getElem?_append_left h, if_pos h]
  · rw [List.getElem?_append_right (by omega), if_neg h, List.getElem?_replicate]
    split_ifs <;> simp [VectorAlloc]

theorem total_VectorsAllocator (m : HashMap K V) (hlen : m.buckets.length = m.capacity)
    (nc : Nat) : total (VectorsAllocator m nc).2 = total m := by
  unfold total VectorsAllocator
  simp only
  rw [← hlen, List.take_length]
  simp [VectorAlloc]

theorem bidx_le_double (hash : K → Nat) {c n : Nat} (hc : c = 2 ^ n) (k : K) :
    bidx hash c k ≤ bidx hash (2 * c) k := by
  rcases bidx_double hash hc k with h | h <;> omega

section inv
variable [DecidableEq K] {hash : K → Nat} {cmp : Pair K V → Obj K V → Bool}

/-- `ReInsertBucket` during a growth on a bucket whose last pair has a key that occurs nowhere
else in the bucket and that changes its bucket: afterwards the key is found, with the value of
that pair, in its new bucket. -/
theorem ReInsertBucket_grow_top {c n : Nat} (hc : c = 2 ^ n) (fuel : Nat) {i : Nat}
    (hi : i < c) {m : HashMap K V} (hm : Grow hash cmp c m) {d : List (Option (Pair K V))}
    {p : Pair K V} (hd : bdata m i = d ++ [some p]) (hk : keyIndex p.key d = none)
    (hmove : bidx hash (2 * c) p.key ≠ bidx hash c p.key) :
    ∃ m', ReInsertBucket (HashMapInsert (fuel + 1)) m i c (2 * c) = some m' ∧
      Grow hash cmp c m' ∧
      (∀ t, t < c → t ≠ i → bdata m' t = bdata m t) ∧
      lookup p.key (bdata m' (bidx hash (2 * c) p.key)) = some p.value := by
  obtain ⟨v, hv⟩ := get_of_lt (m := m) (i := i) (by rw [hm.len]; omega)
  rw [bdata_of_get hv] at hd
  have hs : v.data[d.length]? = some (some p) := by
    rw [hd, List.getElem?_append_right (le_refl _)]; simp
  have hsize : v.size = d.length + 1 := by simp [Vector.size, hd]
  obtain ⟨vt, m1, m2, hvt, hins, hv1, hm2, hg2, hbd⟩ :=
    Grow.move hc hm hi hv hs hmove fuel
  have hge : c ≤ bidx hash (2 * c) p.key := by
    rcases bidx_double hash hc p.key with h | h
    · exact absurd h hmove
    · omega
  have hti : bidx hash (2 * c) p.key ≠ i := by omega
  have he : v.data.eraseIdx d.length = d := by
    rw [hd, List.eraseIdx_append_of_length_le (le_refl _)]; simp
  have hj2 : d.length ≤ (bdata m2 i).length := by
    rw [hbd, if_pos rfl, he]
  obtain ⟨m', hr, hg', hun, hlk⟩ := ReInsertBucketLoop_grow hc fuel hi d.length m2 hg2 hj2
  refine ⟨m', ?_, hg', ?_, ?_⟩
  · unfold ReInsertBucket
    simp only [hv, hsize, Nat.succ_ne_zero, if_false]
    unfold ReInsertBucketLoop
    simp only [hv, hs, Hash_eq_bidx, hm.basic.1, hmove, and_false, if_false, hins, hv1]
    rw [← hm2]
    exact hr
  · intro t ht hne
    rw [hun t ht hne, hbd, if_neg hne, if_neg (by omega)]
  · apply hlk p.key p.value
    · intro u q hu hq e
      exfalso
      rw [hbd, if_pos rfl, he] at hq
      exact (keyIndex_none hk).2 q (List.mem_iff_getElem?.2 ⟨u, hq⟩) e
    · rw [hbd, if_neg hti, if_pos rfl]
      exact lookup_bucketInsert_self p vt.data

end inv

theorem ReInsertRange_one (ins : HashMap K V → Pair K V → Option (Int × HashMap K V))
    (oc nc i : Nat) (m : HashMap K V) :
    ReInsertRange ins oc nc 1 i m = ReInsertBucket ins m i oc nc := by
  show ReInsertRange ins oc nc (0 + 1) i m = _
  rw [ReInsertRange_succ]
  cases ReInsertBucket ins m i oc nc <;> simp [ReInsertRange]

section insert
variable [DecidableEq K] {hash : K → Nat} {cmp : Pair K V → Obj K V → Bool}

theorem total_ne_zero_of_lookup {m : HashMap K V} {k : K} {t : Nat} {val : V}
    (h : lookup k (bdata m t) = some val) : total m ≠ 0 := by
  unfold bdata at h
  cases hv : m.buckets[t]? with
  | none => simp [hv, lookup] at h
  | some v =>
    simp only [hv] at h
    have := length_le_total hv
    cases hd : v.data with
    | nil => simp [hd, lookup] at h
    | cons s rest => simp [hd] at this; omega

omit [DecidableEq K] in
theorem Grow.toInv {c n : Nat} (hc : c = 2 ^ n) (hbig : 16 ≤ c) {m : HashMap K V}
    (h : Grow hash cmp c m) : Inv hash cmp m where
  basic := h.basic
  pow := ⟨n + 1, by rw [h.cap, hc, pow_succ]; ring⟩
  big := by rw [h.cap]; omega
  len := by rw [h.len, h.cap]
  size_eq := h.size_eq
  load := by rw [h.cap]; have := h.load; omega
  placed := by rw [h.cap]; exact h.placed

omit [DecidableEq K] in
/-- The table after the allocation of the new buckets of a growth. -/
theorem Grow.start {c n : Nat} (hc : c = 2 ^ n) {m : HashMap K V}
    (hb : Basic LawfulKey hash cmp m) (hcap : m.capacity = c) (hlen : m.buckets.length = c)
    (hsize : m.size = total m) (hload : 4 * (m.size + 1) ≤ 3 * (2 * c))
    (hpl : ∀ i p, some p ∈ bdata m i → i ≤ bidx hash c p.key) :
    Grow hash cmp c (VectorsAllocator m (2 * c)).2 where
  basic := VectorsAllocator_basic hb _
  cap := rfl
  len := by simp [VectorsAllocator, hlen, hcap]; omega
  size_eq := by rw [total_VectorsAllocator m (hlen.trans hcap.symm)]; exact hsize
  load := hload
  old := by
    intro i hi p hp
    rw [bdata_VectorsAllocator m (hlen.trans hcap.symm), hcap, if_pos hi] at hp
    exact hpl i p hp
  placed := by
    intro i p hp
    rw [bdata_VectorsAllocator m (hlen.trans hcap.symm), hcap] at hp
    split_ifs at hp with hi
    · exact le_trans (hpl i p hp) (bidx_le_double hash hc _)
    · simp at hp

/-- The rehash of a growth after a pair `p` with a new key was appended to its bucket: the
rehash returns, the invariant holds, and the key of `p` is found with the value of `p`. -/
theorem grow_lookup {c n : Nat} (hc : c = 2 ^ n) (fuel : Nat) {m : HashMap K V}
    (hm : Grow hash cmp c m) {p : Pair K V} {d : List (Option (Pair K V))}
    (hd : bdata m (bidx hash c p.key) = d ++ [some p]) (hk : keyIndex p.key d = none) :
    ∃ m', ReInsertRange (HashMapInsert (fuel + 1)) c (2 * c) c 0 m = some m' ∧
      Grow hash cmp c m' ∧
      lookup p.key (bdata m' (bidx hash (2 * c) p.key)) = some p.value := by
  have hcpos : 0 < c := by rw [hc]; positivity
  have hb : bidx hash c p.key < c := bidx_lt hash hcpos _
  by_cases hmove : bidx hash (2 * c) p.key = bidx hash c p.key
  · obtain ⟨m', hr, hg, -, hlk⟩ := ReInsertRange_grow hc fuel c 0 m (by omega) hm
    refine ⟨m', hr, hg, hlk p.key p.value (fun _ _ _ _ _ _ => hmove) ?_⟩
    rw [hmove, hd, lookup_append, (keyIndex_none hk).1]
    simp
  · obtain ⟨m1, r1, g1, un1, -⟩ :=
      ReInsertRange_grow hc fuel (bidx hash c p.key) 0 m (by omega) hm
    have hd1 : bdata m1 (bidx hash c p.key) = d ++ [some p] := by
      rw [un1 _ hb (Or.inr (by omega)), hd]
    obtain ⟨m2, r2, g2, -, look2⟩ := ReInsertBucket_grow_top hc fuel hb g1 hd1 hk hmove
    obtain ⟨m3, r3, g3, -, lk3⟩ :=
      ReInsertRange_grow hc fuel (c - bidx hash c p.key - 1) (bidx hash c p.key + 1) m2
        (by omega) g2
    refine ⟨m3, ?_, g3, lk3 p.key p.value ?_ look2⟩
    · have e : c = bidx hash c p.key + (1 + (c - bidx hash c p.key - 1)) := by omega
      conv_lhs => rw [e]
      rw [ReInsertRange_add, ← e, r1]
      simp only [Option.some_bind, Nat.zero_add]
      rw [ReInsertRange_add, ReInsertRange_one, r2]
      simp only [Option.some_bind]
      exact r3
    · intro t q h1 h2 hq e
      exfalso
      have := g2.old t (by omega) q hq
      rw [e] at this
      omega

/-- `HashMapInsert` on a table built by inserts: it returns 1, keeps the invariant, the key
is found afterwards with the inserted value, and the capacity doubles exactly when the key is
new and the load factor with the new pair exceeds 0.75. -/
theorem HashMapInsert_inv {m : HashMap K V} (hm : Inv hash cmp m) (p : Pair K V)
    (hp : LawfulKey p) (fuel : Nat) :
    ∃ m', HashMapInsert (fuel + 2) m p = some (1, m') ∧ Inv hash cmp m' ∧
      lookup p.key (bdata m' (bidx hash m'.capacity p.key)) = some p.value ∧
      m'.capacity =
        if keyIndex p.key (bdata m (bidx hash m.capacity p.key)) = none ∧
            3 * m.capacity < 4 * (m.size + 1) then 2 * m.capacity else m.capacity := by
  obtain ⟨n, hn⟩ := hm.pow
  have hcpos : 0 < m.capacity := by have := hm.big; omega
  have hb : bidx hash m.capacity p.key < m.capacity := bidx_lt hash hcpos _
  obtain ⟨v, hv⟩ := get_of_lt (m := m) (i := bidx hash m.capacity p.key) (by rw [hm.len]; exact hb)
  rw [HashMapInsert_spec hm.basic p hv (fuel + 1), bdata_of_get hv]
  obtain ⟨v', s1, s2, s3, s4, s5, s6, s7, s8, s9, s10⟩ :=
    stored_facts m p (bidx hash m.capacity p.key) v
  generalize stored m p (bidx hash m.capacity p.key) v = S at *
  have hbv := hm.basic.bucket hv
  have hSb : Basic LawfulKey hash cmp S := by
    refine hm.basic.of s8 s9 s10 (fun x hx => ?_)
    rw [s1] at hx
    rcases mem_set_or hx with hx | hx
    · exact Or.inl hx
    · refine Or.inr ⟨by rw [hx, s3, hbv.1], by rw [hx, s4, hbv.2.1], fun s hs => ?_⟩
      rw [hx, s2] at hs
      unfold bucketInsert at hs
      split at hs
      · rcases mem_set_or hs with hs | hs
        · exact hbv.2.2 s hs
        · exact ⟨p, hs, hp⟩
      · simp at hs
        rcases hs with hs | hs
        · exact hbv.2.2 s hs
        · exact ⟨p, hs, hp⟩
  have hSlen : S.buckets.length = m.capacity := by rw [s1, List.length_set, hm.len]
  have hStot : total S + v.data.length = total m + v'.data.length := total_set s1 hv
  have hStotal : S.size = total S := by have := hm.size_eq; omega
  have hSbd : ∀ t, bdata S t =
      if t = bidx hash m.capacity p.key then bucketInsert p v.data else bdata m t := by
    intro t
    rw [bdata_set s1 (by rw [hm.len]; exact hb) t, s2]
  have hSpl : ∀ i q, some q ∈ bdata S i → i ≤ bidx hash m.capacity q.key := by
    intro i q hq
    rw [hSbd] at hq
    split_ifs at hq with h1
    · rcases mem_bucketInsert hq with h | h
      · exact hm.placed i q (by rw [h1, bdata_of_get hv]; exact h)
      · rw [h, h1]
    · exact hm.placed i q hq
  have hSlook : lookup p.key (bdata S (bidx hash m.capacity p.key)) = some p.value := by
    rw [hSbd, if_pos rfl]; exact lookup_bucketInsert_self p v.data
  cases hk : keyIndex p.key v.data with
  | some t =>
    have hl : v'.data.length = v.data.length := by
      rw [s2, length_bucketInsert, hk]; simp
    refine ⟨S, by simp, ⟨hSb, ⟨n, by rw [s7, hn]⟩, by rw [s7]; exact hm.big,
      by rw [hSlen, s7], hStotal, ?_, by rw [s7]; exact hSpl⟩, by rw [s7]; exact hSlook, ?_⟩
    · have := hm.load
      rw [s7]; omega
    · simp [s7]
  | none =>
    have hl : v'.data.length = v.data.length + 1 := by
      rw [s2, length_bucketInsert, hk]; simp
    have hsz : S.size = m.size + 1 := by omega
    simp only [Option.isSome_none, Bool.false_eq_true, if_false, true_and]
    by_cases hgrow : 3 * m.capacity < 4 * (m.size + 1)
    · rw [ResizeMap_add_grow _ S (by rw [s7, hsz]; exact hgrow) (by rw [s7]; omega), s7,
        Nat.mul_comm m.capacity 2]
      have hA : Grow hash cmp m.capacity (VectorsAllocator S (2 * m.capacity)).2 :=
        Grow.start hn hSb s7 hSlen hStotal
          (by rw [hsz]; have := hm.load; have := hm.big; omega) hSpl
      have hd : bdata (VectorsAllocator S (2 * m.capacity)).2 (bidx hash m.capacity p.key) =
          v.data ++ [some p] := by
        rw [bdata_VectorsAllocator S (hSlen.trans s7.symm), s7, if_pos hb, hSbd, if_pos rfl]
        simp [bucketInsert, hk]
      obtain ⟨m', hr, hg, hlook⟩ := grow_lookup hn fuel hA hd hk
      refine ⟨m', by rw [hr]; rfl, hg.toInv hn hm.big, by rw [hg.cap]; exact hlook, ?_⟩
      rw [hg.cap, if_pos hgrow]
    · rw [ResizeMap_add_stay _ S (by rw [s7, hsz]; omega)]
      refine ⟨S, rfl, ⟨hSb, ⟨n, by rw [s7, hn]⟩, by rw [s7]; exact hm.big,
        by rw [hSlen, s7], hStotal, ?_, by rw [s7]; exact hSpl⟩, by rw [s7]; exact hSlook, ?_⟩
      · rw [s7, hsz]; omega
      · rw [s7, if_neg hgrow]

end insert

/-! ## More fuel does not change a result -/

section mono
variable {ins ins' : HashMap K V → Pair K V → Option (Int × HashMap K V)}

theorem ReInsertBucketLoop_mono (h : InsLe ins ins') (b oc nc : Nat) :
    ∀ (j : Nat) (m m' : HashMap K V), ReInsertBucketLoop ins b oc nc j m = some m' →
      ReInsertBucketLoop ins' b oc nc j m = some m'
  | 0, m, m', hr => by
    simpa [ReInsertBucketLoop] using hr
  | j + 1, m, m', hr => by
    unfold ReInsertBucketLoop at hr ⊢
    split at hr
    · simp at hr
    · rename_i vector hv
      try simp only [hv]
      split at hr
      · rename_i pair hp
        try simp only [hp]
        split_ifs at hr ⊢ with hc
        · exact hr
        · split at hr
          · simp at hr
          · rename_i r map1 hi
            rw [h m pair _ hi]
            try simp only
            split at hr
            · simp at hr
            · rename_i vector1 hv1
              try simp only [hv1]
              exact ReInsertBucketLoop_mono h b oc nc j _ m' hr
      · simp at hr

theorem ReInsertBucket_mono (h : InsLe ins ins') {b oc nc : Nat} {m m' : HashMap K V}
    (hr : ReInsertBucket ins m b oc nc = some m') :
    ReInsertBucket ins' m b oc nc = some m' := by
  unfold ReInsertBucket at hr ⊢
  split at hr
  · simp at hr
  · rename_i vector hv
    try simp only [hv]
    split_ifs at hr ⊢
    · exact hr
    · exact ReInsertBucketLoop_mono h b oc nc _ m m' hr

theorem ReInsertRange_mono (h : InsLe ins ins') (oc nc : Nat) :
    ∀ (count i : Nat) (m m' : HashMap K V), ReInsertRange ins oc nc count i m = some m' →
      ReInsertRange ins' oc nc count i m = some m'
  | 0, i, m, m', hr => by
    simpa [ReInsertRange] using hr
  | count + 1, i, m, m', hr => by
    rw [ReInsertRange_succ] at hr ⊢
    cases h1 : ReInsertBucket ins m i oc nc with
    | none => simp [h1] at hr
    | some m1 =>
      rw [h1] at hr
      rw [ReInsertBucket_mono h h1]
      exact ReInsertRange_mono h oc nc count (i + 1) m1 m' hr

theorem ReInsertElems_mono (h : InsLe ins ins') {oc nc : Nat} {m m' : HashMap K V}
    (hr : ReInsertElems ins m oc nc = some m') : ReInsertElems ins' m oc nc = some m' := by
  unfold ReInsertElems at hr ⊢
  split_ifs at hr ⊢
  · exact ReInsertRange_mono h oc nc _ _ m m' hr
  · exact ReInsertRange_mono h oc nc _ _ m m' hr
  · exact hr

theorem ResizeMap_mono (h : InsLe ins ins') {ch : Int} {m m' : HashMap K V}
    (hr : ResizeMap ins m ch = some m') : ResizeMap ins' m ch = some m' := by
  unfold ResizeMap at hr ⊢
  dsimp only at hr ⊢
  split_ifs at hr ⊢
  · exact ReInsertElems_mono h hr
  · split at hr
    · simp at hr
    · rename_i map1 h1
      rw [ReInsertElems_mono h h1]
      exact hr
  · exact hr

end mono

/-- A result of `HashMapInsert` stays the result with more fuel. -/
theorem HashMapInsert_mono : ∀ (fuel : Nat),
    InsLe (HashMapInsert (K := K) (V := V) fuel) (HashMapInsert (fuel + 1))
  | 0 => by
    intro m p r hr
    simp [HashMapInsert] at hr
  | fuel + 1 => by
    intro m p r hr
    unfold HashMapInsert at hr ⊢
    split at hr
    · simp at hr
    · rename_i found b i map1 hg
      try simp only
      split at hr
      · simp at hr
      · rename_i vector hv
        try simp only
        dsimp only at hr ⊢
        split_ifs at hr ⊢ with hf hpush
        · exact hr
        · exact hr
        · split at hr
          · simp at hr
          · rename_i map3 h3
            rw [ResizeMap_mono (HashMapInsert_mono fuel) h3]
            exact hr

theorem HashMapInsert_mono_add (fuel : Nat) : ∀ (extra : Nat) (m : HashMap K V)
    (p : Pair K V) (r : Int × HashMap K V), HashMapInsert fuel m p = some r →
      HashMapInsert (fuel + extra) m p = some r
  | 0, _, _, _, h => h
  | extra + 1, m, p, r, h =>
    HashMapInsert_mono (fuel + extra) m p r (HashMapInsert_mono_add fuel extra m p r h)

/-! ## Tables built by inserts -/

theorem Basic.mono {P Q : Pair K V → Prop} {hash : K → Nat} {cmp : Pair K V → Obj K V → Bool}
    {m : HashMap K V} (h : Basic P hash cmp m) (hPQ : ∀ p, P p → Q p) : Basic Q hash cmp m := by
  obtain ⟨a, b, c, d⟩ := h
  refine ⟨a, b, c, fun v hv => ?_⟩
  obtain ⟨e, f, g⟩ := d v hv
  exact ⟨e, f, fun s hs => by obtain ⟨p, hp, hP⟩ := g s hs; exact ⟨p, hp, hPQ p hP⟩⟩

theorem bdata_HashMapAlloc (hash : K → Nat) (cmp : Pair K V → Obj K V → Bool) (i : Nat) :
    bdata (HashMapAlloc hash some cmp) i = [] := by
  unfold bdata HashMapAlloc VectorsAllocator
  simp only [List.take_nil, List.nil_append, List.getElem?_replicate]
  split_ifs <;> simp [VectorAlloc]

/-- Every pair stored in a table built by inserts is one of the inserted pairs. -/
theorem InsertBuilt.stored {hash : K → Nat} {cmp : Pair K V → Obj K V → Bool}
    {ps : List (Pair K V)} {m : HashMap K V} (h : InsertBuilt hash cmp ps m) :
    Basic (fun q => q ∈ ps) hash cmp m := by
  induction h with
  | alloc => exact HashMapAlloc_basic hash cmp
  | insert p fuel r m' _ hr ih =>
    exact HashMapInsert_basic fuel _ p r m'
      (ih.mono (fun q hq => List.mem_cons_of_mem p hq)) (List.mem_cons_self p _) hr

section built
variable [DecidableEq K] {hash : K → Nat} {cmp : Pair K V → Obj K V → Bool}

omit [DecidableEq K] in
/-- A new table satisfies the invariant. -/
theorem HashMapAlloc_inv (hash : K → Nat) (cmp : Pair K V → Obj K V → Bool) :
    Inv hash cmp (HashMapAlloc hash some cmp) where
  basic := HashMapAlloc_basic hash cmp
  pow := ⟨4, rfl⟩
  big := le_refl _
  len := by simp [HashMapAlloc, VectorsAllocator, HASH_MAP_INITIAL_CAP]
  size_eq := by
    simp [HashMapAlloc, VectorsAllocator, total, VectorAlloc]
  load := by simp [HashMapAlloc, VectorsAllocator]
  placed := by
    intro i p hp
    rw [bdata_HashMapAlloc] at hp
    simp at hp

/-- A table built by inserts of pairs with lawful key comparison satisfies the invariant. -/
theorem InsertBuilt.inv {ps : List (Pair K V)} {m : HashMap K V}
    (h : InsertBuilt hash cmp ps m) (hl : ∀ q ∈ ps, LawfulKey q) : Inv hash cmp m := by
  induction h with
  | alloc => exact HashMapAlloc_inv hash cmp
  | insert p fuel r m' _ hr ih =>
    have hm := ih (fun q hq => hl q (List.mem_cons_of_mem p hq))
    obtain ⟨m'', h1, h2, -⟩ := HashMapInsert_inv hm p (hl p (List.mem_cons_self p _)) fuel
    have h3 := HashMapInsert_mono_add fuel 2 _ p _ hr
    rw [h1] at h3
    simp only [Option.some.injEq, Prod.mk.injEq] at h3
    rw [← h3.2]
    exact h2

/-- C1.  Take any table built from a new table (capacity 16) by a finite sequence of
`HashMapInsert` calls, for an arbitrary hash function, with pair copies that succeed and
pairs whose key comparison decides equality of keys.  Then `HashMapInsert(map, p)` returns 1
for every fuel of at least 2, and `HashMapAt(map, p.key)` called on the resulting table
returns the value of `p` (and leaves the table as it is), also when the insert doubled the
capacity and rehashed. -/
theorem HashMapAt_after_HashMapInsert {ps : List (Pair K V)} {m : HashMap K V}
    (h : InsertBuilt hash cmp ps m) (hl : ∀ q ∈ ps, LawfulKey q) (p : Pair K V)
    (hp : LawfulKey p) (fuel : Nat) :
    ∃ m', HashMapInsert (fuel + 2) m p = some (1, m') ∧
      HashMapAt m' p.key = some (some p.value, m') := by
  obtain ⟨m', h1, h2, h3, -⟩ := HashMapInsert_inv (h.inv hl) p hp fuel
  refine ⟨m', h1, ?_⟩
  have hcpos : 0 < m'.capacity := by have := h2.big; omega
  rw [HashMapAt_spec h2.basic p.key (by rw [h2.len]; exact bidx_lt hash hcpos _)
    (by rw [h2.size_eq]; exact total_ne_zero_of_lookup h3), h3]

end built

/-! ## Concrete tables -/

theorem natPair_lawful (k v : Nat) : LawfulKey (natPair k v) := by
  intro a b
  simp [natPair]

section c7
variable [DecidableEq K] {hash : K → Nat} {cmp : Pair K V → Obj K V → Bool}

/-- C7.  In a table built from a new table by inserting pairs with pairwise distinct keys,
the insert of a pair with a further key returns 1 (for every fuel of at least 2) and leaves
the capacity exactly twice its previous value when the size after the insert (`size + 1`, the
value of `map->size` that `ResizeMap` sees) divided by the capacity exceeds 0.75, and
unchanged otherwise.  With `hash(k) = k`, after inserting the keys 1..13 into a new table the
capacity is 32, `HashMapAt(map, 7)` returns the value inserted with key 7, and
`Hash(map, 32, 7) = 7`. -/
theorem capacity_after_insert {ps : List (Pair K V)} {m : HashMap K V}
    (h : InsertBuilt hash cmp ps m) (hl : ∀ q ∈ ps, LawfulKey q) (p : Pair K V)
    (hp : LawfulKey p) (hnd : ((p :: ps).map (fun q => q.key)).Nodup) (fuel : Nat) :
    (∃ m', HashMapInsert (fuel + 2) m p = some (1, m') ∧
      m'.capacity =
        if 3 * m.capacity < 4 * (m.size + 1) then 2 * m.capacity else m.capacity) ∧
    (∃ m13, insertAll (keyPairs [1, 2, 3, 4, 5, 6, 7, 8, 9, 10, 11, 12, 13])
        (HashMapAlloc id some natPairCmp) = some m13 ∧
      m13.capacity = 32 ∧ atValue m13 7 = some (some 107) ∧ Hash m13 32 7 = 7) := by
  constructor
  · obtain ⟨m', h1, -, -, h4⟩ := HashMapInsert_inv (h.inv hl) p hp fuel
    refine ⟨m', h1, ?_⟩
    rw [h4]
    have hnew : keyIndex p.key (bdata m (bidx hash m.capacity p.key)) = none := by
      apply keyIndex_of_not_mem
      intro q hq e
      have hmem : q ∈ ps := by
        unfold bdata at hq
        split at hq
        · rename_i v hv
          obtain ⟨q', hq', hps⟩ := (h.stored.bucket hv).2.2 (some q) hq
          cases hq'; exact hps
        · simp at hq
      rw [List.map_cons, List.nodup_cons] at hnd
      exact hnd.1 (List.mem_map.2 ⟨q, hmem, e⟩)
    simp only [hnew, true_and]
  · exact ⟨(insertAll (keyPairs [1, 2, 3, 4, 5, 6, 7, 8, 9, 10, 11, 12, 13])
        (HashMapAlloc id some natPairCmp)).get (by decide), by simp, by decide, by decide,
      by decide⟩

end c7

/-! ## Tables reachable by inserts and erases -/

/-- A reachable table satisfies the frame invariant. -/
theorem Reachable.basic {hash : K → Nat} {cmp : Pair K V → Obj K V → Bool} {m : HashMap K V}
    (h : Reachable hash cmp m) : Basic LawfulKey hash cmp m := by
  induction h with
  | alloc => exact HashMapAlloc_basic hash cmp
  | insert p fuel r m' _ hp hr ih => exact HashMapInsert_basic fuel _ p r m' ih hp hr
  | erase k fuel r m' _ hr ih => exact HashMapErase_basic ih hr

section c3
variable [DecidableEq K] {hash : K → Nat} {cmp : Pair K V → Obj K V → Bool}

end c3

theorem VectorFindLoop_value (vcmp : V → V → Bool) (v : V) :
    ∀ (data : List (Option (Pair K V))) (i : Nat),
      (VectorFindLoop (ElemCmpWrapper (.VALUE vcmp)) (Obj.value v) data i = FAIL ∧
          ∀ q, some q ∈ data → vcmp q.value v = false) ∨
        (0 ≤ VectorFindLoop (ElemCmpWrapper (.VALUE vcmp)) (Obj.value v) data i ∧
          ∃ q, some q ∈ data ∧ vcmp q.value v = true)
  | [], i => Or.inl ⟨rfl, fun q hq => by simp at hq⟩
  | none :: rest, i => by
    rw [VectorFindLoop]
    rcases VectorFindLoop_value vcmp v rest (i + 1) with ⟨h1, h2⟩ | ⟨h1, q, hq, hv⟩
    · exact Or.inl ⟨h1, fun q hq => h2 q (by simpa using hq)⟩
    · exact Or.inr ⟨h1, q, by simp [hq], hv⟩
  | some p :: rest, i => by
    rw [VectorFindLoop]
    cases hc : vcmp p.value v with
    | true =>
      refine Or.inr ⟨?_, p, by simp, hc⟩
      simp [ElemCmpWrapper, hc]
    | false =>
      simp only [ElemCmpWrapper, hc, Bool.false_eq_true, if_false]
      rcases VectorFindLoop_value vcmp v rest (i + 1) with ⟨h1, h2⟩ | ⟨h1, q, hq, hv⟩
      · refine Or.inl ⟨h1, fun q hq => ?_⟩
        simp at hq
        rcases hq with rfl | hq
        · exact hc
        · exact h2 q hq
      · exact Or.inr ⟨h1, q, by simp [hq], hv⟩

/-- The loop of `HashMapContainsValue` on a table with the frame invariant whose pairs share
the value comparison `vcmp`: the table is returned as it was, and the result is 1 exactly
when a pair with an equal value is stored in one of the scanned buckets. -/
theorem ContainsValueLoop_spec {hash : K → Nat} {cmp : Pair K V → Obj K V → Bool}
    (vcmp : V → V → Bool) (v : V) {m : HashMap K V}
    (hm : Basic (fun q => q.value_cmp = vcmp) hash cmp m) :
    ∀ (count i : Nat), i + count ≤ m.buckets.length →
      ∃ r, ContainsValueLoop v count i m = some (r, m) ∧ (r = 1 ∨ r = 0) ∧
        (r = 1 ↔ ∃ t q, i ≤ t ∧ t < i + count ∧ some q ∈ bdata m t ∧ vcmp q.value v = true)
  | 0, i, _ => ⟨0, rfl, Or.inr rfl, by
      constructor
      · intro h; simp at h
      · rintro ⟨t, q, h1, h2, -⟩; omega⟩
  | count + 1, i, hlen => by
    obtain ⟨vec, hvec⟩ := get_of_lt (m := m) (i := i) (by omega)
    obtain ⟨r, hr, hr01, hiff⟩ := ContainsValueLoop_spec vcmp v hm count (i + 1) (by omega)
    have hb := hm.bucket hvec
    unfold ContainsValueLoop
    simp only [hvec]
    split_ifs with hs
    · refine ⟨r, hr, hr01, hiff.trans ⟨?_, ?_⟩⟩
      · rintro ⟨t, q, h1, h2, h3, h4⟩
        exact ⟨t, q, by omega, by omega, h3, h4⟩
      · rintro ⟨t, q, h1, h2, h3, h4⟩
        refine ⟨t, q, ?_, by omega, h3, h4⟩
        by_contra hlt
        have : t = i := by omega
        subst this
        rw [bdata_of_get hvec, List.length_eq_zero.1 hs] at h3
        simp at h3
    · rcases hd : vec.data with _ | ⟨s, rest⟩
      · simp [Vector.size, hd] at hs
      · obtain ⟨first, hf, hfc⟩ := hb.2.2 s (by simp [hd])
        subst hf
        simp only [List.getElem?_cons_zero, VectorFind]
        rw [← hd, hfc, restore_eq hm hvec]
        rcases VectorFindLoop_value vcmp v vec.data 0 with ⟨hF, hall⟩ | ⟨h1, q, hq, hv⟩
        · have hf : (VectorFindLoop (ElemCmpWrapper (.VALUE vcmp)) (Obj.value v) vec.data 0
              != FAIL) = false := by
            rw [hF]; simp
          simp only [hf, Bool.false_eq_true, if_false]
          refine ⟨r, hr, hr01, hiff.trans ⟨?_, ?_⟩⟩
          · rintro ⟨t, q, h1, h2, h3, h4⟩
            exact ⟨t, q, by omega, by omega, h3, h4⟩
          · rintro ⟨t, q, h1, h2, h3, h4⟩
            refine ⟨t, q, ?_, by omega, h3, h4⟩
            by_contra hlt
            have : t = i := by omega
            subst this
            rw [bdata_of_get hvec] at h3
            rw [hall q h3] at h4
            simp at h4
        · have hne : (VectorFindLoop (ElemCmpWrapper (.VALUE vcmp)) (Obj.value v) vec.data 0
              != FAIL) = true := by
            simp only [bne_iff_ne, ne_eq, FAIL]
            omega
          simp only [hne, if_true]
          refine ⟨1, rfl, Or.inl rfl, ⟨fun _ => ⟨i, q, le_refl _, by omega, ?_, hv⟩, fun _ => rfl⟩⟩
          rw [bdata_of_get hvec]; exact hq

theorem not_mem_bdata_of_total {m : HashMap K V} (h : total m = 0) (i : Nat) (q : Pair K V) :
    ¬ some q ∈ bdata m i := by
  intro hq
  unfold bdata at hq
  split at hq
  · rename_i v hv
    have := length_le_total hv
    have hl : v.data.length = 0 := by omega
    rw [List.length_eq_zero.1 hl] at hq
    simp at hq
  · simp at hq

theorem bdata_of_length_le {m : HashMap K V} {i : Nat} (h : m.buckets.length ≤ i) :
    bdata m i = [] := by
  unfold bdata
  rw [List.getElem?_eq_none h]

section c9
variable [DecidableEq K] {hash : K → Nat} {cmp : Pair K V → Obj K V → Bool}

/-- C9.  For every table built by inserts into a new table, with pairs that share the value
comparison `vcmp`, and every value `v`: `HashMapContainsValue(map, v)` returns 1 if a pair
stored in some bucket has a value equal to `v` under `vcmp` and 0 otherwise; the table after
the call is the table before it, the comparison function of every bucket being `pair_cmp`,
so `HashMapContainsKey` and `HashMapAt` return what they returned before.  After inserting
`{1, "a"}` and `{2, "b"}`: `contains_value("b") = 1`, `contains_value("c") = 0`, then
`contains_key(2) = 1`. -/
theorem HashMapContainsValue_correct {ps : List (Pair K V)} {m : HashMap K V}
    (h : InsertBuilt hash cmp ps m) (hl : ∀ q ∈ ps, LawfulKey q) (vcmp : V → V → Bool)
    (hv : ∀ q ∈ ps, q.value_cmp = vcmp) (v : V) :
    (∃ r m', HashMapContainsValue m v = some (r, m') ∧ m' = m ∧
      (∀ b ∈ m'.buckets, b.elem_cmp_func = m'.pair_cmp) ∧
      (∀ k, HashMapContainsKey m' k = HashMapContainsKey m k ∧
        HashMapAt m' k = HashMapAt m k) ∧
      (r = 1 ∨ r = 0) ∧
      (r = 1 ↔ ∃ i q, some q ∈ bdata m i ∧ vcmp q.value v = true)) ∧
    (insertAll [strPair 1 "a", strPair 2 "b"] (HashMapAlloc id some strPairCmp) =
        some tableAB ∧
      HashMapContainsValue tableAB "b" = some (1, tableAB) ∧
      HashMapContainsValue tableAB "c" = some (0, tableAB) ∧
      (HashMapContainsKey tableAB 2).map (·.1) = some 1) := by
  refine ⟨?_, rfl, rfl, rfl, by decide⟩
  have hinv := h.inv hl
  have hb : Basic (fun q => q.value_cmp = vcmp) hash cmp m := h.stored.mono hv
  have hcmp : ∀ b ∈ m.buckets, b.elem_cmp_func = m.pair_cmp := by
    intro b hb'
    rw [(hb.2.2.2 b hb').2.1, hb.2.1]
  unfold HashMapContainsValue
  split_ifs with hs
  · refine ⟨0, m, rfl, rfl, hcmp, fun k => ⟨rfl, rfl⟩, Or.inr rfl, ?_⟩
    constructor
    · intro h0; simp [FAILURE] at h0
    · rintro ⟨i, q, hq, -⟩
      exact absurd hq (not_mem_bdata_of_total (by rw [← hinv.size_eq]; exact hs) i q)
  · obtain ⟨r, hr, hr01, hiff⟩ :=
      ContainsValueLoop_spec vcmp v hb m.capacity 0 (by rw [hinv.len]; omega)
    refine ⟨r, m, hr, rfl, hcmp, fun k => ⟨rfl, rfl⟩, hr01, hiff.trans ⟨?_, ?_⟩⟩
    · rintro ⟨t, q, -, -, h3, h4⟩
      exact ⟨t, q, h3, h4⟩
    · rintro ⟨t, q, h3, h4⟩
      refine ⟨t, q, Nat.zero_le _, ?_, h3, h4⟩
      by_contra hge
      rw [bdata_of_length_le (by rw [hinv.len]; omega)] at h3
      simp at h3

end c9

theorem strPair_lawful (k : Nat) (v : String) : LawfulKey (strPair k v) := by
  intro a b
  simp [strPair]

theorem tableAB_built : InsertBuilt id strPairCmp [strPair 2 "b", strPair 1 "a"] tableAB :=
  InsertBuilt.insert (strPair 2 "b") 2 1 tableAB
    (InsertBuilt.insert (strPair 1 "a") 2 1 tableA InsertBuilt.alloc rfl) rfl

theorem tableAB_lawful : ∀ q ∈ [strPair 2 "b", strPair 1 "a"], LawfulKey q := by
  intro q hq
  simp only [List.mem_cons, List.mem_singleton, List.not_mem_nil, or_false] at hq
  rcases hq with rfl | rfl <;> exact strPair_lawful _ _

theorem tableAB_value_cmp :
    ∀ q ∈ [strPair 2 "b", strPair 1 "a"], q.value_cmp = fun a b => decide (a = b) := by
  intro q hq
  simp only [List.mem_cons, List.mem_singleton, List.not_mem_nil, or_false] at hq
  rcases hq with rfl | rfl <;> rfl

/-- Witness of C9: the table holding `{1, "a"}` and `{2, "b"}` and the value `"b"`. -/
theorem HashMapContainsValue_correct_witness :
    InsertBuilt id strPairCmp [strPair 2 "b", strPair 1 "a"] tableAB ∧
      (∀ q ∈ [strPair 2 "b", strPair 1 "a"], LawfulKey q) ∧
      (∀ q ∈ [strPair 2 "b", strPair 1 "a"], q.value_cmp = fun a b => decide (a = b)) ∧
      ((∃ r m', HashMapContainsValue tableAB "b" = some (r, m') ∧ m' = tableAB ∧
        (∀ b ∈ m'.buckets, b.elem_cmp_func = m'.pair_cmp) ∧
        (∀ k, HashMapContainsKey m' k = HashMapContainsKey tableAB k ∧
          HashMapAt m' k = HashMapAt tableAB k) ∧
        (r = 1 ∨ r = 0) ∧
        (r = 1 ↔ ∃ i q, some q ∈ bdata tableAB i ∧
          (fun a b => decide (a = b)) q.value "b" = true)) ∧
      (insertAll [strPair 1 "a", strPair 2 "b"] (HashMapAlloc id some strPairCmp) =
          some tableAB ∧
        HashMapContainsValue tableAB "b" = some (1, tableAB) ∧
        HashMapContainsValue tableAB "c" = some (0, tableAB) ∧
        (HashMapContainsKey tableAB 2).map (·.1) = some 1)) :=
  ⟨tableAB_built, tableAB_lawful, tableAB_value_cmp,
    HashMapContainsValue_correct tableAB_built tableAB_lawful (fun a b => decide (a = b))
      tableAB_value_cmp "b"⟩

/-! ## Runs on which the code leaves a key in the bucket of the old capacity -/

/-- Evaluation for C2: after the inserts of the thirteen keys of `keys13` (all return 1, no
erase is called) the size is 13, but `HashMapContainsKey(map, 16)` returns 0. -/
theorem inserted_key_not_contained :
    returnsOf (insertOps keys13) = some (List.replicate 13 1) ∧
      (tableOf (insertOps keys13)).size = 13 ∧
      (HashMapContainsKey (tableOf (insertOps keys13)) 16).map (·.1) = some 0 := by
  decide

/-- Evaluation for C4: with the identity hash, after the inserts of 16, 32, 1, ..., 10 the
capacity is 16 and `HashMapAt(map, 16)` returns the value 116.  The insert of key 11 returns
1 and doubles the capacity; afterwards `HashMapAt(map, 16)` returns `NULL`: the pair with
key 16 is still in bucket 0, below the pair with key 32 at which the backward scan of
`ReInsertBucket` stopped, while `Hash(map, 32, 16) = 16`. -/
theorem growth_strands_key :
    (tableOf (insertOps [16, 32, 1, 2, 3, 4, 5, 6, 7, 8, 9, 10])).capacity = 16 ∧
      atValue (tableOf (insertOps [16, 32, 1, 2, 3, 4, 5, 6, 7, 8, 9, 10])) 16 =
        some (some 116) ∧
      HashMapInsert 2 (tableOf (insertOps [16, 32, 1, 2, 3, 4, 5, 6, 7, 8, 9, 10]))
        (natPair 11 111) = some (1, tableOf (insertOps keys13)) ∧
      (tableOf (insertOps keys13)).capacity = 32 ∧
      atValue (tableOf (insertOps keys13)) 16 = some none ∧
      (contents (tableOf (insertOps keys13)))[0]? = some [some (16, 116), some (32, 132)] ∧
      Hash (tableOf (insertOps keys13)) 32 16 = 16 :=
  ⟨by decide, by decide, rfl, by decide, by decide, by decide, by decide⟩

/-- Evaluation for C5: on the table after the run `opsTwice` (size 8, capacity 32)
`HashMapErase(map, 16)` returns 1 and halves the capacity, and the immediately following
`HashMapErase(map, 16)` returns 1 again and takes the size from 7 to 6. -/
theorem second_erase_succeeds :
    (tableOf opsTwice).size = 8 ∧ (tableOf opsTwice).capacity = 32 ∧
      HashMapErase 2 (tableOf opsTwice) 16 = some (1, tableOf (opsTwice ++ eraseOps [16])) ∧
      (tableOf (opsTwice ++ eraseOps [16])).size = 7 ∧
      (tableOf (opsTwice ++ eraseOps [16])).capacity = 16 ∧
      HashMapErase 2 (tableOf (opsTwice ++ eraseOps [16])) 16 =
        some (1, tableOf (opsTwice ++ eraseOps [16, 16])) ∧
      (tableOf (opsTwice ++ eraseOps [16, 16])).size = 6 :=
  ⟨by decide, by decide, rfl, by decide, by decide, rfl, by decide⟩

/-- Evaluation for C6: the thirteen keys of `keys13` are pairwise distinct and all inserts
return 1; erasing the thirteen keys in the order of their insertion, the first erase (key
16) returns 0, and at the end the size is 1 and the pair with key 16 is still stored. -/
theorem erase_all_leaves_pair :
    keys13.Nodup ∧
      returnsOf (insertOps keys13 ++ eraseOps keys13) =
        some (List.replicate 13 1 ++ [0] ++ List.replicate 12 1) ∧
      (tableOf (insertOps keys13 ++ eraseOps keys13)).size = 1 ∧
      contents (tableOf (insertOps keys13 ++ eraseOps keys13)) =
        [[some (16, 116)], [], [], []] := by
  decide

/-- Evaluation for C8: on `tableCpy`, `HashMapAt(map, 17)` returns 117.  The copy of the pair
`(17, 0)` fails, and `HashMapInsert(map, (17, 0))`, whose key is present, returns 1 and
leaves `NULL` in the slot of key 17, so `HashMapAt(map, 17)` returns `NULL` afterwards.  The
copy of `(5, 0)` fails as well, and `HashMapInsert(map, (5, 0))`, whose key is new, returns 0
and leaves the table as it was. -/
theorem failed_copy_on_existing_key :
    (contents tableCpy)[1]? = some [some (1, 101), some (17, 117)] ∧
      atValue tableCpy 17 = some (some 117) ∧
      tableCpy.pair_cpy (natPair 17 0) = none ∧
      HashMapInsert 2 tableCpy (natPair 17 0) = some (1, tableCpyAfter) ∧
      (contents tableCpyAfter)[1]? = some [some (1, 101), none] ∧
      atValue tableCpyAfter 17 = some none ∧
      tableCpy.pair_cpy (natPair 5 0) = none ∧
      HashMapInsert 2 tableCpy (natPair 5 0) = some (0, tableCpy) :=
  ⟨by decide, by decide, rfl, rfl, by decide, by decide, rfl, rfl⟩

/-! ## `HashMapClear` on a table whose pairs cannot be erased -/

theorem runOps_reachable {hash : K → Nat} {cmp : Pair K V → Obj K V → Bool} :
    ∀ (ops : List (Op K V)) (m : HashMap K V) (rs : List Int) (m' : HashMap K V),
      Reachable hash cmp m → (∀ p, Op.insert p ∈ ops → LawfulKey p) →
      runOps ops m = some (rs, m') → Reachable hash cmp m'
  | [], m, rs, m', hm, _, hr => by
    simp [runOps] at hr
    exact hr.2 ▸ hm
  | Op.insert p :: ops, m, rs, m', hm, hl, hr => by
    unfold runOps at hr
    split at hr
    · simp at hr
    · rename_i r m1 h1
      split at hr
      · simp at hr
      · rename_i rs2 m2 h2
        simp at hr
        rw [← hr.2]
        exact runOps_reachable ops m1 rs2 m2
          (Reachable.insert p 2 r m1 hm (hl p (List.mem_cons_self _ _)) h1)
          (fun q hq => hl q (List.mem_cons_of_mem _ hq)) h2
  | Op.erase k :: ops, m, rs, m', hm, hl, hr => by
    unfold runOps at hr
    split at hr
    · simp at hr
    · rename_i r m1 h1
      split at hr
      · simp at hr
      · rename_i rs2 m2 h2
        simp at hr
        rw [← hr.2]
        exact runOps_reachable ops m1 rs2 m2 (Reachable.erase k 2 r m1 hm h1)
          (fun q hq => hl q (List.mem_cons_of_mem _ hq)) h2

/-- The table at the end of a run of inserts of pairs `natPair` and of erases is
reachable. -/
theorem tableOf_reachable (ks ks' : List Nat) :
    Reachable id natPairCmp (tableOf (insertOps ks ++ eraseOps ks')) := by
  unfold tableOf
  split
  · rename_i rs m h
    refine runOps_reachable _ _ rs m Reachable.alloc (fun p hp => ?_) h
    simp only [insertOps, eraseOps, List.mem_append, List.mem_map] at hp
    rcases hp with ⟨k, -, hk⟩ | ⟨k, -, hk⟩
    · cases hk; exact natPair_lawful _ _
    · cases hk
  · exact Reachable.alloc

section stuck
variable {P : Pair K V → Prop} {hash : K → Nat} {cmp : Pair K V → Obj K V → Bool}

theorem HashMapErase_not_found {m m1 : HashMap K V} (hb : Basic P hash cmp m)
    (hs : m.size ≠ 0) {k : K} {b i : Nat}
    (hg : GetPairLocationByKey k m = some (false, b, i, m1)) (fuel : Nat) :
    HashMapErase fuel m k = some (0, m) := by
  obtain ⟨rfl, -⟩ := GetPairLocationByKey_state hb hg
  unfold HashMapErase
  simp [hs, hg, FAILURE]

theorem allStranded_slot {m : HashMap K V} (h : allStranded m = true) {i j : Nat}
    {v : Bucket K V} (hv : m.buckets[i]? = some v) (hj : j < v.data.length) :
    ∃ p b t m1, v.data[j]? = some (some p) ∧
      GetPairLocationByKey p.key m = some (false, b, t, m1) := by
  unfold allStranded at h
  rw [List.all_eq_true] at h
  have h1 := h v (List.mem_iff_getElem?.2 ⟨i, hv⟩)
  rw [List.all_eq_true] at h1
  have h2 := h1 _ (List.getElem_mem hj)
  split at h2
  · rename_i p hp
    split at h2
    · rename_i b t m1 hg
      exact ⟨p, b, t, m1, by rw [List.getElem?_eq_getElem hj, hp], hg⟩
    · simp at h2
  · simp at h2

theorem ClearBucketLoop_stuck {m : HashMap K V} (hb : Basic P hash cmp m) (hs : m.size ≠ 0)
    (h : allStranded m = true) (fuel : Nat) {i : Nat} {v : Bucket K V}
    (hv : m.buckets[i]? = some v) :
    ∀ j, j ≤ v.data.length → ClearBucketLoop fuel m.capacity i j m = some m
  | 0, _ => rfl
  | j + 1, hj => by
    obtain ⟨p, b, t, m1, hp, hg⟩ := allStranded_slot h hv (j := j) (by omega)
    unfold ClearBucketLoop
    have hat : VectorAt v j = some p := by
      unfold VectorAt Vector.size
      rw [if_neg (by omega), hp]; rfl
    simp only [ne_eq, not_true_eq_false, if_false, hv, hat,
      HashMapErase_not_found hb hs hg fuel]
    exact ClearBucketLoop_stuck hb hs h fuel hv j (by omega)

theorem ClearBucketsLoop_stuck {m : HashMap K V} (hb : Basic P hash cmp m) (hs : m.size ≠ 0)
    (hlen : m.buckets.length = m.capacity) (h : allStranded m = true) (fuel : Nat) :
    ∀ count i, ClearBucketsLoop fuel m.capacity count i m = some m
  | 0, _ => rfl
  | count + 1, i => by
    unfold ClearBucketsLoop
    by_cases h1 : i < m.capacity
    · obtain ⟨v, hv⟩ := get_of_lt (m := m) (i := i) (by rw [hlen]; omega)
      rw [if_neg (not_not.2 h1), if_neg (not_not.2 rfl)]
      simp only [hv, ClearBucketLoop_stuck hb hs h fuel hv v.size (le_refl _)]
      exact ClearBucketsLoop_stuck hb hs hlen h fuel count (i + 1)
    · rw [if_pos h1]

/-- `HashMapClear` does not return on a non-empty table none of whose pairs is found by its
key: every pass of the `while` loop leaves the table as it is. -/
theorem HashMapClear_stuck {m : HashMap K V} (hb : Basic P hash cmp m) (hs : m.size ≠ 0)
    (hlen : m.buckets.length = m.capacity) (h : allStranded m = true) (fuel : Nat) :
    ∀ steps, HashMapClear fuel steps m = none
  | 0 => by
    unfold HashMapClear
    rw [if_pos (by omega)]
  | steps + 1 => by
    unfold HashMapClear
    rw [if_pos (by omega)]
    simp only [ClearBucketsLoop_stuck hb hs hlen h fuel]
    exact HashMapClear_stuck hb hs hlen h fuel steps

end stuck

/-- Evaluation for C10: the table `tableStuck` is built from a new table by thirteen inserts
(size 13, capacity 32).  The first pass of the `while` loop of `HashMapClear` erases the keys
32, 1, 2, 3, 4 and leaves the size 8; every further pass leaves the table as it is, since the
eight pairs in bucket 0 belong to bucket 16 of capacity 32 and `HashMapErase` does not find
them.  So `HashMapClear` does not return, however many iterations of the `while` loop are
allowed. -/
theorem HashMapClear_never_returns :
    Reachable id natPairCmp tableStuck ∧ returnsOf (insertOps keysStuck) =
        some (List.replicate 13 1) ∧
      tableStuck.size = 13 ∧ tableStuck.capacity = 32 ∧
      (∀ fuel, ClearBucketsLoop fuel 32 32 0 tableStuck = some tableStuck8) ∧
      tableStuck8.size = 8 ∧
      (contents tableStuck8)[0]? = some [some (16, 116), some (48, 148), some (80, 180),
        some (112, 212), some (144, 244), some (176, 276), some (208, 308),
        some (240, 340)] ∧
      (∀ fuel, ClearBucketsLoop fuel 32 32 0 tableStuck8 = some tableStuck8) ∧
      ∀ fuel steps, HashMapClear fuel steps tableStuck = none := by
  have hr8 : Reachable id natPairCmp tableStuck8 := tableOf_reachable _ _
  have hs8 : tableStuck8.size ≠ 0 := by decide
  have hl8 : tableStuck8.buckets.length = tableStuck8.capacity := by decide
  have ha8 : allStranded tableStuck8 = true := by decide
  have hpass : ∀ fuel, ClearBucketsLoop fuel 32 32 0 tableStuck = some tableStuck8 :=
    fun _ => rfl
  refine ⟨tableOf_reachable _ _, by decide, by decide, by decide, hpass, by decide, by decide,
    fun fuel => ClearBucketsLoop_stuck hr8.basic hs8 hl8 ha8 fuel 32 0, fun fuel steps => ?_⟩
  cases steps with
  | zero => rfl
  | succ steps =>
    unfold HashMapClear
    rw [if_pos (by decide)]
    have hc : tableStuck.capacity = 32 := by decide
    rw [hc]
    simp only [hpass fuel]
    exact HashMapClear_stuck hr8.basic hs8 hl8 ha8 fuel steps

/-! ## Witnesses on the table built by twelve inserts -/

theorem InsertBuilt.of_insertAll {hash : K → Nat} {cmp : Pair K V → Obj K V → Bool} :
    ∀ (ps qs : List (Pair K V)) (m m' : HashMap K V), InsertBuilt hash cmp qs m →
      insertAll ps m = some m' → InsertBuilt hash cmp (ps.reverse ++ qs) m'
  | [], qs, m, m', h, hr => by
    simp [insertAll] at hr
    simpa [← hr] using h
  | p :: ps, qs, m, m', h, hr => by
    unfold insertAll at hr
    split at hr
    · simp at hr
    · rename_i r m1 h1
      have := InsertBuilt.of_insertAll ps (p :: qs) m1 m' (InsertBuilt.insert p 2 r m1 h h1) hr
      simpa using this

theorem keyPairs_lawful (keys : List Nat) : ∀ q ∈ (keyPairs keys).reverse ++ [], LawfulKey q := by
  intro q hq
  simp only [keyPairs, List.append_nil, List.mem_reverse, List.mem_map] at hq
  obtain ⟨k, -, rfl⟩ := hq
  exact natPair_lawful _ _

theorem table12_built :
    InsertBuilt id natPairCmp
      ((keyPairs [1, 2, 3, 4, 5, 6, 7, 8, 9, 10, 11, 12]).reverse ++ []) table12 :=
  InsertBuilt.of_insertAll _ [] _ table12 InsertBuilt.alloc rfl

/-- Witness of C1: the table holding the keys 1, ..., 12 and the pair `(13, 113)`, whose
insert doubles the capacity. -/
theorem HashMapAt_after_HashMapInsert_witness :
    InsertBuilt id natPairCmp
        ((keyPairs [1, 2, 3, 4, 5, 6, 7, 8, 9, 10, 11, 12]).reverse ++ []) table12 ∧
      (∀ q ∈ (keyPairs [1, 2, 3, 4, 5, 6, 7, 8, 9, 10, 11, 12]).reverse ++ [], LawfulKey q) ∧
      LawfulKey (natPair 13 113) ∧
      ∃ m', HashMapInsert (0 + 2) table12 (natPair 13 113) = some (1, m') ∧
        HashMapAt m' (natPair 13 113).key = some (some (natPair 13 113).value, m') :=
  ⟨table12_built, keyPairs_lawful _, natPair_lawful 13 113,
    HashMapAt_after_HashMapInsert table12_built (keyPairs_lawful _) (natPair 13 113)
      (natPair_lawful 13 113) 0⟩

/-- Witness of C7: the table holding the keys 1, ..., 12 and the pair `(13, 113)`. -/
theorem capacity_after_insert_witness :
    InsertBuilt id natPairCmp
        ((keyPairs [1, 2, 3, 4, 5, 6, 7, 8, 9, 10, 11, 12]).reverse ++ []) table12 ∧
      (∀ q ∈ (keyPairs [1, 2, 3, 4, 5, 6, 7, 8, 9, 10, 11, 12]).reverse ++ [], LawfulKey q) ∧
      LawfulKey (natPair 13 113) ∧
      ((natPair 13 113 :: ((keyPairs [1, 2, 3, 4, 5, 6, 7, 8, 9, 10, 11, 12]).reverse ++ [])).map
        (fun q => q.key)).Nodup ∧
      ((∃ m', HashMapInsert (0 + 2) table12 (natPair 13 113) = some (1, m') ∧
        m'.capacity =
          if 3 * table12.capacity < 4 * (table12.size + 1) then 2 * table12.capacity
          else table12.capacity) ∧
      (∃ m13, insertAll (keyPairs [1, 2, 3, 4, 5, 6, 7, 8, 9, 10, 11, 12, 13])
          (HashMapAlloc id some natPairCmp) = some m13 ∧
        m13.capacity = 32 ∧ atValue m13 7 = some (some 107) ∧ Hash m13 32 7 = 7)) :=
  ⟨table12_built, keyPairs_lawful _, natPair_lawful 13 113, by decide,
    capacity_after_insert table12_built (keyPairs_lawful _) (natPair 13 113)
      (natPair_lawful 13 113) (by decide) 0⟩

/-! ## `Vector.c`: capacity and size -/

theorem ResizeVector_capacity_add (v : Vector α β) :
    (ResizeVector v ADD).capacity =
      if v.capacity ≠ 0 ∧ 3 * v.capacity < 4 * v.data.length then v.capacity * 2
      else v.capacity := by
  unfold ResizeVector VectorGetLoadFactor Vector.size
  by_cases hc : v.capacity = 0
  · simp [hc, gtMaxLoadFactor, ltMinLoadFactor, ADD, REMOVE]
  · by_cases h : 3 * v.capacity < 4 * v.data.length
    · simp [hc, h, gtMaxLoadFactor, ADD, VECTOR_GROWTH_FACTOR]
    · simp [hc, h, gtMaxLoadFactor, ADD, REMOVE]

theorem ResizeVector_capacity_remove (v : Vector α β) :
    (ResizeVector v REMOVE).capacity =
      if 4 * v.data.length < v.capacity then v.capacity / 2 else v.capacity := by
  unfold ResizeVector VectorGetLoadFactor Vector.size
  by_cases hc : v.capacity = 0
  · simp [hc, gtMaxLoadFactor, ltMinLoadFactor, ADD, REMOVE]
  · by_cases h : 4 * v.data.length < v.capacity
    · simp [hc, h, gtMaxLoadFactor, ltMinLoadFactor, ADD, REMOVE, VECTOR_GROWTH_FACTOR]
    · simp [hc, h, gtMaxLoadFactor, ltMinLoadFactor, ADD, REMOVE]

theorem VectorPushBack_bound (v : Vector α β) (x : α)
    (h : 1 ≤ v.capacity ∧ v.data.length < v.capacity) :
    1 ≤ (VectorPushBack v x).2.capacity ∧
      (VectorPushBack v x).2.data.length < (VectorPushBack v x).2.capacity := by
  unfold VectorPushBack
  cases v.elem_copy_func x with
  | none => exact h
  | some c =>
    simp only [ResizeVector_data, ResizeVector_capacity_add, List.length_append,
      List.length_singleton]
    split_ifs <;> omega

theorem VectorErase_bound (v : Vector α β) (ind : Nat)
    (h : 1 ≤ v.capacity ∧ v.data.length < v.capacity) :
    1 ≤ (VectorErase v ind).2.capacity ∧
      (VectorErase v ind).2.data.length < (VectorErase v ind).2.capacity := by
  by_cases hi : ind < v.data.length
  · rw [VectorErase_data, VectorErase_lt v ind hi]
    simp only [ResizeVector_capacity_remove, ArrangeVector_take v ind hi, List.length_eraseIdx,
      if_pos hi]
    split_ifs <;> omega
  · rw [VectorErase_ge v ind (by omega)]
    exact h

theorem VectorClearLoop_bound : ∀ (i : Nat) (v : Vector α β),
    (1 ≤ v.capacity ∧ v.data.length < v.capacity) →
      1 ≤ (VectorClearLoop i v).capacity ∧
        (VectorClearLoop i v).data.length < (VectorClearLoop i v).capacity
  | 0, _, h => h
  | i + 1, v, h => VectorClearLoop_bound i _ (VectorErase_bound v i h)

/-- The invariant of the reachable vectors. -/
theorem VectorReachable.bound {copy : α → Option α} {cmp : α → β → Bool} {v : Vector α β}
    (h : VectorReachable copy cmp v) : 1 ≤ v.capacity ∧ v.data.length < v.capacity := by
  induction h with
  | alloc => exact ⟨by simp [VectorAlloc, VECTOR_INITIAL_CAP], by simp [VectorAlloc, VECTOR_INITIAL_CAP]⟩
  | push x _ ih => exact VectorPushBack_bound _ x ih
  | erase ind _ ih => exact VectorErase_bound _ ind ih
  | clear _ ih => exact VectorClearLoop_bound _ _ ih

/-- C18.  Every vector reachable from `VectorAlloc` by `VectorPushBack`, `VectorErase` and
`VectorClear` has capacity at least 1 and `size <= capacity`, in fact `size < capacity`: the
slot `data[size]` that `VectorPushBack` writes and `ArrangeVector` reads lies inside the
allocated capacity. -/
theorem size_lt_capacity {copy : α → Option α} {cmp : α → β → Bool} {v : Vector α β}
    (h : VectorReachable copy cmp v) :
    1 ≤ v.capacity ∧ v.size ≤ v.capacity ∧ v.size < v.capacity := by
  have hb := h.bound
  exact ⟨hb.1, Nat.le_of_lt hb.2, hb.2⟩

/-- Witness of C18: the vector after the pushes of 5 and 7 and the erase of index 0. -/
theorem size_lt_capacity_witness :
    VectorReachable some natCmp
        (VectorErase (VectorPushBack (VectorPushBack (VectorAlloc some natCmp) 5).2 7).2 0).2 ∧
      (1 ≤ (VectorErase (VectorPushBack (VectorPushBack
          (VectorAlloc some natCmp) 5).2 7).2 0).2.capacity ∧
        (VectorErase (VectorPushBack (VectorPushBack (VectorAlloc some natCmp) 5).2 7).2 0).2.size ≤
          (VectorErase (VectorPushBack (VectorPushBack
            (VectorAlloc some natCmp) 5).2 7).2 0).2.capacity ∧
        (VectorErase (VectorPushBack (VectorPushBack (VectorAlloc some natCmp) 5).2 7).2 0).2.size <
          (VectorErase (VectorPushBack (VectorPushBack
            (VectorAlloc some natCmp) 5).2 7).2 0).2.capacity) :=
  ⟨VectorReachable.erase 0 (VectorReachable.push 7 (VectorReachable.push 5 VectorReachable.alloc)),
    size_lt_capacity
      (VectorReachable.erase 0
        (VectorReachable.push 7 (VectorReachable.push 5 VectorReachable.alloc)))⟩

/-- The loop of `VectorFind` started at index `s`: it returns `-1` and no non-null slot
compares equal to the value, or it returns `s + i` for the first slot `i` that does. -/
theorem VectorFindLoop_first (cmp : α → β → Bool) (value : β) :
    ∀ (data : List (Option α)) (s : Nat),
      (VectorFindLoop cmp value data s = -1 ∧
          ∀ (i : Nat) (e : α), data[i]? = some (some e) → cmp e value = false) ∨
        ∃ (i : Nat) (e : α), VectorFindLoop cmp value data s = ((s + i : Nat) : Int) ∧
          data[i]? = some (some e) ∧ cmp e value = true ∧
          ∀ (j : Nat) (e' : α), j < i → data[j]? = some (some e') → cmp e' value = false
  | [], s => Or.inl ⟨rfl, by simp⟩
  | none :: rest, s => by
    rcases VectorFindLoop_first cmp value rest (s + 1) with ⟨h1, h2⟩ | ⟨i, e, h1, h2, h3, h4⟩
    · refine Or.inl ⟨h1, ?_⟩
      intro i e hi
      cases i with
      | zero => simp at hi
      | succ i => exact h2 i e (by simpa using hi)
    · refine Or.inr ⟨i + 1, e, ?_, by simpa using h2, h3, ?_⟩
      · rw [VectorFindLoop, h1]; congr 1; omega
      · intro j e' hj hje
        cases j with
        | zero => simp at hje
        | succ j => exact h4 j e' (by omega) (by simpa using hje)
  | some a :: rest, s => by
    by_cases ha : cmp a value = true
    · refine Or.inr ⟨0, a, ?_, by simp, ha, ?_⟩
      · rw [VectorFindLoop, if_pos ha]; rfl
      · intro j e' hj; omega
    · have ha' : cmp a value = false := by simpa using ha
      rcases VectorFindLoop_first cmp value rest (s + 1) with ⟨h1, h2⟩ | ⟨i, e, h1, h2, h3, h4⟩
      · refine Or.inl ⟨by rw [VectorFindLoop, if_neg ha, h1], ?_⟩
        intro i e hi
        cases i with
        | zero =>
          simp only [List.getElem?_cons_zero, Option.some.injEq] at hi
          rw [← hi]; exact ha'
        | succ i => exact h2 i e (by simpa using hi)
      · refine Or.inr ⟨i + 1, e, ?_, by simpa using h2, h3, ?_⟩
        · rw [VectorFindLoop, if_neg ha, h1]; congr 1; omega
        · intro j e' hj hje
          cases j with
          | zero =>
            simp only [List.getElem?_cons_zero, Option.some.injEq] at hje
            rw [← hje]; exact ha'
          | succ j => exact h4 j e' (by omega) (by simpa using hje)

/-- The result of `VectorFind`: `-1` when no live non-null slot compares equal to the value,
otherwise the index of the first one that does. -/
theorem VectorFind_spec (vector : Vector α β) (value : β) :
    (VectorFind vector value = -1 ∧
        ∀ (i : Nat) (e : α), i < vector.size → vector.data[i]? = some (some e) →
          vector.elem_cmp_func e value = false) ∨
      ∃ (i : Nat) (e : α), VectorFind vector value = (i : Int) ∧ i < vector.size ∧
        vector.data[i]? = some (some e) ∧ vector.elem_cmp_func e value = true ∧
        ∀ (j : Nat) (e' : α), j < i → vector.data[j]? = some (some e') →
          vector.elem_cmp_func e' value = false := by
  rcases VectorFindLoop_first vector.elem_cmp_func value vector.data 0 with
    ⟨h1, h2⟩ | ⟨i, e, h1, h2, h3, h4⟩
  · exact Or.inl ⟨h1, fun i e _ hi => h2 i e hi⟩
  · refine Or.inr ⟨i, e, ?_, ?_, h2, h3, h4⟩
    · rw [VectorFind, h1, Nat.zero_add]
    · exact (List.getElem?_eq_some_iff.1 h2).1

theorem VectorAt_eq (v : Vector α β) (i : Nat) : VectorAt v i = (v.data[i]?).join := by
  unfold VectorAt Vector.size
  split_ifs with h
  · rw [List.getElem?_eq_none (by omega)]; rfl
  · rfl

/-- `VectorErase` on the slots of a vector: for `ind < size` it returns 1, the size decreases
by one, the slot `ind` is removed and the other slots keep their order, and the capacity is
halved exactly when `4 * (size - 1) < capacity`; for `ind >= size` it returns 0 and leaves the
vector as it is. -/
theorem VectorErase_spec (v : Vector α β) (ind : Nat) :
    (ind < v.size →
        (VectorErase v ind).1 = 1 ∧
        (VectorErase v ind).2.size + 1 = v.size ∧
        (VectorErase v ind).2.data = v.data.eraseIdx ind ∧
        (∀ i, i < ind → VectorAt (VectorErase v ind).2 i = VectorAt v i) ∧
        (∀ i, ind ≤ i → VectorAt (VectorErase v ind).2 i = VectorAt v (i + 1)) ∧
        (VectorErase v ind).2.capacity =
          if 4 * (v.size - 1) < v.capacity then v.capacity / 2 else v.capacity) ∧
      (v.size ≤ ind → VectorErase v ind = (0, v)) := by
  constructor
  · intro hi
    have hi' : ind < v.data.length := hi
    have hd := VectorErase_data v ind
    refine ⟨?_, ?_, hd, ?_, ?_, ?_⟩
    · rw [VectorErase_lt v ind hi']
    · unfold Vector.size
      rw [hd, List.length_eraseIdx, if_pos hi']
      omega
    · intro i hlt
      rw [VectorAt_eq, VectorAt_eq, hd, List.getElem?_eraseIdx, if_pos hlt]
    · intro i hle
      rw [VectorAt_eq, VectorAt_eq, hd, List.getElem?_eraseIdx, if_neg (by omega)]
    · rw [VectorErase_lt v ind hi']
      simp only [ResizeVector_capacity_remove, ArrangeVector_take v ind hi',
        List.length_eraseIdx, if_pos hi']
      rfl
  · intro hi
    exact VectorErase_ge v ind hi

theorem pushAll_reachable {copy : α → Option α} {cmp : α → β → Bool} :
    ∀ (xs : List α) (v : Vector α β), VectorReachable copy cmp v →
      VectorReachable copy cmp (pushAll xs v)
  | [], _, h => h
  | x :: xs, _, h => pushAll_reachable xs _ (VectorReachable.push x h)

theorem pushAll_data (cpy : α → α) :
    ∀ (xs : List α) (v : Vector α β), v.elem_copy_func = (fun x => some (cpy x)) →
      (pushAll xs v).data = v.data ++ xs.map (fun x => some (cpy x)) ∧
        (pushAll xs v).elem_cmp_func = v.elem_cmp_func
  | [], v, _ => by simp [pushAll]
  | x :: xs, v, h => by
    have hp : VectorPushBack v x =
        (SUCCESS, ResizeVector { v with data := v.data ++ [some (cpy x)] } ADD) := by
      simp [VectorPushBack, h]
    have := pushAll_data cpy xs (VectorPushBack v x).2 (by rw [hp]; simpa using h)
    rw [pushAll, this.1, this.2, hp]
    simp

/-! ## `Hash` on capacities that are powers of two -/

/-- C20.  For every key (hash value `h = hash_func(key)`) and every capacity `c = 2 ^ n`,
`Hash` computes `h & (c - 1) = h mod c`; and the index for the doubled capacity `2c` is the
index for `c` or that index plus `c`. -/
theorem Hash_power_of_two (map : HashMap K V) (n : Nat) (key : K) :
    Hash map (2 ^ n) key = map.hash_func key % 2 ^ n ∧
      (Hash map (2 * 2 ^ n) key = Hash map (2 ^ n) key ∨
        Hash map (2 * 2 ^ n) key = Hash map (2 ^ n) key + 2 ^ n) := by
  simp only [Hash_eq_bidx]
  exact ⟨bidx_pow _ n key, bidx_double _ rfl key⟩

/-! ## Evaluations on tables with erases -/

/-- Evaluation for C15: with the identity hash, the thirteen inserts of `keys13` and the
following `HashMapInsert(map, (16, 216))` all return 1.  In the resulting table (capacity 32)
key 16 is stored twice: the pair `(16, 116)` is in bucket 0, although
`Hash(map, 32, 16) = 16`, and the pair `(16, 216)` is in bucket 16. -/
theorem key_stored_twice :
    returnsOf opsDup = some (List.replicate 14 1) ∧
      (tableOf opsDup).capacity = 32 ∧
      (contents (tableOf opsDup))[0]? = some [some (16, 116), some (32, 132)] ∧
      (contents (tableOf opsDup))[16]? = some [some (16, 216)] ∧
      keyCount (tableOf opsDup) 16 = 2 ∧
      Hash (tableOf opsDup) (tableOf opsDup).capacity 16 = 16 :=
  ⟨by decide, by decide, by decide, by decide, by decide, by decide⟩

/-- Evaluation for C16: with the identity hash, the ten calls of `opsShrink` all return 1 and
leave an empty table of capacity 1 and size 0.  `HashMapInsert(map, (7, 107))` then returns 1
(for every fuel of at least 3) and leaves capacity 4 and the pair in bucket 3, but
`map->size` is 0 again, while the buckets hold one pair: the rehash re-enters
`HashMapInsert` and `ResizeMap`, the inner rehash moves the pair out of bucket 0, and the
outer `ReInsertBucket` still executes `map->size--` after its `VectorErase` has failed. -/
theorem size_after_reentrant_growth :
    returnsOf opsShrink = some (List.replicate 10 1) ∧
      (tableOf opsShrink).capacity = 1 ∧ (tableOf opsShrink).size = 0 ∧
      total (tableOf opsShrink) = 0 ∧
      contents (tableOf opsShrink) = [[]] ∧
      ∀ fuel, summary (HashMapInsert (3 + fuel) (tableOf opsShrink) (natPair 7 107)) =
          some (1, 0, 4, 1) ∧
        (HashMapInsert (3 + fuel) (tableOf opsShrink) (natPair 7 107)).map
          (fun x => contents x.2) = some [[], [], [], [some (7, 107)]] := by
  refine ⟨by decide, by decide, by decide, by decide, by decide, ?_⟩
  intro fuel
  have hs : summary (HashMapInsert 3 (tableOf opsShrink) (natPair 7 107)) =
      some (1, 0, 4, 1) := by decide
  have hc : (HashMapInsert 3 (tableOf opsShrink) (natPair 7 107)).map
      (fun x => contents x.2) = some [[], [], [], [some (7, 107)]] := by decide
  cases hr : HashMapInsert 3 (tableOf opsShrink) (natPair 7 107) with
  | none => rw [hr] at hs; cases hs
  | some r => rw [HashMapInsert_mono_add 3 fuel _ _ r hr, ← hr]; exact ⟨hs, hc⟩

/-- Counterexample to C11: with the identity hash, the inserts of the keys 1, 2, 3, 4 into a
new table and the erase of key 1 all return 1, and the resulting table has capacity 8, below
`HASH_MAP_INITIAL_CAP = 16`. -/
theorem erase_shrinks_below_initial :
    returnsOf (insertOps [1, 2, 3, 4] ++ eraseOps [1]) = some [1, 1, 1, 1, 1] ∧
      (tableOf (insertOps [1, 2, 3, 4] ++ eraseOps [1])).capacity = 8 ∧
      ¬ (∀ m : HashMap Nat Nat, Reachable id natPairCmp m → HASH_MAP_INITIAL_CAP ≤ m.capacity) := by
  refine ⟨by decide, by decide, ?_⟩
  intro h
  have := h _ (tableOf_reachable [1, 2, 3, 4] [1])
  revert this
  decide

/-! ## The capacity under `HashMapInsert` and `HashMapErase` -/

section capacity
variable {ins : HashMap K V → Pair K V → Option (Int × HashMap K V)}

/-- `GetPairLocationByKey` keeps the capacity. -/
theorem GetPairLocationByKey_capacity {m m' : HashMap K V} {k : K} {f : Bool} {b i : Nat}
    (hg : GetPairLocationByKey k m = some (f, b, i, m')) : m'.capacity = m.capacity := by
  unfold GetPairLocationByKey at hg
  dsimp only at hg
  split at hg
  · simp at hg
  · split_ifs at hg with hs
    · simp at hg; rw [← hg.2.2.2]
    · split at hg
      · simp only [Option.some.injEq, Prod.mk.injEq] at hg
        rw [← hg.2.2.2]
      · simp at hg

theorem ReInsertBucketLoop_capacity
    (hins : ∀ m p r m', ins m p = some (r, m') → m.capacity ≤ m'.capacity) (b oc nc : Nat) :
    ∀ (j : Nat) (m m' : HashMap K V),
      ReInsertBucketLoop ins b oc nc j m = some m' → m.capacity ≤ m'.capacity
  | 0, m, m', hr => by
    simp [ReInsertBucketLoop] at hr
    rw [hr]
  | j + 1, m, m', hr => by
    unfold ReInsertBucketLoop at hr
    split at hr
    · simp at hr
    · split at hr
      · split_ifs at hr with hc
        · simp at hr; rw [hr]
        · split at hr
          · simp at hr
          · rename_i r map1 hi
            split at hr
            · simp at hr
            · have h1 := hins _ _ _ _ hi
              have h2 := ReInsertBucketLoop_capacity hins b oc nc j _ m' hr
              exact Nat.le_trans h1 h2
      · simp at hr

theorem ReInsertBucket_capacity
    (hins : ∀ m p r m', ins m p = some (r, m') → m.capacity ≤ m'.capacity) {b oc nc : Nat}
    {m m' : HashMap K V} (hr : ReInsertBucket ins m b oc nc = some m') :
    m.capacity ≤ m'.capacity := by
  unfold ReInsertBucket at hr
  split at hr
  · simp at hr
  · split_ifs at hr with hs
    · simp at hr; rw [hr]
    · exact ReInsertBucketLoop_capacity hins b oc nc _ m m' hr

theorem ReInsertRange_capacity
    (hins : ∀ m p r m', ins m p = some (r, m') → m.capacity ≤ m'.capacity) (oc nc : Nat) :
    ∀ (count i : Nat) (m m' : HashMap K V),
      ReInsertRange ins oc nc count i m = some m' → m.capacity ≤ m'.capacity
  | 0, i, m, m', hr => by
    simp [ReInsertRange] at hr
    rw [hr]
  | count + 1, i, m, m', hr => by
    unfold ReInsertRange at hr
    split at hr
    · simp at hr
    · rename_i map1 h1
      exact Nat.le_trans (ReInsertBucket_capacity hins h1)
        (ReInsertRange_capacity hins oc nc count (i + 1) map1 m' hr)

theorem ReInsertElems_capacity
    (hins : ∀ m p r m', ins m p = some (r, m') → m.capacity ≤ m'.capacity) {oc nc : Nat}
    {m m' : HashMap K V} (hr : ReInsertElems ins m oc nc = some m') :
    m.capacity ≤ m'.capacity := by
  unfold ReInsertElems at hr
  split_ifs at hr
  · exact ReInsertRange_capacity hins oc nc _ _ m m' hr
  · exact ReInsertRange_capacity hins oc nc _ _ m m' hr
  · simp at hr; rw [hr]

theorem ResizeMap_add_capacity
    (hins : ∀ m p r m', ins m p = some (r, m') → m.capacity ≤ m'.capacity)
    {m m' : HashMap K V} (hr : ResizeMap ins m ADD = some m') : m.capacity ≤ m'.capacity := by
  unfold ResizeMap at hr
  dsimp only at hr
  split_ifs at hr with h1 h2
  · have := ReInsertElems_capacity hins hr
    simp only [VectorsAllocator, HASH_MAP_GROWTH_FACTOR] at this
    omega
  · simp [ADD, REMOVE] at h2
  · simp at hr; rw [hr]

theorem ResizeMap_remove_capacity
    (hins : ∀ m p r m', ins m p = some (r, m') → m.capacity ≤ m'.capacity)
    {m m' : HashMap K V} (hr : ResizeMap ins m REMOVE = some m') :
    m.capacity / 2 ≤ m'.capacity := by
  unfold ResizeMap at hr
  dsimp only at hr
  split_ifs at hr with h1 h2
  · simp [ADD, REMOVE] at h1
  · split at hr
    · simp at hr
    · rename_i map1 h3
      have := ReInsertElems_capacity hins h3
      simp only [Option.some.injEq] at hr
      rw [← hr]
      simpa [HASH_MAP_GROWTH_FACTOR] using this
  · simp at hr; rw [hr]; exact Nat.div_le_self _ _

end capacity

/-- A call of `HashMapInsert` does not lower the capacity. -/
theorem HashMapInsert_capacity : ∀ (fuel : Nat) (m : HashMap K V) (p : Pair K V) (r : Int)
    (m' : HashMap K V), HashMapInsert fuel m p = some (r, m') → m.capacity ≤ m'.capacity
  | 0, m, p, r, m', hr => by simp [HashMapInsert] at hr
  | fuel + 1, m, p, r, m', hr => by
    unfold HashMapInsert at hr
    split at hr
    · simp at hr
    · rename_i found b i map1 hg
      have hc := GetPairLocationByKey_capacity hg
      split at hr
      · simp at hr
      · split_ifs at hr with hf
        · simp only [Option.some.injEq, Prod.mk.injEq] at hr
          rw [← hr.2]; exact Nat.le_of_eq hc.symm
        · dsimp only at hr
          split_ifs at hr with hp
          · simp only [Option.some.injEq, Prod.mk.injEq] at hr
            rw [← hr.2]; exact Nat.le_of_eq hc.symm
          · split at hr
            · simp at hr
            · rename_i map3 h3
              simp only [Option.some.injEq, Prod.mk.injEq] at hr
              have := ResizeMap_add_capacity (HashMapInsert_capacity fuel) h3
              rw [← hr.2]
              simp only at this
              omega

/-- A call of `HashMapErase` returns 0 and keeps the capacity, or returns 1 and leaves at
least half of the capacity. -/
theorem HashMapErase_capacity {fuel : Nat} {m m' : HashMap K V} {k : K} {r : Int}
    (hr : HashMapErase fuel m k = some (r, m')) :
    (r = 0 ∧ m'.capacity = m.capacity) ∨ (r = 1 ∧ m.capacity / 2 ≤ m'.capacity) := by
  unfold HashMapErase at hr
  split_ifs at hr with hs
  · simp only [Option.some.injEq, Prod.mk.injEq] at hr
    exact Or.inl ⟨hr.1.symm, by rw [← hr.2]⟩
  · split at hr
    · simp at hr
    · rename_i found b i map1 hg
      have hc := GetPairLocationByKey_capacity hg
      split_ifs at hr with hf
      · split at hr
        · simp at hr
        · dsimp only at hr
          split_ifs at hr with he
          · simp only [Option.some.injEq, Prod.mk.injEq] at hr
            exact Or.inl ⟨hr.1.symm, by rw [← hr.2, hc]⟩
          · split at hr
            · simp at hr
            · rename_i map3 h3
              simp only [Option.some.injEq, Prod.mk.injEq] at hr
              have := ResizeMap_remove_capacity (HashMapInsert_capacity fuel) h3
              simp only at this
              refine Or.inr ⟨hr.1.symm, ?_⟩
              rw [← hr.2, ← hc]; exact this
      · simp only [Option.some.injEq, Prod.mk.injEq] at hr
        exact Or.inl ⟨hr.1.symm, by rw [← hr.2, hc]⟩

/-- C11, amended.  For every finite sequence of `HashMapInsert` and `HashMapErase` calls
applied to a new table (any hash, copy and comparison functions), the capacity is at least
`HASH_MAP_INITIAL_CAP / 2 ^ e` (integer division), where `e` is the number of the
`HashMapErase` calls that returned 1: a `HashMapInsert` and a `HashMapErase` that returns 0
do not lower the capacity, and a `HashMapErase` that returns 1 leaves at least half of it.  In
particular the capacity is at least `HASH_MAP_INITIAL_CAP = 16` as long as no `HashMapErase`
has returned 1. -/
theorem capacity_after_erases {hash : K → Nat} {cpy : Pair K V → Option (Pair K V)}
    {cmp : Pair K V → Obj K V → Bool} {e : Nat} {m : HashMap K V}
    (h : ReachableWith hash cpy cmp e m) :
    HASH_MAP_INITIAL_CAP / 2 ^ e ≤ m.capacity ∧ (e = 0 → HASH_MAP_INITIAL_CAP ≤ m.capacity) := by
  have key : HASH_MAP_INITIAL_CAP / 2 ^ e ≤ m.capacity := by
    induction h with
    | alloc => simp [HashMapAlloc, VectorsAllocator]
    | insert p fuel r m' _ hr ih => exact Nat.le_trans ih (HashMapInsert_capacity fuel _ p r m' hr)
    | erased k fuel m' _ hr ih =>
      rcases HashMapErase_capacity hr with ⟨h0, _⟩ | ⟨_, h2⟩
      · cases h0
      · rw [pow_succ, ← Nat.div_div_eq_div_mul]
        exact Nat.le_trans (Nat.div_le_div_right ih) h2
    | missed k fuel m' _ hr ih =>
      rcases HashMapErase_capacity hr with ⟨_, h2⟩ | ⟨h1, _⟩
      · rw [h2]; exact ih
      · cases h1
  refine ⟨key, fun he => ?_⟩
  subst he
  simpa using key

theorem opsRounds_reachable :
    ReachableWith id some natPairCmp 4 (tableOf opsRounds) := by
  have h1 : ReachableWith id some natPairCmp 0 (tableOf (opsRounds.take 1)) :=
    ReachableWith.insert (natPair 1 101) 2 1 _ ReachableWith.alloc rfl
  have h2 : ReachableWith id some natPairCmp 1 (tableOf (opsRounds.take 2)) :=
    ReachableWith.erased 1 2 _ h1
      (show HashMapErase 2 (tableOf (opsRounds.take 1)) 1 =
        some (1, tableOf (opsRounds.take 2)) from rfl)
  have h3 : ReachableWith id some natPairCmp 1 (tableOf (opsRounds.take 3)) :=
    ReachableWith.insert (natPair 1 101) 2 1 _ h2 rfl
  have h4 : ReachableWith id some natPairCmp 2 (tableOf (opsRounds.take 4)) :=
    ReachableWith.erased 1 2 _ h3
      (show HashMapErase 2 (tableOf (opsRounds.take 3)) 1 =
        some (1, tableOf (opsRounds.take 4)) from rfl)
  have h5 : ReachableWith id some natPairCmp 2 (tableOf (opsRounds.take 5)) :=
    ReachableWith.insert (natPair 1 101) 2 1 _ h4 rfl
  have h6 : ReachableWith id some natPairCmp 3 (tableOf (opsRounds.take 6)) :=
    ReachableWith.erased 1 2 _ h5
      (show HashMapErase 2 (tableOf (opsRounds.take 5)) 1 =
        some (1, tableOf (opsRounds.take 6)) from rfl)
  have h7 : ReachableWith id some natPairCmp 3 (tableOf (opsRounds.take 7)) :=
    ReachableWith.insert (natPair 1 101) 2 1 _ h6 rfl
  exact ReachableWith.erased 1 2 _ h7
    (show HashMapErase 2 (tableOf (opsRounds.take 7)) 1 = some (1, tableOf opsRounds) from rfl)

/-- Witness of C11, amended: after four rounds of an insert and an erase of key 1 the capacity
is 1, which is `16 / 2 ^ 4`: the bound is attained. -/
theorem capacity_after_erases_witness :
    ReachableWith id some natPairCmp 4 (tableOf opsRounds) ∧
      (tableOf opsRounds).capacity = 1 ∧
      (HASH_MAP_INITIAL_CAP / 2 ^ 4 ≤ (tableOf opsRounds).capacity ∧
        (4 = 0 → HASH_MAP_INITIAL_CAP ≤ (tableOf opsRounds).capacity)) :=
  ⟨opsRounds_reachable, by decide, capacity_after_erases opsRounds_reachable⟩

/-! ## `Vector.c`: the conversions between `size_t` and `int` -/

theorem int_of_size_t_of_le {i : Nat} (h : i ≤ INT_MAX) : int_of_size_t i = (i : Int) := by
  unfold INT_MAX at h
  unfold int_of_size_t
  have h1 : (i + 2 ^ 31) % 2 ^ 32 = i + 2 ^ 31 := Nat.mod_eq_of_lt (by omega)
  rw [h1]
  push_cast
  ring

theorem size_t_of_int_of_le {i : Nat} (h : i ≤ INT_MAX) : size_t_of_int (i : Int) = i := by
  unfold INT_MAX at h
  unfold size_t_of_int
  have : ((i : Int) % 2 ^ 64) = (i : Int) := Int.emod_eq_of_lt (by omega) (by omega)
  rw [this]
  simp

theorem VectorFindIntLoop_eq (cmp : α → β → Bool) (value : β) :
    ∀ (data : List (Option α)) (s : Nat),
      VectorFindIntLoop cmp value data s =
        if VectorFindLoop cmp value data s = -1 then -1
        else int_of_size_t (VectorFindLoop cmp value data s).toNat
  | [], s => by simp [VectorFindIntLoop, VectorFindLoop, FAIL]
  | none :: rest, s => by
    rw [VectorFindIntLoop, VectorFindLoop]
    exact VectorFindIntLoop_eq cmp value rest (s + 1)
  | some e :: rest, s => by
    rw [VectorFindIntLoop, VectorFindLoop]
    by_cases h : cmp e value = true
    · rw [if_pos h, if_pos h]
      have : ((s : Int) = -1) = False := by
        apply propext; constructor
        · intro h'; omega
        · intro h'; exact h'.elim
      simp only [this, if_false, Int.toNat_ofNat]
    · rw [if_neg h, if_neg h]
      exact VectorFindIntLoop_eq cmp value rest (s + 1)

/-- On a vector of at most `INT_MAX + 1` slots the conversion of the index does not change
the result of `VectorFind`. -/
theorem VectorFindInt_eq (vector : Vector α β) (value : β) (h : vector.size ≤ INT_MAX + 1) :
    VectorFindInt vector value = VectorFind vector value := by
  unfold VectorFindInt
  rw [VectorFindIntLoop_eq]
  rcases VectorFind_spec vector value with ⟨h1, _⟩ | ⟨i, e, h1, h2, _⟩
  · unfold VectorFind at h1
    rw [if_pos h1, VectorFind, h1]
  · unfold VectorFind at h1
    have hne : ¬ ((i : Int) = -1) := by omega
    rw [h1, if_neg hne, Int.toNat_ofNat, int_of_size_t_of_le (by omega)]
    unfold VectorFind; rw [h1]

theorem ArrangeVectorInt_eq (vector : Vector α β) {ind : Nat} (h : ind ≤ INT_MAX) :
    ArrangeVectorInt vector (int_of_size_t ind) = ArrangeVector vector ind := by
  unfold ArrangeVectorInt ArrangeVector
  rw [int_of_size_t_of_le h, size_t_of_int_of_le h]

/-- For an index of at most `INT_MAX` the conversion to `int` does not change the result of
`VectorErase`. -/
theorem VectorEraseInt_eq (vector : Vector α β) {ind : Nat} (h : ind ≤ INT_MAX) :
    VectorEraseInt vector ind = VectorErase vector ind := by
  unfold VectorEraseInt VectorErase
  rw [ArrangeVectorInt_eq vector h]

theorem VectorFindIntLoop_replicate (cmp : α → β → Bool) (value : β) (a : α)
    (ha : cmp a value = false) (rest : List (Option α)) :
    ∀ (n s : Nat), VectorFindIntLoop cmp value (List.replicate n (some a) ++ rest) s =
      VectorFindIntLoop cmp value rest (s + n)
  | 0, s => by simp
  | n + 1, s => by
    rw [List.replicate_succ, List.cons_append, VectorFindIntLoop, if_neg (by simp [ha]),
      VectorFindIntLoop_replicate cmp value a ha rest n (s + 1)]
    congr 1; omega

theorem pushed_data (n : Nat) :
    (pushAll (List.replicate n 0 ++ [1, 2]) (VectorAlloc some natCmp)).data =
      List.replicate n (some 0) ++ [some 1, some 2] := by
  have h := (pushAll_data id (List.replicate n 0 ++ [1, 2]) (VectorAlloc some natCmp) rfl).1
  rw [h, List.map_append, List.map_replicate]
  simp only [VectorAlloc, List.nil_append, List.map_cons, List.map_nil, id]

theorem bigVector_eq :
    bigVector = pushAll (List.replicate (2 ^ 31) 0 ++ [1, 2]) (VectorAlloc some natCmp) := by
  unfold bigVector
  rfl

theorem bigVector_data :
    bigVector.data = List.replicate (2 ^ 31) (some 0) ++ [some 1, some 2] := by
  rw [bigVector_eq]
  exact pushed_data (2 ^ 31)

theorem bigVector_cmp : bigVector.elem_cmp_func = natCmp := by
  rw [bigVector_eq]
  exact (pushAll_data id (List.replicate (2 ^ 31) 0 ++ [1, 2]) (VectorAlloc some natCmp) rfl).2

theorem bigVector_size : bigVector.size = 2 ^ 31 + 2 := by
  unfold Vector.size
  rw [bigVector_data, List.length_append, List.length_replicate]
  rfl

theorem bigVector_reachable : VectorReachable some natCmp bigVector := by
  rw [bigVector_eq]
  exact pushAll_reachable _ _ VectorReachable.alloc

theorem replicate_get_lt {γ : Type} (a : γ) (rest : List γ) {n j : Nat} (h : j < n) :
    (List.replicate n a ++ rest)[j]? = some a := by
  rw [List.getElem?_append_left (by rw [List.length_replicate]; exact h),
    List.getElem?_replicate, if_pos h]

theorem replicate_get_add {γ : Type} (a : γ) (rest : List γ) (n j : Nat) :
    (List.replicate n a ++ rest)[n + j]? = rest[j]? := by
  rw [List.getElem?_append_right (by rw [List.length_replicate]; omega),
    List.length_replicate, Nat.add_sub_cancel_left]

theorem bigVector_get_lt {j : Nat} (h : j < 2 ^ 31) : bigVector.data[j]? = some (some 0) := by
  rw [bigVector_data]
  exact replicate_get_lt _ _ h

theorem bigVector_get_1 : bigVector.data[2 ^ 31]? = some (some 1) := by
  rw [bigVector_data]
  exact replicate_get_add (some 0) [some 1, some 2] (2 ^ 31) 0

theorem bigVector_get_2 : bigVector.data[2 ^ 31 + 1]? = some (some 2) := by
  rw [bigVector_data]
  exact replicate_get_add (some 0) [some 1, some 2] (2 ^ 31) 1

/-! ## `VectorFind`, `VectorErase` and `VectorPushBack` with the conversions to `int` -/

theorem int_of_size_t_big : int_of_size_t (2 ^ 31) = -(2 ^ 31 : Int) := by
  unfold int_of_size_t
  norm_num

theorem size_t_of_int_big : size_t_of_int (-(2 ^ 31 : Int)) = 2 ^ 64 - 2 ^ 31 := by
  unfold size_t_of_int
  norm_num
  rfl

theorem VectorFindInt_bigVector : VectorFindInt bigVector 1 = -(2 ^ 31 : Int) := by
  unfold VectorFindInt
  rw [bigVector_data, bigVector_cmp,
    VectorFindIntLoop_replicate natCmp 1 0 (by decide) [some 1, some 2] (2 ^ 31) 0,
    VectorFindIntLoop, if_pos (by decide), Nat.zero_add]
  exact int_of_size_t_big

/-- Counterexample to C12: the vector `bigVector` results from `2 ^ 31 + 2` pushes; the value
1 is stored at index `2 ^ 31 = INT_MAX + 1` and compares equal to no slot below, but
`VectorFind(vector, 1)` returns `(int) 2147483648 = -2147483648`, which is neither that index
nor -1. -/
theorem VectorFind_above_INT_MAX :
    VectorReachable some natCmp bigVector ∧ bigVector.size = 2 ^ 31 + 2 ∧
      bigVector.data[2 ^ 31]? = some (some 1) ∧
      bigVector.elem_cmp_func 1 1 = true ∧
      (∀ (j e : Nat), j < 2 ^ 31 → bigVector.data[j]? = some (some e) →
        bigVector.elem_cmp_func e 1 = false) ∧
      VectorFindInt bigVector 1 = -(2 ^ 31 : Int) ∧
      ¬ (VectorFindInt bigVector 1 = -1 ∨ ∃ i : Nat, VectorFindInt bigVector 1 = (i : Int)) := by
  refine ⟨bigVector_reachable, bigVector_size, bigVector_get_1, ?_, ?_, VectorFindInt_bigVector,
    ?_⟩
  · rw [bigVector_cmp]; decide
  · intro j e hj he
    rw [bigVector_get_lt hj] at he
    simp only [Option.some.injEq] at he
    rw [bigVector_cmp, ← he]; decide
  · rw [VectorFindInt_bigVector]
    rintro (h | ⟨i, h⟩)
    · norm_num at h
    · have : (0 : Int) ≤ (i : Int) := Int.ofNat_nonneg i
      rw [← h] at this
      norm_num at this

/-- C12, amended.  For every vector of at most `INT_MAX + 1 = 2 ^ 31` live slots (every index
fits in `int`) and every (non-null) value, `VectorFind` returns the smallest index `i < size`
whose slot is non-null and compares equal to the value under `elem_cmp_func`, and `-1` when
there is no such index.  The function computes an index only: the vector is not changed. -/
theorem VectorFind_smallest_index (vector : Vector α β) (value : β)
    (h : vector.size ≤ INT_MAX + 1) :
    (VectorFindInt vector value = -1 ∧
        ∀ (i : Nat) (e : α), i < vector.size → vector.data[i]? = some (some e) →
          vector.elem_cmp_func e value = false) ∨
      ∃ (i : Nat) (e : α), VectorFindInt vector value = (i : Int) ∧ i < vector.size ∧
        vector.data[i]? = some (some e) ∧ vector.elem_cmp_func e value = true ∧
        ∀ (j : Nat) (e' : α), j < i → vector.data[j]? = some (some e') →
          vector.elem_cmp_func e' value = false := by
  rw [VectorFindInt_eq vector value h]
  exact VectorFind_spec vector value

/-- Witness of C12, amended: the vector holding 5, 7 and 9 and the value 7. -/
theorem VectorFind_smallest_index_witness :
    smallVector.size ≤ INT_MAX + 1 ∧
      ((VectorFindInt smallVector 7 = -1 ∧
          ∀ (i : Nat) (e : Nat), i < smallVector.size → smallVector.data[i]? = some (some e) →
            smallVector.elem_cmp_func e 7 = false) ∨
        ∃ (i : Nat) (e : Nat), VectorFindInt smallVector 7 = (i : Int) ∧ i < smallVector.size ∧
          smallVector.data[i]? = some (some e) ∧ smallVector.elem_cmp_func e 7 = true ∧
          ∀ (j : Nat) (e' : Nat), j < i → smallVector.data[j]? = some (some e') →
            smallVector.elem_cmp_func e' 7 = false) ∧
      VectorFindInt smallVector 7 = 1 :=
  ⟨by decide, VectorFind_smallest_index smallVector 7 (by decide), by decide⟩

theorem VectorEraseInt_no_shift (v : Vector α β) (ind : Nat) (h1 : ind < v.size)
    (h2 : v.size ≤ size_t_of_int (int_of_size_t ind)) :
    VectorEraseInt v ind =
      (SUCCESS, ResizeVector { v with data := v.data.take (v.size - 1) } REMOVE) := by
  unfold VectorEraseInt ArrangeVectorInt
  rw [if_neg (by omega), Nat.sub_eq_zero_of_le h2]
  simp only [ArrangeVectorLoop]
  rw [List.take_append_of_le_length (by unfold Vector.size; omega)]

theorem VectorEraseInt_bigVector :
    VectorEraseInt bigVector (2 ^ 31) =
      (SUCCESS, ResizeVector { bigVector with data := bigVector.data.take (2 ^ 31 + 1) }
        REMOVE) := by
  have h := VectorEraseInt_no_shift bigVector (2 ^ 31)
    (by rw [bigVector_size]; norm_num)
    (by rw [bigVector_size, int_of_size_t_big, size_t_of_int_big]; norm_num)
  rw [h, bigVector_size]
  rfl

/-- Evaluation for C13: for an index of at most `INT_MAX` the conversion at the call of
`ArrangeVector` changes nothing, and `VectorErase` removes the slot `ind`.  The vector
`bigVector` results from `2 ^ 31 + 2` pushes and holds the elements 1 and 2 at the indices
`2 ^ 31` and `2 ^ 31 + 1`.  `VectorErase(vector, 2 ^ 31)` returns 1 and leaves the size
`2 ^ 31 + 1`, but the slot `2 ^ 31` still holds the element 1 and the element 2 is no longer
live: `hole_idx` is `(int) 2147483648 = -2147483648`, the loop of `ArrangeVector` starts at
`2 ^ 64 - 2 ^ 31 >= size` and shifts nothing, and `size--` drops the last slot. -/
theorem VectorErase_above_INT_MAX :
    (∀ (v : Vector Nat Nat) (ind : Nat), ind ≤ INT_MAX → ind < v.size →
        (VectorEraseInt v ind).1 = 1 ∧
        (VectorEraseInt v ind).2.data = v.data.eraseIdx ind) ∧
      VectorReachable some natCmp bigVector ∧ bigVector.size = 2 ^ 31 + 2 ∧
      VectorAt bigVector (2 ^ 31) = some 1 ∧ VectorAt bigVector (2 ^ 31 + 1) = some 2 ∧
      int_of_size_t (2 ^ 31) = -(2 ^ 31 : Int) ∧
      size_t_of_int (-(2 ^ 31 : Int)) = 2 ^ 64 - 2 ^ 31 ∧
      (VectorEraseInt bigVector (2 ^ 31)).1 = 1 ∧
      (VectorEraseInt bigVector (2 ^ 31)).2.size = 2 ^ 31 + 1 ∧
      VectorAt (VectorEraseInt bigVector (2 ^ 31)).2 (2 ^ 31) = some 1 ∧
      (VectorEraseInt bigVector (2 ^ 31)).2.data ≠ bigVector.data.eraseIdx (2 ^ 31) := by
  have hd : (VectorEraseInt bigVector (2 ^ 31)).2.data = bigVector.data.take (2 ^ 31 + 1) := by
    rw [VectorEraseInt_bigVector]
    show (ResizeVector { bigVector with data := bigVector.data.take (2 ^ 31 + 1) }
      REMOVE).data = bigVector.data.take (2 ^ 31 + 1)
    rw [ResizeVector_data]
  have hget : (VectorEraseInt bigVector (2 ^ 31)).2.data[2 ^ 31]? = some (some 1) := by
    rw [hd, List.getElem?_take, if_pos (Nat.lt_succ_self _), bigVector_get_1]
  refine ⟨?_, bigVector_reachable, bigVector_size, ?_, ?_, int_of_size_t_big,
    size_t_of_int_big, ?_, ?_, ?_, ?_⟩
  · intro v ind h1 h2
    rw [VectorEraseInt_eq v h1]
    exact ⟨((VectorErase_spec v ind).1 h2).1, ((VectorErase_spec v ind).1 h2).2.2.1⟩
  · rw [VectorAt_eq, bigVector_get_1]; rfl
  · rw [VectorAt_eq, bigVector_get_2]; rfl
  · rw [VectorEraseInt_bigVector]; rfl
  · unfold Vector.size
    rw [hd, List.length_take, bigVector_data, List.length_append, List.length_replicate]
    norm_num
  · rw [VectorAt_eq, hget]; rfl
  · intro h
    have h2 : (bigVector.data.eraseIdx (2 ^ 31))[2 ^ 31]? = some (some 2) := by
      rw [List.getElem?_eraseIdx, if_neg (by norm_num), bigVector_get_2]
    rw [← h, hget] at h2
    simp at h2

/-- Counterexample to C14: the elements 5 and 7 are unequal under the comparison function
`neverCmp`, which never reports equality, and after their pushes `VectorFind` returns -1 for
both of them, not their indices 0 and 1. -/
theorem VectorFind_never_equal :
    [5, 7].Pairwise (fun a b => neverCmp a b = false ∧ neverCmp b a = false) ∧
      VectorAt (pushAll [5, 7] (VectorAlloc some neverCmp)) 0 = some 5 ∧
      VectorAt (pushAll [5, 7] (VectorAlloc some neverCmp)) 1 = some 7 ∧
      VectorFindInt (pushAll [5, 7] (VectorAlloc some neverCmp)) 5 = -1 ∧
      VectorFindInt (pushAll [5, 7] (VectorAlloc some neverCmp)) 7 = -1 := by
  decide

/-- C14, amended.  After the pushes of `x_0, ..., x_(n-1)` into a new vector, with a copy
function that succeeds (`cpy`): `size = n`, `capacity >= n`, and `VectorAt(vector, i)` is the
copy of `x_i` for every `i < n`.  When moreover `n <= INT_MAX + 1`, the copy of every `x_i`
compares equal to `x_i`, and the copy of no earlier element compares equal to a later one,
then `VectorFind(vector, x_i) = i` for every `i`. -/
theorem VectorPushBack_elements (cpy : α → α) (cmp : α → α → Bool) (xs : List α) :
    (pushAll xs (VectorAlloc (fun x => some (cpy x)) cmp)).size = xs.length ∧
      xs.length ≤ (pushAll xs (VectorAlloc (fun x => some (cpy x)) cmp)).capacity ∧
      (∀ i (hi : i < xs.length),
        VectorAt (pushAll xs (VectorAlloc (fun x => some (cpy x)) cmp)) i = some (cpy xs[i])) ∧
      (xs.length ≤ INT_MAX + 1 → (∀ x ∈ xs, cmp (cpy x) x = true) →
        xs.Pairwise (fun a b => cmp (cpy a) b = false) →
        ∀ i (hi : i < xs.length),
          VectorFindInt (pushAll xs (VectorAlloc (fun x => some (cpy x)) cmp)) xs[i] =
            (i : Int)) := by
  have hd := pushAll_data cpy xs (VectorAlloc (fun x => some (cpy x)) cmp) rfl
  have hdata : (pushAll xs (VectorAlloc (fun x => some (cpy x)) cmp)).data =
      xs.map (fun x => some (cpy x)) := by rw [hd.1]; rfl
  have hcmp : (pushAll xs (VectorAlloc (fun x => some (cpy x)) cmp)).elem_cmp_func = cmp := hd.2
  have hr : VectorReachable (fun x => some (cpy x)) cmp
      (pushAll xs (VectorAlloc (fun x => some (cpy x)) cmp)) :=
    pushAll_reachable xs _ VectorReachable.alloc
  have hsize : (pushAll xs (VectorAlloc (fun x => some (cpy x)) cmp)).size = xs.length := by
    unfold Vector.size; rw [hdata, List.length_map]
  have hget : ∀ i (hi : i < xs.length),
      (pushAll xs (VectorAlloc (fun x => some (cpy x)) cmp)).data[i]? = some (some (cpy xs[i])) := by
    intro i hi
    rw [hdata, List.getElem?_map, List.getElem?_eq_getElem hi]; rfl
  refine ⟨hsize, ?_, ?_, ?_⟩
  · have := hr.bound.2
    rw [← hsize]; exact Nat.le_of_lt this
  · intro i hi
    rw [VectorAt_eq, hget i hi]; rfl
  · intro hn hrefl hne i hi
    rw [VectorFindInt_eq _ _ (by rw [hsize]; exact hn)]
    rcases VectorFind_spec (pushAll xs (VectorAlloc (fun x => some (cpy x)) cmp)) xs[i] with
      ⟨_, h2⟩ | ⟨j, e, h1, hj, h2, h3, h4⟩
    · have := h2 i (cpy xs[i]) (by rw [hsize]; exact hi) (hget i hi)
      rw [hcmp, hrefl _ (List.getElem_mem hi)] at this
      cases this
    · rw [h1]
      have hjl : j < xs.length := by
        have := (List.getElem?_eq_some_iff.1 h2).1
        rw [hdata, List.length_map] at this; exact this
      have he : e = cpy xs[j] := by
        have := hget j hjl
        rw [h2] at this
        simpa using this
      rcases Nat.lt_trichotomy j i with hlt | heq | hgt
      · have := List.pairwise_iff_getElem.1 hne j i hjl hi hlt
        rw [hcmp, he, this] at h3
        cases h3
      · rw [heq]
      · have := h4 i (cpy xs[i]) hgt (hget i hi)
        rw [hcmp, hrefl _ (List.getElem_mem hi)] at this
        cases this

/-- Witness of C14, amended: the pushes of 1, ..., 13 into a vector of natural numbers
compared by equality; the thirteenth push doubles the capacity to 32, and the element 13 is
found at index 12. -/
theorem VectorPushBack_elements_witness :
    (pushAll elems13 (VectorAlloc (fun x => some (id x)) natCmp)).capacity = 32 ∧
      elems13.length ≤ INT_MAX + 1 ∧ (∀ x ∈ elems13, natCmp (id x) x = true) ∧
      elems13.Pairwise (fun a b => natCmp (id a) b = false) ∧
      VectorFindInt (pushAll elems13 (VectorAlloc (fun x => some (id x)) natCmp)) 13 = 12 :=
  ⟨by decide, by decide, by decide, by decide,
    (VectorPushBack_elements id natCmp elems13).2.2.2 (by decide) (by decide) (by decide) 12
      (by decide)⟩

end HashMapC
